import Mathlib

/-!
# SLR(1) parser toolkit: grammar analysis, table construction and the shift/reduce driver

A shallow embedding of `include/grammer.h`, `src/slr/slr.cpp`,
`src/parser/parser.cpp` and `src/lexer/lexer.cpp`.

Conventions of the embedding

* `std::string` is `String`, `size_t` is `Nat`, `int` is `Int` where the value `-1`
  is stored (table values, `getStateIndex`) and `Nat` for production ids and dot
  positions, which the code only ever builds from `0` and `+ 1`.
* `unordered_set<string>` is a duplicate-free `List String` in insertion order and
  `unordered_map<string, T>` an association list with one entry per key.  The
  iteration order of the C++ containers is unspecified; the embedding iterates in
  insertion order.  The numbers of the states of the canonical collection depend on
  that order, so state numbers below are those of the embedding.
* `vector<T>` used as a stack (`stateStack`, `symbolStack`) is a `List T` whose last
  element is the top (`back()`), exactly as the vector is laid out.
* `do { ... } while (changed)` loops are structural recursions on a fuel argument;
  `none` means that the fuel was too small, never a result of the program.
* Reading past the end of a vector is undefined behaviour in C++; the embedding reads
  a default value (`productions[i]`, `action[state]`) or reports the underflow
  (`pop_back()` / `back()` on an empty stack) as a result of its own.
-/

namespace SLR

/-! ## grammer.h -/

/-- `struct Production` -/
structure Production where
  left : String
  right : List String
  id : Nat
deriving DecidableEq, Repr, Inhabited

/-- `struct Item` -/
structure Item where
  prodId : Nat
  dotPos : Nat
deriving DecidableEq, Repr, Inhabited

/-- `enum ActionType` -/
inductive ActionType where
  | SHIFT
  | REDUCE
  | ACCEPT
  | ERROR
deriving DecidableEq, Repr, Inhabited

/-- `struct TableAction` -/
structure TableAction where
  type : ActionType
  value : Int
deriving DecidableEq, Repr, Inhabited

/-- `struct SyntaxTreeNode` -/
inductive SyntaxTreeNode where
  | mk (symbol : String) (value : String) (children : List SyntaxTreeNode)
deriving Repr, Inhabited

mutual
/-- Structural equality test on syntax trees. -/
def SyntaxTreeNode.decEq : (a b : SyntaxTreeNode) → Decidable (a = b)
  | .mk s v cs, .mk s1 v1 cs1 =>
    if h1 : s = s1 then
      if h2 : v = v1 then
        match SyntaxTreeNode.decEqList cs cs1 with
        | isTrue h3 => isTrue (by rw [h1, h2, h3])
        | isFalse h3 => isFalse (fun h => h3 (by injection h))
      else isFalse (fun h => h2 (by injection h))
    else isFalse (fun h => h1 (by injection h))
/-- Structural equality test on lists of syntax trees. -/
def SyntaxTreeNode.decEqList : (a b : List SyntaxTreeNode) → Decidable (a = b)
  | [], [] => isTrue rfl
  | [], _ :: _ => isFalse (fun h => by cases h)
  | _ :: _, [] => isFalse (fun h => by cases h)
  | a :: as, b :: bs =>
    match SyntaxTreeNode.decEq a b with
    | isTrue h1 =>
      match SyntaxTreeNode.decEqList as bs with
      | isTrue h2 => isTrue (by rw [h1, h2])
      | isFalse h2 => isFalse (fun h => h2 (by injection h))
    | isFalse h1 => isFalse (fun h => h1 (by injection h))
end

instance : DecidableEq SyntaxTreeNode := SyntaxTreeNode.decEq

/-- The field `symbol`. -/
def SyntaxTreeNode.symbol : SyntaxTreeNode → String
  | .mk s _ _ => s

/-- The field `value`. -/
def SyntaxTreeNode.value : SyntaxTreeNode → String
  | .mk _ v _ => v

/-- The field `children`. -/
def SyntaxTreeNode.children : SyntaxTreeNode → List SyntaxTreeNode
  | .mk _ _ cs => cs

/-! ## Containers -/

/-- The empty-string marker the grammar uses for an empty right-hand side. -/
def epsilon : String := "ε"

/-- `unordered_set<string>` -/
abbrev StrSet := List String

/-- `set.insert(x)`: the set afterwards. -/
def StrSet.insert (s : StrSet) (x : String) : StrSet :=
  if x ∈ s then s else s ++ [x]

/-- `unordered_map<string, unordered_set<string>>` -/
abbrev SetMap := List (String × StrSet)

/-- `m[k]` read: a missing key reads as the empty set (which `operator[]` creates). -/
def SetMap.get : SetMap → String → StrSet
  | [], _ => []
  | (k, v) :: rest, x => if k = x then v else SetMap.get rest x

/-- `m[k] = v` -/
def SetMap.set : SetMap → String → StrSet → SetMap
  | [], x, v => [(x, v)]
  | (k, w) :: rest, x, v => if k = x then (k, v) :: rest else (k, w) :: SetMap.set rest x v

/-- `m[k].insert(s)`; the map is returned unchanged when `s` is already a member. -/
def SetMap.insert (m : SetMap) (k : String) (s : String) : SetMap :=
  if s ∈ m.get k then m else m.set k ((m.get k).insert s)

/-- `do { body } while (changed)`: `body` maps the state to the state after one pass and
the value of `changed` at the end of that pass; `none` when `fuel` passes were not
enough. -/
def doWhile {σ : Type} (body : σ → σ × Bool) : Nat → σ → Option σ
  | 0, _ => none
  | fuel + 1, s =>
    let r := body s
    if r.2 then doWhile body fuel r.1 else some r.1

/-! ## slr.cpp: the set engine -/

/-- The data members of `class SLRParser`. -/
structure SLRParser where
  productions : List Production
  nonTerminals : StrSet
  terminals : StrSet
  startSymbol : String
  firstSets : SetMap
  followSets : SetMap
deriving Repr

/-- Lines 28-30: `for term in terminals: firstSets[term].insert(term)`. -/
def initTerminalFirst : List String → SetMap → SetMap
  | [], fs => fs
  | term :: rest, fs => initTerminalFirst rest (fs.insert term term)

/-- Lines 33-35 and 112-114: `for nt in nonTerminals: sets[nt] = {}`. -/
def initEmpty : List String → SetMap → SetMap
  | [], fs => fs
  | nt :: rest, fs => initEmpty rest (fs.set nt [])

/-- Lines 47-51: `for s in firstSets[symbol]: if (s != "ε" && firstSets[A].insert(s).second)
changed = true`.  The first argument is the set iterated over. -/
def firstAddAll (A : String) : List String → SetMap → Bool → SetMap × Bool
  | [], fs, changed => (fs, changed)
  | s :: rest, fs, changed =>
    if s ≠ epsilon ∧ s ∉ fs.get A then firstAddAll A rest (fs.insert A s) true
    else firstAddAll A rest fs changed

/-- Lines 44-58: the loop over `prod.right` with its `break`; the result is
`(firstSets, changed, canDeriveEpsilon)`. -/
def firstRight (A : String) : List String → SetMap → Bool → SetMap × Bool × Bool
  | [], fs, changed => (fs, changed, true)
  | symbol :: rest, fs, changed =>
    let r := firstAddAll A (fs.get symbol) fs changed
    if epsilon ∉ r.1.get symbol then (r.1, r.2, false)
    else firstRight A rest r.1 r.2

/-- Lines 61-63, `if (canDeriveEpsilon && firstSets[A].insert("ε").second) changed = true`,
and again lines 65-68, `if (canDeriveEpsilon && !firstSets[A].count("ε")) { insert; changed
= true }`: both add `ε` to `FIRST(A)` and set `changed` when it was not yet there. -/
def firstEpsilon (A : String) (canDeriveEpsilon : Bool) (st : SetMap × Bool) : SetMap × Bool :=
  if canDeriveEpsilon = true ∧ epsilon ∉ st.1.get A then (st.1.insert A epsilon, true) else st

/-- Lines 70-72: `if (firstSets[A].size() > originalSize) changed = true`. -/
def firstSizeCheck (A : String) (originalSize : Nat) (st : SetMap × Bool) : SetMap × Bool :=
  if (st.1.get A).length > originalSize then (st.1, true) else st

/-- Lines 40-73: the body of the loop over the productions. -/
def firstProd (st : SetMap × Bool) (prod : Production) : SetMap × Bool :=
  let A := prod.left
  let originalSize := (st.1.get A).length
  let r := firstRight A prod.right st.1 st.2
  let canDeriveEpsilon := r.2.2
  firstSizeCheck A originalSize
    (firstEpsilon A canDeriveEpsilon (firstEpsilon A canDeriveEpsilon (r.1, r.2.1)))

/-- One pass of the `do` body, lines 39-73: `changed = false`, then all productions. -/
def firstPass (prods : List Production) (fs : SetMap) : SetMap × Bool :=
  prods.foldl firstProd (fs, false)

/-- `SLRParser::initializeFirstSets` on the (empty) `firstSets` of a fresh object: the two
initialising loops, then `do { ... } while (changed)`, lines 38-74. -/
def initializeFirstSets (fuel : Nat) (prods : List Production) (nts terms : StrSet) :
    Option SetMap :=
  doWhile (firstPass prods) fuel (initEmpty nts (initTerminalFirst terms []))

/-- Lines 133-137 (and 91-95): add the members of `firstSets[symbol]` other than `ε`
to the set being collected. -/
def addNonEpsilon : List String → StrSet → StrSet
  | [], acc => acc
  | s :: rest, acc => if s ≠ epsilon then addNonEpsilon rest (acc.insert s) else addNonEpsilon rest acc

/-- Lines 129-142: the loop over `beta[i+1..]` with its `break`; the result is
`(firstOfRest, canDeriveEpsilon)`. -/
def firstOfRest (firstSets : SetMap) : List String → StrSet → StrSet × Bool
  | [], acc => (acc, true)
  | symbol :: rest, acc =>
    let acc1 := addNonEpsilon (firstSets.get symbol) acc
    if epsilon ∉ firstSets.get symbol then (acc1, false)
    else firstOfRest firstSets rest acc1

/-- Lines 145-149 and 153-157: `for s in set: if (followSets[B].insert(s).second)
changed = true`. -/
def followAddAll (B : String) : List String → SetMap → Bool → SetMap × Bool
  | [], fo, changed => (fo, changed)
  | s :: rest, fo, changed =>
    if s ∉ fo.get B then followAddAll B rest (fo.insert B s) true
    else followAddAll B rest fo changed

/-- Lines 124-159: the loop over the positions `i` of `beta`; the list argument is
`beta[i..]`, so `i == beta.size() - 1` reads `rest = []`. -/
def followRight (firstSets : SetMap) (nts : StrSet) (A : String) :
    List String → SetMap → Bool → SetMap × Bool
  | [], fo, changed => (fo, changed)
  | B :: rest, fo, changed =>
    if B ∉ nts then followRight firstSets nts A rest fo changed
    else
      let r := firstOfRest firstSets rest []
      let s1 := followAddAll B r.1 fo changed
      let s2 := if r.2 = true ∨ rest = [] then followAddAll B (s1.1.get A) s1.1 s1.2 else s1
      followRight firstSets nts A rest s2.1 s2.2

/-- Lines 120-160: the body of the loop over the productions. -/
def followProd (firstSets : SetMap) (nts : StrSet) (st : SetMap × Bool) (prod : Production) :
    SetMap × Bool :=
  followRight firstSets nts prod.left prod.right st.1 st.2

/-- One pass of the `do` body, lines 119-160. -/
def followPass (firstSets : SetMap) (nts : StrSet) (prods : List Production) (fo : SetMap) :
    SetMap × Bool :=
  prods.foldl (followProd firstSets nts) (fo, false)

/-- `SLRParser::initializeFollowSets` on the (empty) `followSets` of a fresh object: the
initialisation, then `do { ... } while (changed)`, lines 118-161. -/
def initializeFollowSets (fuel : Nat) (firstSets : SetMap) (prods : List Production)
    (nts : StrSet) (start : String) : Option SetMap :=
  doWhile (followPass firstSets nts prods) fuel ((initEmpty nts []).insert start "$")

/-- Number of passes after which the `FIRST` loop has certainly stopped: every pass but
the last adds a member of `terminals ∪ {ε}` to the set of some left-hand side. -/
def firstFuel (prods : List Production) (terms : StrSet) : Nat :=
  prods.length * (terms.length + 1) + 1

/-- Number of passes after which the `FOLLOW` loop has certainly stopped: every pass
but the last adds a member of `terminals ∪ {$}` to the set of some non-terminal. -/
def followFuel (nts terms : StrSet) : Nat :=
  nts.length * (terms.length + 1) + 1

/-- The constructor `SLRParser::SLRParser`: stores the grammar, then runs
`initializeFirstSets()` and `initializeFollowSets()`. -/
def SLRParser.new (prods : List Production) (nts terms : StrSet) (start : String) :
    Option SLRParser :=
  match initializeFirstSets (firstFuel prods terms) prods nts terms with
  | none => none
  | some fs =>
    match initializeFollowSets (followFuel nts terms) fs prods nts start with
    | none => none
    | some fo => some ⟨prods, nts, terms, start, fs, fo⟩

/-! ## slr.cpp: the item-set engine -/

/-- `productions[i]` -/
def prodAt (prods : List Production) (i : Nat) : Production := prods.getD i default

/-- Lines 186-207: the loop over all productions for one dotted non-terminal; the last
argument and the result are `newItems`. -/
def closureProds (closureItems : List Item) (symbol : String) :
    List Production → List Item → List Item
  | [], newItems => newItems
  | prod :: rest, newItems =>
    if prod.left ≠ symbol then closureProds closureItems symbol rest newItems
    else
      let newItem : Item := ⟨prod.id, 0⟩
      if newItem ∈ closureItems ∨ newItem ∈ newItems then
        closureProds closureItems symbol rest newItems
      else closureProds closureItems symbol rest (newItems ++ [newItem])

/-- Lines 179-208: the loop over `closureItems`; the first list is the part of
`closureItems` still to visit, the last argument and the result are `newItems`. -/
def closureItemsPass (prods : List Production) (nts : StrSet) (closureItems : List Item) :
    List Item → List Item → List Item
  | [], newItems => newItems
  | item :: rest, newItems =>
    if item.dotPos ≥ (prodAt prods item.prodId).right.length then
      closureItemsPass prods nts closureItems rest newItems
    else
      let symbol := (prodAt prods item.prodId).right.getD item.dotPos ""
      if symbol ∉ nts then closureItemsPass prods nts closureItems rest newItems
      else closureItemsPass prods nts closureItems rest
        (closureProds closureItems symbol prods newItems)

/-- Lines 176-210: one pass of the `do` body.  `changed` is set exactly when an item is
pushed onto `newItems`, so at the end of the pass it reads `newItems ≠ []`. -/
def closurePass (prods : List Production) (nts : StrSet) (closureItems : List Item) :
    List Item × Bool :=
  let newItems := closureItemsPass prods nts closureItems closureItems []
  (closureItems ++ newItems, decide (newItems ≠ []))

/-- `SLRParser::closure`.  Every pass but the last adds an item `(id, 0)` for a production
id not seen at dot 0 before, so `productions.size() + 1` passes are enough
(`closure_terminates`). -/
def SLRParser.closure (self : SLRParser) (items : List Item) : List Item :=
  (doWhile (closurePass self.productions self.nonTerminals)
    (self.productions.length + 1) items).getD items

/-- Lines 217-225 of `SLRParser::goTo`: the kernel items. -/
def SLRParser.goToKernel (self : SLRParser) (symbol : String) : List Item → List Item
  | [] => []
  | item :: rest =>
    let prod := prodAt self.productions item.prodId
    if item.dotPos < prod.right.length ∧ prod.right.getD item.dotPos "" = symbol then
      ⟨item.prodId, item.dotPos + 1⟩ :: self.goToKernel symbol rest
    else self.goToKernel symbol rest

/-- `SLRParser::goTo` -/
def SLRParser.goTo (self : SLRParser) (items : List Item) (symbol : String) : List Item :=
  self.closure (self.goToKernel symbol items)

/-- Lines 266-274: the symbols that follow a dot in `items`. -/
def SLRParser.dotSymbols (self : SLRParser) : List Item → StrSet → StrSet
  | [], symbols => symbols
  | item :: rest, symbols =>
    let prod := prodAt self.productions item.prodId
    if item.dotPos < prod.right.length then
      self.dotSymbols rest (symbols.insert (prod.right.getD item.dotPos ""))
    else self.dotSymbols rest symbols

/-- Lines 277-303: the loop over `symbols` for one state; the last argument and the
result are `temp_canonicalCollection`. -/
def SLRParser.expandState (self : SLRParser) (canonicalCollection : List (List Item))
    (items : List Item) : List String → List (List Item) → List (List Item)
  | [], temp => temp
  | symbol :: rest, temp =>
    let nextItems := self.goTo items symbol
    if nextItems ≠ [] then
      if nextItems ∈ canonicalCollection ∨ nextItems ∈ temp then
        self.expandState canonicalCollection items rest temp
      else self.expandState canonicalCollection items rest (temp ++ [nextItems])
    else self.expandState canonicalCollection items rest temp

/-- Lines 263-304: the loop over the states `canonicalCollection[last_size..oldSize)`;
the first list is that slice. -/
def SLRParser.expandStates (self : SLRParser) (canonicalCollection : List (List Item)) :
    List (List Item) → List (List Item) → List (List Item)
  | [], temp => temp
  | items :: rest, temp =>
    self.expandStates canonicalCollection rest
      (self.expandState canonicalCollection items (self.dotSymbols items []) temp)

/-- Lines 307-321: merge `temp_canonicalCollection` into a copy of the collection. -/
def mergeStates : List (List Item) → List (List Item) → List (List Item)
  | [], merged => merged
  | newItems :: rest, merged =>
    if newItems ∈ merged then mergeStates rest merged
    else mergeStates rest (merged ++ [newItems])

/-- Lines 256-322: one pass of the `do` body; the state carried from pass to pass is
the collection and `oldSize`.  `changed` is set exactly when a state is pushed onto
`temp_canonicalCollection` (line 297) or onto `merged` (line 319); the latter can only
happen after the former, so at the end of the pass it reads `temp ≠ []`. -/
def SLRParser.canonicalPass (self : SLRParser) (st : List (List Item) × Nat) :
    (List (List Item) × Nat) × Bool :=
  let canonicalCollection := st.1
  let last_size := st.2
  let oldSize := canonicalCollection.length
  let temp := self.expandStates canonicalCollection
    ((canonicalCollection.take oldSize).drop last_size) []
  let merged := mergeStates temp canonicalCollection
  ((merged, oldSize), decide (temp ≠ []))

/-- `SLRParser::constructCanonicalCollection` -/
def SLRParser.constructCanonicalCollection (self : SLRParser) (fuel : Nat) :
    Option (List (List Item)) :=
  (doWhile self.canonicalPass fuel ([self.closure [⟨0, 0⟩]], 0)).map Prod.fst

/-! ## slr.cpp: the table builder -/

/-- `unordered_map<string, T>` -/
abbrev StrMap (α : Type) := List (String × α)

/-- `m.find(k)` / `m.count(k)` / `m.at(k)` -/
def StrMap.find? {α : Type} : StrMap α → String → Option α
  | [], _ => none
  | (k, v) :: rest, x => if k = x then some v else StrMap.find? rest x

/-- `m[k] = v` -/
def StrMap.assign {α : Type} : StrMap α → String → α → StrMap α
  | [], x, v => [(x, v)]
  | (k, w) :: rest, x, v =>
    if k = x then (k, v) :: rest else (k, w) :: StrMap.assign rest x v

/-- `struct AnalysisTables` of `SyntaxParser` -/
structure AnalysisTables where
  action : List (StrMap TableAction)
  goto_ : List (StrMap Int)
deriving DecidableEq, Repr, Inhabited

/-- `SLRParser::getStateIndex` -/
def getStateIndex (items : List Item) : List (List Item) → Nat → Int
  | [], _ => -1
  | st :: rest, i => if st = items then (i : Int) else getStateIndex items rest (i + 1)

/-- Lines 368-370: `for followSym in followSets[prod.left]: actionRow[followSym] =
{REDUCE, prod.id}`. -/
def assignReduce (prodId : Nat) : List String → StrMap TableAction → StrMap TableAction
  | [], actionRow => actionRow
  | followSym :: rest, actionRow =>
    assignReduce prodId rest (actionRow.assign followSym ⟨ActionType.REDUCE, (prodId : Int)⟩)

/-- Lines 360-373: the reduce and accept entries of one state. -/
def SLRParser.reduceEntries (self : SLRParser) :
    List Item → StrMap TableAction → StrMap TableAction
  | [], actionRow => actionRow
  | item :: rest, actionRow =>
    let prod := prodAt self.productions item.prodId
    if item.dotPos = prod.right.length then
      if prod.left = self.startSymbol then
        self.reduceEntries rest (actionRow.assign "$" ⟨ActionType.ACCEPT, -1⟩)
      else
        self.reduceEntries rest (assignReduce prod.id (self.followSets.get prod.left) actionRow)
    else self.reduceEntries rest actionRow

/-- Lines 376-395: the shift and goto entries of one state; the state carried is
`(actionRow, gotoRow, processedSymbols)`. -/
def SLRParser.shiftEntries (self : SLRParser) (canonicalCollection : List (List Item))
    (items : List Item) :
    List Item → StrMap TableAction × StrMap Int × StrSet → StrMap TableAction × StrMap Int × StrSet
  | [], st => st
  | item :: rest, st =>
    let prod := prodAt self.productions item.prodId
    if item.dotPos < prod.right.length then
      let symbol := prod.right.getD item.dotPos ""
      if symbol ∈ st.2.2 then self.shiftEntries canonicalCollection items rest st
      else
        let processed := st.2.2.insert symbol
        let nextItems := self.goTo items symbol
        let nextState := getStateIndex nextItems canonicalCollection 0
        if nextState = -1 then
          self.shiftEntries canonicalCollection items rest (st.1, st.2.1, processed)
        else if symbol ∈ self.terminals then
          self.shiftEntries canonicalCollection items rest
            (st.1.assign symbol ⟨ActionType.SHIFT, nextState⟩, st.2.1, processed)
        else if symbol ∈ self.nonTerminals then
          self.shiftEntries canonicalCollection items rest
            (st.1, st.2.1.assign symbol nextState, processed)
        else self.shiftEntries canonicalCollection items rest (st.1, st.2.1, processed)
    else self.shiftEntries canonicalCollection items rest st

/-- Lines 355-395: the two rows of state `items`, starting from the empty rows that
`resize` created. -/
def SLRParser.buildRow (self : SLRParser) (canonicalCollection : List (List Item))
    (items : List Item) : StrMap TableAction × StrMap Int :=
  let r := self.shiftEntries canonicalCollection items items (self.reduceEntries items [], [], [])
  (r.1, r.2.1)

/-- Lines 351-396 of `SLRParser::buildSLRTable`, for a given canonical collection. -/
def SLRParser.tablesOf (self : SLRParser) (canonicalCollection : List (List Item)) :
    AnalysisTables :=
  let rows := canonicalCollection.map (self.buildRow canonicalCollection)
  ⟨rows.map Prod.fst, rows.map Prod.snd⟩

/-- `SLRParser::buildSLRTable` into empty tables.  The function has no failure path:
once the canonical collection is there, tables are returned. -/
def SLRParser.buildSLRTable (self : SLRParser) (fuel : Nat) : Option AnalysisTables :=
  match self.constructCanonicalCollection fuel with
  | none => none
  | some canonicalCollection => some (self.tablesOf canonicalCollection)

/-! ## parser.cpp: tokens and the token-type mapping -/

/-- Modelled from the spec: the token-category enumeration that `parser.cpp` switches on
is not declared in the sources (`lexer.cpp` declares only `KEYWORD`, `IDENTIFIER`,
`NUMBER`, `OPERATOR`, `DELIMITER`, `STRING`, `COMMENT`, `$` and `UNKNOWN`).  The
constructors are the categories named in `SyntaxParser::tokenTypeToTerminal` together
with those of `lexer.cpp`; `DOLLAR` stands for the enumerator spelled `$`. -/
inductive TokenType where
  | KEYWORD
  | IDENTIFIER
  | NUMBER
  | OPERATOR
  | DELIMITER
  | STRING
  | COMMENT
  | DOLLAR
  | UNKNOWN
  | TYPE
  | IF
  | ELSE
  | WHILE
  | FOR
  | ASSIGNMENT
  | LEFT_PAREN
  | RIGHT_PAREN
  | LEFT_BRACE
  | RIGHT_BRACE
  | SEMICOLON
  | COMMA
deriving DecidableEq, Repr, Inhabited

/-- `struct Token`; the default constructor gives `(UNKNOWN, "", 0)`. -/
structure Token where
  type : TokenType
  value : String
  line : Nat
deriving DecidableEq, Repr

instance : Inhabited Token := ⟨⟨TokenType.UNKNOWN, "", 0⟩⟩

/-- The table `opMap` of `tokenTypeToTerminal`. -/
def opMap : StrMap String :=
  [("+", "PLUS"), ("-", "MINUS"), ("*", "MUL"), ("/", "DIV"),
   ("=", "ASSIGN"), ("==", "EQ"), ("!=", "NEQ"), ("<", "LT"),
   ("<=", "LEQ"), (">", "GT"), (">=", "GEQ"), ("&&", "AND"),
   ("||", "OR"), ("!", "NOT"), ("++", "INC"), ("--", "DEC"),
   ("+=", "ADD_ASSIGN"), ("-=", "SUB_ASSIGN"), ("*=", "MUL_ASSIGN"), ("/=", "DIV_ASSIGN")]

/-- `SyntaxParser::tokenTypeToTerminal` -/
def tokenTypeToTerminal (token : Token) : String :=
  match token.type with
  | TokenType.TYPE => token.value
  | TokenType.IDENTIFIER => "IDENTIFIER"
  | TokenType.IF => "IF"
  | TokenType.ELSE => "ELSE"
  | TokenType.WHILE => "WHILE"
  | TokenType.FOR => "FOR"
  | TokenType.OPERATOR =>
    match opMap.find? token.value with
    | some name => name
    | none => "UNKNOWN_OP"
  | TokenType.ASSIGNMENT => "ASSIGNMENT"
  | TokenType.LEFT_PAREN => "LEFT_PAREN"
  | TokenType.RIGHT_PAREN => "RIGHT_PAREN"
  | TokenType.LEFT_BRACE => "LEFT_BRACE"
  | TokenType.RIGHT_BRACE => "RIGHT_BRACE"
  | TokenType.SEMICOLON => "SEMICOLON"
  | TokenType.COMMA => "COMMA"
  | TokenType.NUMBER => "NUMBER"
  | TokenType.STRING => "STRING"
  | TokenType.DOLLAR => "$"
  | _ => "UNKNOWN"

/-! ## parser.cpp: the driver -/

/-- What leaves `parse()` other than a tree: a `runtime_error` with its message, the
`out_of_range` of `unordered_map::at`, or undefined behaviour of a vector access. -/
inductive ParseError where
  | runtimeError (what : String)
  | outOfRange
  | undefinedBehaviour
deriving DecidableEq, Repr

/-- Equality of results is decidable. -/
instance instDecidableEqResult {α : Type} [DecidableEq α] : DecidableEq (Except ParseError α)
  | .ok a, .ok b => if h : a = b then isTrue (by rw [h]) else isFalse (fun h1 => h (by injection h1))
  | .error a, .error b =>
    if h : a = b then isTrue (by rw [h]) else isFalse (fun h1 => h (by injection h1))
  | .ok _, .error _ => isFalse (fun h => by cases h)
  | .error _, .ok _ => isFalse (fun h => by cases h)

/-- The data members of `class SyntaxParser` that the driver reads. -/
structure SyntaxParser where
  tables_ : AnalysisTables
  productions_ : List Production
deriving DecidableEq, Repr

/-- `struct ParseContext`; the top of a stack is the last element. -/
structure ParseContext where
  tokens : List Token
  pos : Nat
  stateStack : List Int
  symbolStack : List SyntaxTreeNode
deriving DecidableEq

/-- The `ParseContext` that `parse()` starts from: the default member initialisers and
the tokens. -/
def ParseContext.init (tokens : List Token) : ParseContext :=
  ⟨tokens, 0, [0], []⟩

/-- `tables_.action[state]` -/
def SyntaxParser.actionRow (self : SyntaxParser) (state : Int) : StrMap TableAction :=
  self.tables_.action.getD state.toNat []

/-- `tables_.goto_[state]` -/
def SyntaxParser.gotoRow (self : SyntaxParser) (state : Int) : StrMap Int :=
  self.tables_.goto_.getD state.toNat []

/-- `SyntaxParser::getAction` -/
def SyntaxParser.getAction (self : SyntaxParser) (state : Int) (token : Token) : TableAction :=
  let terminal := tokenTypeToTerminal token
  match (self.actionRow state).find? terminal with
  | some a => a
  | none => ⟨ActionType.ERROR, -1⟩

/-- `SyntaxParser::performShift` -/
def performShift (newState : Int) (token : String) (context : ParseContext) : ParseContext :=
  { context with
    stateStack := context.stateStack ++ [newState]
    symbolStack := context.symbolStack ++
      [SyntaxTreeNode.mk token (context.tokens.getD context.pos default).value []]
    pos := context.pos + 1 }

/-- Lines 276-280 of `performReduction`: the loop that pops `prod.right.size()` entries;
the state carried is the two stacks and `node->children`. -/
def reducePop : Nat → List Int → List SyntaxTreeNode → List SyntaxTreeNode →
    Except ParseError (List Int × List SyntaxTreeNode × List SyntaxTreeNode)
  | 0, stateStack, symbolStack, children => .ok (stateStack, symbolStack, children)
  | n + 1, stateStack, symbolStack, children =>
    if stateStack = [] then .error ParseError.undefinedBehaviour
    else
      match symbolStack.getLast? with
      | none => .error ParseError.undefinedBehaviour
      | some back => reducePop n stateStack.dropLast symbolStack.dropLast (back :: children)

/-- `SyntaxParser::performReduction` -/
def SyntaxParser.performReduction (self : SyntaxParser) (prodId : Int) (context : ParseContext) :
    Except ParseError ParseContext :=
  let prod := prodAt self.productions_ prodId.toNat
  match reducePop prod.right.length context.stateStack context.symbolStack [] with
  | .error e => .error e
  | .ok (stateStack, symbolStack, children) =>
    match stateStack.getLast? with
    | none => .error ParseError.undefinedBehaviour
    | some currentState =>
      match (self.gotoRow currentState).find? prod.left with
      | none => .error ParseError.outOfRange
      | some newState =>
        .ok { context with
              stateStack := stateStack ++ [newState]
              symbolStack := symbolStack ++ [SyntaxTreeNode.mk prod.left "" children] }

/-- `SyntaxParser::finalizeParsing` -/
def finalizeParsing (context : ParseContext) : Except ParseError SyntaxTreeNode :=
  match context.symbolStack with
  | [root] => .ok root
  | _ => .error (ParseError.runtimeError "Invalid parse result")

/-- The set `syncSymbols` of `recoverFromError`. -/
def syncSymbols : List String := ["SEMICOLON", "$"]

/-- Lines 314-317 of `recoverFromError`: the loop that advances `pos`.  Every iteration
increases `pos`, so `tokens.size() - pos` iterations are enough. -/
def skipLoop (tokens : List Token) : Nat → Nat → Nat
  | 0, pos => pos
  | fuel + 1, pos =>
    if pos < tokens.length ∧ (tokens.getD pos default).value ∉ syncSymbols then
      skipLoop tokens fuel (pos + 1)
    else pos

/-- Lines 322-329 of `recoverFromError`: the flag `hasValidAction` for the state on top
of the stack; the action is looked up under the lexeme of the current token. -/
def SyntaxParser.recoveryAction (self : SyntaxParser) (tokens : List Token) (pos : Nat)
    (currentState : Int) : Bool :=
  if pos < tokens.length then
    match (self.actionRow currentState).find? (tokens.getD pos default).value with
    | some a => decide (a.type ≠ ActionType.ERROR)
    | none => false
  else false

/-- Lines 320-337 of `recoverFromError`: the loop that pops the stacks.  Every iteration
pops a state, so `stateStack.size()` iterations are enough. -/
def SyntaxParser.popLoop (self : SyntaxParser) (tokens : List Token) (pos : Nat) :
    Nat → List Int → List SyntaxTreeNode → List Int × List SyntaxTreeNode
  | 0, stateStack, symbolStack => (stateStack, symbolStack)
  | fuel + 1, stateStack, symbolStack =>
    match stateStack.getLast? with
    | none => (stateStack, symbolStack)
    | some currentState =>
      if self.recoveryAction tokens pos currentState = true then (stateStack, symbolStack)
      else self.popLoop tokens pos fuel stateStack.dropLast symbolStack.dropLast

/-- `SyntaxParser::recoverFromError` -/
def SyntaxParser.recoverFromError (self : SyntaxParser) (context : ParseContext) :
    Except ParseError ParseContext :=
  let pos := skipLoop context.tokens (context.tokens.length - context.pos) context.pos
  let r := self.popLoop context.tokens pos context.stateStack.length
    context.stateStack context.symbolStack
  if r.1 = [] then .error (ParseError.runtimeError "Fatal parsing error: recovery failed")
  else .ok { context with pos := pos, stateStack := r.1, symbolStack := r.2 }

/-- A line that `handleError` writes to the error stream: the line and the lexeme of
the offending token. -/
structure Diagnostic where
  line : Nat
  token : String
deriving DecidableEq, Repr

/-- The result of `parse()` together with what was written to the error stream. -/
structure ParseOutcome where
  result : Except ParseError SyntaxTreeNode
  diagnostics : List Diagnostic
deriving DecidableEq

/-- What one iteration of the main loop of `parse()` does: it goes on with a new
context, or leaves the function with a tree or an exception; in both cases with the
lines it wrote to the error stream. -/
inductive StepResult where
  | next (context : ParseContext) (reported : List Diagnostic)
  | done (result : Except ParseError SyntaxTreeNode) (reported : List Diagnostic)
deriving DecidableEq

/-- Lines 131-185 of `SyntaxParser::parse`: the body of the main loop.  `handleError`
(lines 300-307) is inlined: it reports the token and calls `recoverFromError`. -/
def SyntaxParser.iteration (self : SyntaxParser) (context : ParseContext) : StepResult :=
  let currentToken := context.tokens.getD context.pos default
  match context.stateStack.getLast? with
  | none => .done (.error ParseError.undefinedBehaviour) []
  | some currentState =>
    let action := self.getAction currentState currentToken
    match action.type with
    | ActionType.SHIFT => .next (performShift action.value currentToken.value context) []
    | ActionType.REDUCE =>
      match self.performReduction action.value context with
      | .error e => .done (.error e) []
      | .ok context1 => .next context1 []
    | ActionType.ACCEPT => .done (finalizeParsing context) []
    | ActionType.ERROR =>
      match self.recoverFromError context with
      | .error e => .done (.error e) [⟨currentToken.line, currentToken.value⟩]
      | .ok context1 => .next context1 [⟨currentToken.line, currentToken.value⟩]

/-- Lines 130-188 of `SyntaxParser::parse`: the main loop, one iteration per unit of
fuel, then the `throw` after the loop. -/
def SyntaxParser.parseLoop (self : SyntaxParser) :
    Nat → ParseContext → List Diagnostic → Option ParseOutcome
  | 0, _, _ => none
  | fuel + 1, context, log =>
    if context.pos < context.tokens.length then
      match self.iteration context with
      | .next context1 reported => self.parseLoop fuel context1 (log ++ reported)
      | .done result reported => some ⟨result, log ++ reported⟩
    else some ⟨.error (ParseError.runtimeError "Unexpected end of input"), log⟩

/-- `SyntaxParser::parse` on the tokens that `lexer_.tokenize()` returned: the sentinel
`Token{$, "$", 0}` is appended and the main loop started. -/
def SyntaxParser.parse (self : SyntaxParser) (fuel : Nat) (lexed : List Token) :
    Option ParseOutcome :=
  self.parseLoop fuel (ParseContext.init (lexed ++ [⟨TokenType.DOLLAR, "$", 0⟩])) []

/-! ## parser.cpp: the built-in grammar -/

/-- `SyntaxParser::initializeProductions` -/
def initializeProductions : List Production :=
  [ ⟨"S'", ["Program"], 0⟩,
    ⟨"Program", ["Statements"], 1⟩,
    ⟨"Statements", ["Statement", "Statements"], 2⟩,
    ⟨"Statements", ["ε"], 3⟩,
    ⟨"Statement", ["DeclStmt"], 4⟩,
    ⟨"Statement", ["AssignStmt"], 5⟩,
    ⟨"Statement", ["IfStmt"], 6⟩,
    ⟨"Statement", ["WhileStmt"], 7⟩,
    ⟨"Statement", ["Compute"], 8⟩,
    ⟨"DeclStmt", ["Type", "IDENTIFIER", "SEMICOLON"], 9⟩,
    ⟨"AssignStmt", ["IDENTIFIER", "ASSIGNMENT", "NUMBER", "SEMICOLON"], 10⟩,
    ⟨"Compute", ["IDENTIFIER", "ASSIGNMENT", "Expr", "SEMICOLON"], 11⟩,
    ⟨"IfStmt", ["IF", "LEFT_PAREN", "Expr", "RIGHT_PAREN", "LEFT_BRACE", "Statements",
      "RIGHT_BRACE", "ElsePart"], 12⟩,
    ⟨"ElsePart", ["ELSE", "LEFT_BRACE", "Statements", "RIGHT_BRACE"], 13⟩,
    ⟨"ElsePart", ["ε"], 14⟩,
    ⟨"WhileStmt", ["WHILE", "LEFT_PAREN", "Expr", "RIGHT_PAREN", "LEFT_BRACE", "Statements",
      "RIGHT_BRACE"], 15⟩,
    ⟨"Expr", ["IDENTIFIER", "OPERATOR", "NUMBER"], 16⟩,
    ⟨"OPERATOR", ["PLUS"], 17⟩,
    ⟨"OPERATOR", ["MUL"], 18⟩,
    ⟨"OPERATOR", ["LT"], 19⟩,
    ⟨"OPERATOR", ["GT"], 20⟩,
    ⟨"Type", ["int"], 21⟩,
    ⟨"Type", ["float"], 22⟩,
    ⟨"Type", ["bool"], 23⟩,
    ⟨"Statements", ["StmtList"], 24⟩,
    ⟨"Statements", ["ε"], 25⟩,
    ⟨"StmtList", ["Statement"], 26⟩,
    ⟨"StmtList", ["Statement", "StmtList"], 27⟩ ]

/-- `SyntaxParser::getNonTerminals`: the left-hand sides, each once. -/
def getNonTerminals : List Production → StrSet → StrSet
  | [], nonTerms => nonTerms
  | prod :: rest, nonTerms => getNonTerminals rest (nonTerms.insert prod.left)

/-- `SyntaxParser::getTerminals` -/
def getTerminals : StrSet :=
  ["IDENTIFIER", "LEFT_PAREN", "RIGHT_PAREN", "LEFT_BRACE",
   "RIGHT_BRACE", "SEMICOLON", "ASSIGNMENT", "IF", "ELSE", "WHILE",
   "PLUS", "MUL", "LT", "GT", "int", "float", "bool", "NUMBER", "$"]

/-- The `SLRParser` that `SyntaxParser::buildSLRTable` constructs for the built-in
grammar. -/
@[irreducible] def builtinSLR : Option SLRParser :=
  SLRParser.new initializeProductions (getNonTerminals initializeProductions []) getTerminals "S'"

/-- `SyntaxParser::buildSLRTable`: construct the `SLRParser`, then let it fill the
tables; the argument bounds the passes of the canonical-collection loop. -/
def SyntaxParser.buildSLRTable (fuel : Nat) : Option AnalysisTables :=
  builtinSLR.bind (fun slrParser => slrParser.buildSLRTable fuel)

/-- The constructor `SyntaxParser::SyntaxParser`: `initializeProductions()`, then
`buildSLRTable()`. -/
def SyntaxParser.new (fuel : Nat) : Option SyntaxParser :=
  (SyntaxParser.buildSLRTable fuel).map (fun tables => ⟨tables, initializeProductions⟩)

/-- `main()`: construct the `SyntaxParser` of the built-in grammar, then call `parse()` on
the tokens of the source text. -/
def SyntaxParser.run (tableFuel parseFuel : Nat) (lexed : List Token) : Option ParseOutcome :=
  (SyntaxParser.new tableFuel).bind (fun parser => parser.parse parseFuel lexed)

/-- The `ACTION` and `GOTO` tables of the built-in grammar, as the constructor computes
them (`new_builtin`): 52 states. -/
def builtinTables : AnalysisTables :=
  ⟨[
    [("IDENTIFIER", ⟨.SHIFT, 12⟩), ("IF", ⟨.SHIFT, 13⟩), ("WHILE", ⟨.SHIFT, 14⟩),
     ("int", ⟨.SHIFT, 15⟩), ("float", ⟨.SHIFT, 16⟩), ("bool", ⟨.SHIFT, 17⟩)],
    [("$", ⟨.ACCEPT, -1⟩)],
    [("$", ⟨.REDUCE, 1⟩)],
    [("$", ⟨.REDUCE, 26⟩), ("RIGHT_BRACE", ⟨.REDUCE, 26⟩), ("IDENTIFIER", ⟨.SHIFT, 12⟩),
     ("IF", ⟨.SHIFT, 13⟩), ("WHILE", ⟨.SHIFT, 14⟩), ("int", ⟨.SHIFT, 15⟩),
     ("float", ⟨.SHIFT, 16⟩), ("bool", ⟨.SHIFT, 17⟩)],
    [("$", ⟨.REDUCE, 25⟩), ("RIGHT_BRACE", ⟨.REDUCE, 25⟩)],
    [("$", ⟨.REDUCE, 24⟩), ("RIGHT_BRACE", ⟨.REDUCE, 24⟩)],
    [("IDENTIFIER", ⟨.REDUCE, 4⟩), ("IF", ⟨.REDUCE, 4⟩), ("WHILE", ⟨.REDUCE, 4⟩),
     ("int", ⟨.REDUCE, 4⟩), ("float", ⟨.REDUCE, 4⟩), ("bool", ⟨.REDUCE, 4⟩), ("$", ⟨.REDUCE, 4⟩),
     ("RIGHT_BRACE", ⟨.REDUCE, 4⟩)],
    [("IDENTIFIER", ⟨.REDUCE, 5⟩), ("IF", ⟨.REDUCE, 5⟩), ("WHILE", ⟨.REDUCE, 5⟩),
     ("int", ⟨.REDUCE, 5⟩), ("float", ⟨.REDUCE, 5⟩), ("bool", ⟨.REDUCE, 5⟩), ("$", ⟨.REDUCE, 5⟩),
     ("RIGHT_BRACE", ⟨.REDUCE, 5⟩)],
    [("IDENTIFIER", ⟨.REDUCE, 6⟩), ("IF", ⟨.REDUCE, 6⟩), ("WHILE", ⟨.REDUCE, 6⟩),
     ("int", ⟨.REDUCE, 6⟩), ("float", ⟨.REDUCE, 6⟩), ("bool", ⟨.REDUCE, 6⟩), ("$", ⟨.REDUCE, 6⟩),
     ("RIGHT_BRACE", ⟨.REDUCE, 6⟩)],
    [("IDENTIFIER", ⟨.REDUCE, 7⟩), ("IF", ⟨.REDUCE, 7⟩), ("WHILE", ⟨.REDUCE, 7⟩),
     ("int", ⟨.REDUCE, 7⟩), ("float", ⟨.REDUCE, 7⟩), ("bool", ⟨.REDUCE, 7⟩), ("$", ⟨.REDUCE, 7⟩),
     ("RIGHT_BRACE", ⟨.REDUCE, 7⟩)],
    [("IDENTIFIER", ⟨.REDUCE, 8⟩), ("IF", ⟨.REDUCE, 8⟩), ("WHILE", ⟨.REDUCE, 8⟩),
     ("int", ⟨.REDUCE, 8⟩), ("float", ⟨.REDUCE, 8⟩), ("bool", ⟨.REDUCE, 8⟩), ("$", ⟨.REDUCE, 8⟩),
     ("RIGHT_BRACE", ⟨.REDUCE, 8⟩)],
    [("IDENTIFIER", ⟨.SHIFT, 20⟩)],
    [("ASSIGNMENT", ⟨.SHIFT, 21⟩)],
    [("LEFT_PAREN", ⟨.SHIFT, 22⟩)],
    [("LEFT_PAREN", ⟨.SHIFT, 23⟩)],
    [("IDENTIFIER", ⟨.REDUCE, 21⟩)],
    [("IDENTIFIER", ⟨.REDUCE, 22⟩)],
    [("IDENTIFIER", ⟨.REDUCE, 23⟩)],
    [("$", ⟨.REDUCE, 2⟩), ("RIGHT_BRACE", ⟨.REDUCE, 2⟩)],
    [("$", ⟨.REDUCE, 24⟩), ("RIGHT_BRACE", ⟨.REDUCE, 24⟩)],
    [("SEMICOLON", ⟨.SHIFT, 24⟩)],
    [("NUMBER", ⟨.SHIFT, 25⟩), ("IDENTIFIER", ⟨.SHIFT, 27⟩)],
    [("IDENTIFIER", ⟨.SHIFT, 27⟩)],
    [("IDENTIFIER", ⟨.SHIFT, 27⟩)],
    [("IDENTIFIER", ⟨.REDUCE, 9⟩), ("IF", ⟨.REDUCE, 9⟩), ("WHILE", ⟨.REDUCE, 9⟩),
     ("int", ⟨.REDUCE, 9⟩), ("float", ⟨.REDUCE, 9⟩), ("bool", ⟨.REDUCE, 9⟩), ("$", ⟨.REDUCE, 9⟩),
     ("RIGHT_BRACE", ⟨.REDUCE, 9⟩)],
    [("SEMICOLON", ⟨.SHIFT, 30⟩)],
    [("SEMICOLON", ⟨.SHIFT, 31⟩)],
    [("PLUS", ⟨.SHIFT, 33⟩), ("MUL", ⟨.SHIFT, 34⟩), ("LT", ⟨.SHIFT, 35⟩), ("GT", ⟨.SHIFT, 36⟩)],
    [("RIGHT_PAREN", ⟨.SHIFT, 37⟩)],
    [("RIGHT_PAREN", ⟨.SHIFT, 38⟩)],
    [("IDENTIFIER", ⟨.REDUCE, 10⟩), ("IF", ⟨.REDUCE, 10⟩), ("WHILE", ⟨.REDUCE, 10⟩),
     ("int", ⟨.REDUCE, 10⟩), ("float", ⟨.REDUCE, 10⟩), ("bool", ⟨.REDUCE, 10⟩),
     ("$", ⟨.REDUCE, 10⟩), ("RIGHT_BRACE", ⟨.REDUCE, 10⟩)],
    [("IDENTIFIER", ⟨.REDUCE, 11⟩), ("IF", ⟨.REDUCE, 11⟩), ("WHILE", ⟨.REDUCE, 11⟩),
     ("int", ⟨.REDUCE, 11⟩), ("float", ⟨.REDUCE, 11⟩), ("bool", ⟨.REDUCE, 11⟩),
     ("$", ⟨.REDUCE, 11⟩), ("RIGHT_BRACE", ⟨.REDUCE, 11⟩)],
    [("NUMBER", ⟨.SHIFT, 39⟩)],
    [("NUMBER", ⟨.REDUCE, 17⟩)],
    [("NUMBER", ⟨.REDUCE, 18⟩)],
    [("NUMBER", ⟨.REDUCE, 19⟩)],
    [("NUMBER", ⟨.REDUCE, 20⟩)],
    [("LEFT_BRACE", ⟨.SHIFT, 40⟩)],
    [("LEFT_BRACE", ⟨.SHIFT, 41⟩)],
    [("SEMICOLON", ⟨.REDUCE, 16⟩), ("RIGHT_PAREN", ⟨.REDUCE, 16⟩)],
    [("IDENTIFIER", ⟨.SHIFT, 12⟩), ("IF", ⟨.SHIFT, 13⟩), ("WHILE", ⟨.SHIFT, 14⟩),
     ("int", ⟨.SHIFT, 15⟩), ("float", ⟨.SHIFT, 16⟩), ("bool", ⟨.SHIFT, 17⟩)],
    [("IDENTIFIER", ⟨.SHIFT, 12⟩), ("IF", ⟨.SHIFT, 13⟩), ("WHILE", ⟨.SHIFT, 14⟩),
     ("int", ⟨.SHIFT, 15⟩), ("float", ⟨.SHIFT, 16⟩), ("bool", ⟨.SHIFT, 17⟩)],
    [("RIGHT_BRACE", ⟨.SHIFT, 44⟩)],
    [("RIGHT_BRACE", ⟨.SHIFT, 45⟩)],
    [("ELSE", ⟨.SHIFT, 47⟩)],
    [("IDENTIFIER", ⟨.REDUCE, 15⟩), ("IF", ⟨.REDUCE, 15⟩), ("WHILE", ⟨.REDUCE, 15⟩),
     ("int", ⟨.REDUCE, 15⟩), ("float", ⟨.REDUCE, 15⟩), ("bool", ⟨.REDUCE, 15⟩),
     ("$", ⟨.REDUCE, 15⟩), ("RIGHT_BRACE", ⟨.REDUCE, 15⟩)],
    [("IDENTIFIER", ⟨.REDUCE, 12⟩), ("IF", ⟨.REDUCE, 12⟩), ("WHILE", ⟨.REDUCE, 12⟩),
     ("int", ⟨.REDUCE, 12⟩), ("float", ⟨.REDUCE, 12⟩), ("bool", ⟨.REDUCE, 12⟩),
     ("$", ⟨.REDUCE, 12⟩), ("RIGHT_BRACE", ⟨.REDUCE, 12⟩)],
    [("LEFT_BRACE", ⟨.SHIFT, 49⟩)],
    [("IDENTIFIER", ⟨.REDUCE, 14⟩), ("IF", ⟨.REDUCE, 14⟩), ("WHILE", ⟨.REDUCE, 14⟩),
     ("int", ⟨.REDUCE, 14⟩), ("float", ⟨.REDUCE, 14⟩), ("bool", ⟨.REDUCE, 14⟩),
     ("$", ⟨.REDUCE, 14⟩), ("RIGHT_BRACE", ⟨.REDUCE, 14⟩)],
    [("IDENTIFIER", ⟨.SHIFT, 12⟩), ("IF", ⟨.SHIFT, 13⟩), ("WHILE", ⟨.SHIFT, 14⟩),
     ("int", ⟨.SHIFT, 15⟩), ("float", ⟨.SHIFT, 16⟩), ("bool", ⟨.SHIFT, 17⟩)],
    [("RIGHT_BRACE", ⟨.SHIFT, 51⟩)],
    [("IDENTIFIER", ⟨.REDUCE, 13⟩), ("IF", ⟨.REDUCE, 13⟩), ("WHILE", ⟨.REDUCE, 13⟩),
     ("int", ⟨.REDUCE, 13⟩), ("float", ⟨.REDUCE, 13⟩), ("bool", ⟨.REDUCE, 13⟩),
     ("$", ⟨.REDUCE, 13⟩), ("RIGHT_BRACE", ⟨.REDUCE, 13⟩)]
   ],
   [
    [("Program", 1), ("Statements", 2), ("Statement", 3), ("StmtList", 5), ("DeclStmt", 6),
     ("AssignStmt", 7), ("IfStmt", 8), ("WhileStmt", 9), ("Compute", 10), ("Type", 11)],
    [],
    [],
    [("Statements", 18), ("StmtList", 19), ("Statement", 3), ("DeclStmt", 6), ("AssignStmt", 7),
     ("IfStmt", 8), ("WhileStmt", 9), ("Compute", 10), ("Type", 11)],
    [],
    [],
    [],
    [],
    [],
    [],
    [],
    [],
    [],
    [],
    [],
    [],
    [],
    [],
    [],
    [],
    [],
    [("Expr", 26)],
    [("Expr", 28)],
    [("Expr", 29)],
    [],
    [],
    [],
    [("OPERATOR", 32)],
    [],
    [],
    [],
    [],
    [],
    [],
    [],
    [],
    [],
    [],
    [],
    [],
    [("Statements", 42), ("Statement", 3), ("StmtList", 5), ("DeclStmt", 6), ("AssignStmt", 7),
     ("IfStmt", 8), ("WhileStmt", 9), ("Compute", 10), ("Type", 11)],
    [("Statements", 43), ("Statement", 3), ("StmtList", 5), ("DeclStmt", 6), ("AssignStmt", 7),
     ("IfStmt", 8), ("WhileStmt", 9), ("Compute", 10), ("Type", 11)],
    [],
    [],
    [("ElsePart", 46)],
    [],
    [],
    [],
    [],
    [("Statements", 50), ("Statement", 3), ("StmtList", 5), ("DeclStmt", 6), ("AssignStmt", 7),
     ("IfStmt", 8), ("WhileStmt", 9), ("Compute", 10), ("Type", 11)],
    [],
    []
   ]⟩

/-- The `SyntaxParser` object of the built-in grammar. -/
def builtinParser : SyntaxParser := ⟨builtinTables, initializeProductions⟩

/-! ## slr.cpp: `computeStringFirst` -/

/-- Lines 89-101 of `computeStringFirst`: the loop over `symbols`, which has no `break`;
the state carried is `(result, canDeriveEpsilon)`. -/
def SLRParser.stringFirstLoop (self : SLRParser) : List String → StrSet → Bool → StrSet × Bool
  | [], result, canDeriveEpsilon => (result, canDeriveEpsilon)
  | symbol :: rest, result, canDeriveEpsilon =>
    self.stringFirstLoop rest (addNonEpsilon (self.firstSets.get symbol) result)
      (if epsilon ∉ self.firstSets.get symbol then false else canDeriveEpsilon)

/-- `SLRParser::computeStringFirst` -/
def SLRParser.computeStringFirst (self : SLRParser) (symbols : List String) : StrSet :=
  let r := self.stringFirstLoop symbols [] true
  if r.2 = true then r.1.insert epsilon else r.1

/-! ## lexer.cpp

The source text is read as a sequence of ASCII characters; the character classes are those
of `<cctype>` in the "C" locale. -/

/-- `isdigit` -/
def isdigit (c : Char) : Bool := decide (48 ≤ c.toNat ∧ c.toNat ≤ 57)

/-- `isalpha` -/
def isalpha (c : Char) : Bool :=
  decide ((65 ≤ c.toNat ∧ c.toNat ≤ 90) ∨ (97 ≤ c.toNat ∧ c.toNat ≤ 122))

/-- `isalnum` -/
def isalnum (c : Char) : Bool := isalpha c || isdigit c

/-- `isspace`: space, `\t`, `\n`, `\v`, `\f`, `\r`. -/
def isspace (c : Char) : Bool := decide (c.toNat = 32 ∨ (9 ≤ c.toNat ∧ c.toNat ≤ 13))

/-- `Lexer::Keywords` -/
def Keywords : StrMap TokenType :=
  [("int", TokenType.KEYWORD), ("float", TokenType.KEYWORD), ("double", TokenType.KEYWORD),
   ("char", TokenType.KEYWORD), ("void", TokenType.KEYWORD), ("bool", TokenType.KEYWORD),
   ("if", TokenType.KEYWORD), ("else", TokenType.KEYWORD), ("while", TokenType.KEYWORD),
   ("for", TokenType.KEYWORD), ("return", TokenType.KEYWORD), ("class", TokenType.KEYWORD),
   ("struct", TokenType.KEYWORD), ("true", TokenType.KEYWORD), ("false", TokenType.KEYWORD)]

/-- `Lexer::operators` -/
def operators : StrMap TokenType :=
  [("+", TokenType.OPERATOR), ("-", TokenType.OPERATOR), ("*", TokenType.OPERATOR),
   ("/", TokenType.OPERATOR), ("=", TokenType.OPERATOR), ("==", TokenType.OPERATOR),
   ("!=", TokenType.OPERATOR), ("<", TokenType.OPERATOR), ("<=", TokenType.OPERATOR),
   (">", TokenType.OPERATOR), (">=", TokenType.OPERATOR), ("&&", TokenType.OPERATOR),
   ("||", TokenType.OPERATOR), ("!", TokenType.OPERATOR), ("++", TokenType.OPERATOR),
   ("--", TokenType.OPERATOR), ("+=", TokenType.OPERATOR), ("-=", TokenType.OPERATOR),
   ("*=", TokenType.OPERATOR), ("/=", TokenType.OPERATOR)]

/-- `Lexer::delimiters` -/
def delimiters : StrMap TokenType :=
  [("(", TokenType.DELIMITER), (")", TokenType.DELIMITER), ("\x7b", TokenType.DELIMITER),
   ("\x7d", TokenType.DELIMITER), ("[", TokenType.DELIMITER), ("]", TokenType.DELIMITER),
   (";", TokenType.DELIMITER), (",", TokenType.DELIMITER), (".", TokenType.DELIMITER),
   (":", TokenType.DELIMITER), ("::", TokenType.DELIMITER)]

/-- `class Lexer`: the data members `source`, `pos` and `line`. -/
structure Lexer where
  source : List Char
  pos : Nat
  line : Nat
deriving DecidableEq, Repr

/-- `Lexer::peek` -/
def Lexer.peek (self : Lexer) (offset : Nat) : Char :=
  if self.pos + offset ≥ self.source.length then Char.ofNat 0
  else self.source.getD (self.pos + offset) (Char.ofNat 0)

/-- `Lexer::consume` -/
def Lexer.consume (self : Lexer) : Lexer := { self with pos := self.pos + 1 }

/-- `Lexer::isOperator` -/
def isOperator (c : Char) : Bool := (operators.find? (String.singleton c)).isSome

/-- `Lexer::isDelimiter` -/
def isDelimiter (c : Char) : Bool := (delimiters.find? (String.singleton c)).isSome

/-- The loop of `readNumber`; the state carried is the lexer, `value` and `hasDecimal`.
Every iteration that goes on consumes a character. -/
def readNumberLoop : Nat → Lexer → String → Bool → Lexer × String
  | 0, lexer, value, _ => (lexer, value)
  | fuel + 1, lexer, value, hasDecimal =>
    if lexer.pos < lexer.source.length then
      let current := lexer.peek 0
      if isdigit current = true then
        readNumberLoop fuel lexer.consume (value.push current) hasDecimal
      else if current = '.' ∧ hasDecimal = false then
        readNumberLoop fuel lexer.consume (value.push current) true
      else (lexer, value)
    else (lexer, value)

/-- `Lexer::readNumber` -/
def Lexer.readNumber (self : Lexer) : Token × Lexer :=
  let r := readNumberLoop (self.source.length - self.pos) self "" false
  (⟨TokenType.NUMBER, r.2, r.1.line⟩, r.1)

/-- The loop of `readIdentifier`. -/
def readIdentifierLoop : Nat → Lexer → String → Lexer × String
  | 0, lexer, value => (lexer, value)
  | fuel + 1, lexer, value =>
    if lexer.pos < lexer.source.length then
      let current := lexer.peek 0
      if isalnum current = true ∨ current = '_' then
        readIdentifierLoop fuel lexer.consume (value.push current)
      else (lexer, value)
    else (lexer, value)

/-- `Lexer::readIdentifier` -/
def Lexer.readIdentifier (self : Lexer) : Token × Lexer :=
  let r := readIdentifierLoop (self.source.length - self.pos) self ""
  match Keywords.find? r.2 with
  | some type => (⟨type, r.2, r.1.line⟩, r.1)
  | none => (⟨TokenType.IDENTIFIER, r.2, r.1.line⟩, r.1)

/-- The `switch` of `readString` on the character after a backslash. -/
def unescape (next : Char) : Char :=
  if next = 'n' then '\n'
  else if next = 't' then '\t'
  else next

/-- The loop of `readString`. -/
def readStringLoop : Nat → Lexer → String → Lexer × String
  | 0, lexer, value => (lexer, value)
  | fuel + 1, lexer, value =>
    if lexer.pos < lexer.source.length then
      let current := lexer.peek 0
      if current = '\\' then
        let lexer1 := lexer.consume
        readStringLoop fuel lexer1.consume (value.push (unescape (lexer1.peek 0)))
      else if current = '"' then (lexer.consume, value)
      else readStringLoop fuel lexer.consume (value.push current)
    else (lexer, value)

/-- `Lexer::readString` -/
def Lexer.readString (self : Lexer) : Token × Lexer :=
  let r := readStringLoop (self.source.length - self.pos) self.consume ""
  (⟨TokenType.STRING, r.2, r.1.line⟩, r.1)

/-- The loop of `readLineComment`. -/
def readLineCommentLoop : Nat → Lexer → Lexer
  | 0, lexer => lexer
  | fuel + 1, lexer =>
    if lexer.pos < lexer.source.length then
      if lexer.peek 0 = '\n' then { lexer with line := lexer.line + 1 }.consume
      else readLineCommentLoop fuel lexer.consume
    else lexer

/-- `Lexer::readLineComment` -/
def Lexer.readLineComment (self : Lexer) : Lexer :=
  readLineCommentLoop (self.source.length - self.pos) self.consume.consume

/-- The loop of `readBlockComment`. -/
def readBlockCommentLoop : Nat → Lexer → Lexer
  | 0, lexer => lexer
  | fuel + 1, lexer =>
    if lexer.pos < lexer.source.length then
      if lexer.peek 0 = '*' ∧ lexer.peek 1 = '/' then lexer.consume.consume
      else if lexer.peek 0 = '\n' then
        readBlockCommentLoop fuel { lexer with line := lexer.line + 1 }.consume
      else readBlockCommentLoop fuel lexer.consume
    else lexer

/-- `Lexer::readBlockComment` -/
def Lexer.readBlockComment (self : Lexer) : Lexer :=
  readBlockCommentLoop (self.source.length - self.pos) self.consume.consume

/-- `Lexer::readOperator`; when the lexeme read is not in `operators` control flows off
the end of the function without a `return`, which is undefined behaviour. -/
def Lexer.readOperator (self : Lexer) : Except ParseError (Token × Lexer) :=
  let value := String.singleton (self.peek 0)
  let lexer1 := self.consume
  let r : String × Lexer :=
    if lexer1.pos < lexer1.source.length then
      let twoCharOp := value.push (lexer1.peek 0)
      if (operators.find? twoCharOp).isSome = true then (twoCharOp, lexer1.consume)
      else (value, lexer1)
    else (value, lexer1)
  match operators.find? r.1 with
  | some type => .ok (⟨type, r.1, r.2.line⟩, r.2)
  | none => .error ParseError.undefinedBehaviour

/-- `Lexer::readDelimiter`; the second lookup is under `value.size() > 1`, which is false
for the one character read. -/
def Lexer.readDelimiter (self : Lexer) : Token × Lexer :=
  let value := String.singleton (self.peek 0)
  let lexer1 := self.consume
  match delimiters.find? value with
  | some type => (⟨type, value, lexer1.line⟩, lexer1)
  | none =>
    if value.length > 1 then
      match delimiters.find? value with
      | some type => (⟨type, value, lexer1.line⟩, lexer1)
      | none => (⟨TokenType.UNKNOWN, value, lexer1.line⟩, lexer1)
    else (⟨TokenType.UNKNOWN, value, lexer1.line⟩, lexer1)

/-- The loop of `Lexer::tokenize`, one iteration per unit of fuel; `none` means that the
fuel was too small. -/
def tokenizeLoop : Nat → Lexer → List Token → Option (Except ParseError (List Token))
  | 0, _, _ => none
  | fuel + 1, lexer, tokens =>
    if lexer.pos < lexer.source.length then
      let current := lexer.peek 0
      if isspace current = true then
        tokenizeLoop fuel
          (if current = '\n' then { lexer.consume with line := lexer.line + 1 }
            else lexer.consume) tokens
      else if isdigit current = true then
        tokenizeLoop fuel lexer.readNumber.2 (tokens ++ [lexer.readNumber.1])
      else if isalpha current = true ∨ current = '_' then
        tokenizeLoop fuel lexer.readIdentifier.2 (tokens ++ [lexer.readIdentifier.1])
      else if current = '"' then
        tokenizeLoop fuel lexer.readString.2 (tokens ++ [lexer.readString.1])
      else if current = '/' ∧ lexer.peek 1 = '/' then
        tokenizeLoop fuel lexer.readLineComment tokens
      else if current = '/' ∧ lexer.peek 1 = '*' then
        tokenizeLoop fuel lexer.readBlockComment tokens
      else if isOperator current = true then
        match lexer.readOperator with
        | .error e => some (.error e)
        | .ok r => tokenizeLoop fuel r.2 (tokens ++ [r.1])
      else if isDelimiter current = true then
        tokenizeLoop fuel lexer.readDelimiter.2 (tokens ++ [lexer.readDelimiter.1])
      else
        tokenizeLoop fuel lexer.consume (tokens ++ [⟨TokenType.UNKNOWN, String.singleton current, lexer.line⟩])
    else some (.ok tokens)

/-- `Lexer::Lexer` followed by `Lexer::tokenize`.  Every iteration of the loop consumes a
character, so `source.length() + 1` units of fuel are enough. -/
def tokenize (source : String) : Option (Except ParseError (List Token)) :=
  tokenizeLoop (source.length + 1) ⟨source.toList, 0, 1⟩ []

/-! ## Vocabulary of the statements -/

mutual
/-- The leaves of a tree, the nodes without children, from left to right. -/
def SyntaxTreeNode.leaves : SyntaxTreeNode → List SyntaxTreeNode
  | .mk s v [] => [.mk s v []]
  | .mk _ _ (c :: cs) => SyntaxTreeNode.leavesOfList (c :: cs)
/-- The leaves of a list of trees, from left to right. -/
def SyntaxTreeNode.leavesOfList : List SyntaxTreeNode → List SyntaxTreeNode
  | [] => []
  | c :: cs => c.leaves ++ SyntaxTreeNode.leavesOfList cs
end

mutual
/-- All nodes of a tree, in the order in which `printSyntaxTree` prints them. -/
def SyntaxTreeNode.nodes : SyntaxTreeNode → List SyntaxTreeNode
  | .mk s v cs => .mk s v cs :: SyntaxTreeNode.nodesOfList cs
/-- All nodes of a list of trees. -/
def SyntaxTreeNode.nodesOfList : List SyntaxTreeNode → List SyntaxTreeNode
  | [] => []
  | c :: cs => c.nodes ++ SyntaxTreeNode.nodesOfList cs
end


/-- Every set of `m` is included in the set of `m1` under the same key. -/
def SetMap.Le (m m1 : SetMap) : Prop := ∀ x y, y ∈ m.get x → y ∈ m1.get x

/-- Every member of every set of `m` satisfies `P`. -/
def SetMap.All (P : String → Prop) (m : SetMap) : Prop := ∀ x y, y ∈ m.get x → P y

/-- Between `a` and `b` either nothing happened, or the set under key `A` got a new
member and `changed` was set. -/
def Progress (A : String) (a b : SetMap × Bool) : Prop :=
  b = a ∨ (b.2 = true ∧ ∃ y, y ∉ a.1.get A ∧ y ∈ b.1.get A)

/-- Between `a` and `b` either nothing happened, or a set under a key of `K` got a new
member and `changed` was set. -/
def ProgressIn (K : List String) (a b : SetMap × Bool) : Prop :=
  b = a ∨ (b.2 = true ∧ ∃ A ∈ K, ∃ y, y ∉ a.1.get A ∧ y ∈ b.1.get A)

/-- The number of pairs `(A, y)` with `A` in `K`, `y` in `U` and `y` in the set of `A`:
the measure that the passes of the `FIRST` and `FOLLOW` loops increase. -/
def SetMap.weight (K U : List String) (m : SetMap) : Nat :=
  ((K.toFinset ×ˢ U.toFinset).filter (fun p => p.2 ∈ m.get p.1)).card

/-- What a step of a pass guarantees, seen from the state `a` before it: sets only
grow, only the set of `A` is touched, the flag is raised only when that set grew, and
the members stay within any class that contains `ε`. -/
def StepOk (A : String) (a b : SetMap × Bool) : Prop :=
  a.1.Le b.1 ∧ (∀ x, x ≠ A → b.1.get x = a.1.get x) ∧ Progress A a b ∧
  (∀ P : String → Prop, P epsilon → a.1.All P → b.1.All P)

/-- What a pass guarantees, seen from the state `a` before it: sets only grow, only sets
under keys of `K` are touched, and the flag is raised only when one of those grew. -/
def PassOk (K : List String) (a b : SetMap × Bool) : Prop :=
  a.1.Le b.1 ∧ (∀ x, x ∉ K → b.1.get x = a.1.get x) ∧ ProgressIn K a b

/-- The all-nullable-prefix rule for a string of symbols: `y` is in the `FIRST` set of a
symbol of `beta` all of whose predecessors in `beta` have `ε` in their `FIRST` set. -/
def FirstOfString (firstSets : SetMap) (beta : List String) (y : String) : Prop :=
  ∃ pre sym post, beta = pre ++ sym :: post ∧ (∀ s ∈ pre, epsilon ∈ firstSets.get s) ∧
    y ∈ firstSets.get sym

/-- The tables store `accept` under the end-of-input terminal only. -/
def SyntaxParser.AcceptOnDollar (self : SyntaxParser) : Prop :=
  ∀ row ∈ self.tables_.action, ∀ e ∈ row, e.2.type = ActionType.ACCEPT → e.1 = "$"

/-- Every production that the tables reduce by has a right-hand side of at least one
symbol. -/
def SyntaxParser.ReduceNonEmpty (self : SyntaxParser) : Prop :=
  ∀ row ∈ self.tables_.action, ∀ e ∈ row, e.2.type = ActionType.REDUCE →
    (prodAt self.productions_ e.2.value.toNat).right ≠ []

/-- The lexemes of the leaves of the trees on the symbol stack, from bottom to top and
from left to right. -/
def leafValues (symbolStack : List SyntaxTreeNode) : List String :=
  (SyntaxTreeNode.leavesOfList symbolStack).map SyntaxTreeNode.value

/-- The round-trip invariant of the driver on the input `lexed`: the leaves on the symbol
stack spell the lexemes of the tokens before `pos`. -/
def RoundTrip (lexed : List Token) (c : ParseContext) : Prop :=
  c.tokens = lexed ++ [⟨TokenType.DOLLAR, "$", 0⟩] ∧
    leafValues c.symbolStack = (c.tokens.take c.pos).map Token.value

/-- The number of production ids that occur at dot position 0 in `items`: the measure
that the passes of `closure` increase. -/
def closureWeight (prods : List Production) (items : List Item) : Nat :=
  ((prods.map Production.id).toFinset.filter (fun i => (⟨i, 0⟩ : Item) ∈ items)).card

/-- The assignments `actionRow[key] = action` that lines 360-373 of `buildSLRTable`
perform for one state, in the order in which they are performed (`reduceEntries_eq`). -/
def SLRParser.reduceWrites (self : SLRParser) : List Item → List (String × TableAction)
  | [] => []
  | item :: rest =>
    let prod := prodAt self.productions item.prodId
    if item.dotPos = prod.right.length then
      if prod.left = self.startSymbol then
        ("$", ⟨ActionType.ACCEPT, -1⟩) :: self.reduceWrites rest
      else
        (self.followSets.get prod.left).map
          (fun followSym => (followSym, (⟨ActionType.REDUCE, (prod.id : Int)⟩ : TableAction))) ++
          self.reduceWrites rest
    else self.reduceWrites rest

/-- The assignments `actionRow[symbol] = {SHIFT, nextState}` that lines 378-395 of
`buildSLRTable` perform for one state, in the order in which they are performed; the
last argument is `processedSymbols` (`shiftEntries_eq`). -/
def SLRParser.shiftWrites (self : SLRParser) (canonicalCollection : List (List Item))
    (items : List Item) : List Item → StrSet → List (String × TableAction)
  | [], _ => []
  | item :: rest, processed =>
    let prod := prodAt self.productions item.prodId
    if item.dotPos < prod.right.length then
      let symbol := prod.right.getD item.dotPos ""
      if symbol ∈ processed then self.shiftWrites canonicalCollection items rest processed
      else
        let nextState := getStateIndex (self.goTo items symbol) canonicalCollection 0
        if nextState = -1 then
          self.shiftWrites canonicalCollection items rest (processed.insert symbol)
        else if symbol ∈ self.terminals then
          (symbol, ⟨ActionType.SHIFT, nextState⟩) ::
            self.shiftWrites canonicalCollection items rest (processed.insert symbol)
        else self.shiftWrites canonicalCollection items rest (processed.insert symbol)
    else self.shiftWrites canonicalCollection items rest processed

/-- All assignments to `actionRow` that `buildSLRTable` performs for the state `items`:
first those of the reduce and accept entries, then those of the shift entries. -/
def SLRParser.actionWrites (self : SLRParser) (canonicalCollection : List (List Item))
    (items : List Item) : List (String × TableAction) :=
  self.reduceWrites items ++ self.shiftWrites canonicalCollection items items []

/-- The action that the last assignment under `key` stored, if there was one. -/
def lastWrite : List (String × TableAction) → String → Option TableAction
  | [], _ => none
  | (k, v) :: rest, key =>
    match lastWrite rest key with
    | some w => some w
    | none => if k = key then some v else none

/-- Two assignments of one state store different actions under the same terminal: what
the specification calls a conflict. -/
def SLRParser.Conflict (self : SLRParser) (canonicalCollection : List (List Item))
    (items : List Item) (terminal : String) : Prop :=
  ∃ a b, (terminal, a) ∈ self.actionWrites canonicalCollection items ∧
    (terminal, b) ∈ self.actionWrites canonicalCollection items ∧ a ≠ b

/-- The row that a sequence of assignments leaves, starting from `row`. -/
def applyWrites (row : StrMap TableAction) (writes : List (String × TableAction)) :
    StrMap TableAction :=
  writes.foldl (fun r w => r.assign w.1 w.2) row

/-- The configuration after `n` further iterations of the main loop of `parse()`, when
the loop is still running then. -/
def SyntaxParser.configAfter (self : SyntaxParser) : Nat → ParseContext → Option ParseContext
  | 0, context => some context
  | n + 1, context =>
    if context.pos < context.tokens.length then
      match self.iteration context with
      | .next context1 _ => self.configAfter n context1
      | .done _ _ => none
    else none

/-- The parse-stack invariant: one state more than symbols. -/
def StackInv (c : ParseContext) : Prop :=
  c.stateStack.length = c.symbolStack.length + 1

/-- The shape of the tables around the accepting state 1: `accept` is stored in row 1
only, row 1 holds no shift and no reduce, shift targets are at least 2, `GOTO` targets at
least 1, and the target 1 is stored in row 0 under `Program` only. -/
def SyntaxParser.StartRows (self : SyntaxParser) : Prop :=
  (∀ i, ∀ e ∈ self.tables_.action.getD i [],
    (e.2.type = ActionType.SHIFT → 2 ≤ e.2.value ∧ i ≠ 1) ∧
    (e.2.type = ActionType.REDUCE → i ≠ 1) ∧
    (e.2.type = ActionType.ACCEPT → i = 1)) ∧
  (∀ i, ∀ e ∈ self.tables_.goto_.getD i [], 1 ≤ e.2 ∧ (e.2 = 1 → i = 0 ∧ e.1 = "Program"))

/-- The invariant of the driver behind acceptance: state 0 is at the bottom of the state
stack and nowhere else, the stacks are paired, and when the state 1 is on the stack it is the
only state above state 0 and the only symbol is a `Program` node. -/
def AcceptInv (c : ParseContext) : Prop :=
  ∃ rest, c.stateStack = 0 :: rest ∧ rest.length = c.symbolStack.length ∧
    (∀ s ∈ rest, (1 : Int) ≤ s) ∧
    ((1 : Int) ∈ rest → rest = [1] ∧ ∃ n, c.symbolStack = [n] ∧ n.symbol = "Program")

/-- The symbol after the dot of an item, when the dot is not at the end. -/
def afterDot (prods : List Production) (item : Item) : Option String :=
  if item.dotPos < (prodAt prods item.prodId).right.length then
    some ((prodAt prods item.prodId).right.getD item.dotPos "")
  else none

/-- An item the engine can build: the production id is 0 or the id of a production of the
grammar, and the dot is at a position of `productions[prodId].right` or at its end. -/
def KnownItem (prods : List Production) (x : Item) : Prop :=
  (x.prodId = 0 ∨ x.prodId ∈ prods.map Production.id) ∧
    x.dotPos ≤ (prodAt prods x.prodId).right.length

/-- All the items the engine can build. -/
def itemUniverse (prods : List Production) : List Item :=
  (0 :: prods.map Production.id).flatMap fun p =>
    (List.range ((prodAt prods p).right.length + 1)).map fun d => ⟨p, d⟩

/-- All the duplicate-free lists of items the engine can build. -/
def stateUniverse (prods : List Production) : List (List Item) :=
  (itemUniverse prods).dedup.sublists.flatMap List.permutations

/-- A state of the engine: a duplicate-free list of items it can build. -/
def KnownState (prods : List Production) (s : List Item) : Prop :=
  s.Nodup ∧ ∀ x ∈ s, KnownItem prods x

/-- The list `J` in the description of `goTo(I, X)`: the items `(p, d + 1)` for the items
`(p, d)` of `I` with `d < |right(p)|` and `right(p)[d] = X`, in the order of `I`. -/
def advancedItems (prods : List Production) (X : String) (I : List Item) : List Item :=
  (I.filter fun it => decide (it.dotPos < (prodAt prods it.prodId).right.length ∧
      (prodAt prods it.prodId).right.getD it.dotPos "" = X)).map
    fun it => ⟨it.prodId, it.dotPos + 1⟩

/-- The `SLRParser` object that the constructor builds for the grammar `S' → S`,
`S → a S | b` with the terminals `a`, `b`, `$`. -/
def sampleParser : SLRParser :=
  ⟨[⟨"S'", ["S"], 0⟩, ⟨"S", ["a", "S"], 1⟩, ⟨"S", ["b"], 2⟩], ["S'", "S"], ["a", "b", "$"], "S'",
    [("a", ["a"]), ("b", ["b"]), ("$", ["$"]), ("S'", ["a", "b"]), ("S", ["a", "b"])],
    [("S'", ["$"]), ("S", ["$"])]⟩

/-- The values stored in an `ACTION` entry are in range: a shift target is the index of a
row, a reduce value the index of a production. -/
def ActionInRange (rows prods : Nat) (a : TableAction) : Prop :=
  (a.type = ActionType.SHIFT → 0 ≤ a.value ∧ a.value.toNat < rows) ∧
  (a.type = ActionType.REDUCE → 0 ≤ a.value ∧ a.value.toNat < prods)

/-- The value stored in a `GOTO` entry is the index of a row. -/
def GotoInRange (rows : Nat) (v : Int) : Prop := 0 ≤ v ∧ v.toNat < rows

/-- The tables of a driver hold only values in range, and there is a row for state 0. -/
def SyntaxParser.InRange (self : SyntaxParser) : Prop :=
  0 < self.tables_.action.length ∧
  self.tables_.goto_.length = self.tables_.action.length ∧
  (∀ row ∈ self.tables_.action, ∀ e ∈ row,
    ActionInRange self.tables_.action.length self.productions_.length e.2) ∧
  (∀ row ∈ self.tables_.goto_, ∀ e ∈ row, GotoInRange self.tables_.action.length e.2)

/-- Every state on the state stack is the index of a row of the tables. -/
def SyntaxParser.StatesInRange (self : SyntaxParser) (c : ParseContext) : Prop :=
  ∀ s ∈ c.stateStack, 0 ≤ s ∧ s.toNat < self.tables_.action.length

theorem doWhile_mono {σ : Type} (body : σ → σ × Bool) :
    ∀ (n m : Nat) (s r : σ), n ≤ m → doWhile body n s = some r → doWhile body m s = some r := by
  intro n
  induction n with
  | zero => intro m s r _ h; simp [doWhile] at h
  | succ n ih =>
    intro m s r hle h
    obtain ⟨m, rfl⟩ : ∃ k, m = k + 1 := ⟨m - 1, by omega⟩
    simp only [doWhile] at h ⊢
    by_cases hc : (body s).2 = true
    · simp only [hc, if_true] at h ⊢
      exact ih m _ r (by omega) h
    · simp only [hc] at h ⊢
      exact h

theorem doWhile_unique {σ : Type} (body : σ → σ × Bool) (n m : Nat) (s r r1 : σ)
    (h : doWhile body n s = some r) (h1 : doWhile body m s = some r1) : r = r1 := by
  have a := doWhile_mono body n (max n m) s r (le_max_left _ _) h
  have b := doWhile_mono body m (max n m) s r1 (le_max_right _ _) h1
  rw [a] at b
  exact Option.some.inj b

/-- A loop whose passes increase a bounded measure as long as they report a change
stops within the bound. -/
theorem doWhile_terminates {σ : Type} (body : σ → σ × Bool) (Inv : σ → Prop) (mu : σ → Nat)
    (bound : Nat) (hinv : ∀ s, Inv s → Inv (body s).1)
    (hbound : ∀ s, Inv s → mu s ≤ bound)
    (hgrow : ∀ s, Inv s → (body s).2 = true → mu s < mu (body s).1) :
    ∀ (n : Nat) (s : σ), Inv s → bound < mu s + n → ∃ r, doWhile body n s = some r := by
  intro n
  induction n with
  | zero =>
    intro s hs hlt
    have := hbound s hs
    omega
  | succ n ih =>
    intro s hs hlt
    simp only [doWhile]
    by_cases hc : (body s).2 = true
    · simp only [hc, if_true]
      have := hgrow s hs hc
      exact ih _ (hinv s hs) (by omega)
    · simp only [hc]
      exact ⟨_, rfl⟩

/-- The state a loop returns is the result of a pass that reported no change, and it
satisfies every invariant of the passes. -/
theorem doWhile_result {σ : Type} (body : σ → σ × Bool) (Inv : σ → Prop)
    (hinv : ∀ s, Inv s → Inv (body s).1) :
    ∀ (n : Nat) (s r : σ), Inv s → doWhile body n s = some r →
      ∃ s1, Inv s1 ∧ body s1 = (r, false) := by
  intro n
  induction n with
  | zero => intro s r _ h; simp [doWhile] at h
  | succ n ih =>
    intro s r hs h
    simp only [doWhile] at h
    by_cases hc : (body s).2 = true
    · simp only [hc, if_true] at h
      exact ih _ r (hinv s hs) h
    · simp only [hc] at h
      refine ⟨s, hs, ?_⟩
      have h1 : (body s).1 = r := Option.some.inj h
      have h2 : (body s).2 = false := by simpa using hc
      rw [← h1, ← h2]

/-! ## Sets and maps -/

theorem StrSet.mem_insert (s : StrSet) (x y : String) : y ∈ s.insert x ↔ y ∈ s ∨ y = x := by
  unfold StrSet.insert
  by_cases h : x ∈ s
  · simp only [h, if_true]
    constructor
    · intro hy; exact Or.inl hy
    · rintro (hy | rfl)
      · exact hy
      · exact h
  · simp [h]

theorem StrSet.set_insert_of_mem (s : StrSet) (x : String) (h : x ∈ s) : s.insert x = s := by
  simp [StrSet.insert, h]

theorem SetMap.get_set (m : SetMap) (k x : String) (v : StrSet) :
    (m.set k v).get x = if k = x then v else m.get x := by
  induction m with
  | nil => simp [SetMap.set, SetMap.get]
  | cons e rest ih =>
    obtain ⟨k1, w⟩ := e
    simp only [SetMap.set]
    by_cases h1 : k1 = k
    · subst h1
      by_cases h2 : k1 = x
      · simp [SetMap.get, h2]
      · simp [SetMap.get, h2]
    · by_cases h2 : k1 = x
      · subst h2
        have h3 : ¬ k = k1 := fun h => h1 h.symm
        simp [SetMap.get, h1, h3]
      · simp [SetMap.get, h1, h2, ih]

theorem SetMap.get_insert (m : SetMap) (k x s : String) :
    (m.insert k s).get x = if k = x then (m.get k).insert s else m.get x := by
  unfold SetMap.insert
  by_cases h : s ∈ m.get k
  · simp only [h, if_true]
    by_cases h2 : k = x
    · subst h2
      simp [StrSet.set_insert_of_mem _ _ h]
    · simp [h2]
  · simp only [h, if_false]
    rw [SetMap.get_set]

theorem SetMap.mem_get_insert (m : SetMap) (k x s y : String) :
    y ∈ (m.insert k s).get x ↔ y ∈ m.get x ∨ (k = x ∧ y = s) := by
  rw [SetMap.get_insert]
  by_cases h : k = x
  · subst h
    simp [StrSet.mem_insert]
  · simp [h]

theorem SetMap.map_insert_of_mem (m : SetMap) (k s : String) (h : s ∈ m.get k) :
    m.insert k s = m := by
  simp [SetMap.insert, h]

theorem SetMap.Le.le_refl (m : SetMap) : m.Le m := fun _ _ h => h

theorem SetMap.Le.le_trans {a b c : SetMap} (h1 : a.Le b) (h2 : b.Le c) : a.Le c :=
  fun x y h => h2 x y (h1 x y h)

theorem Progress.progress_trans {A : String} {a b c : SetMap × Bool} (h1 : Progress A a b)
    (h2 : Progress A b c) (hbc : b.1.Le c.1) : Progress A a c := by
  rcases h1 with h1 | ⟨hb, y, hy1, hy2⟩
  · rw [h1] at h2; exact h2
  · rcases h2 with h2 | ⟨hc, _⟩
    · rw [h2]; exact Or.inr ⟨hb, y, hy1, hy2⟩
    · exact Or.inr ⟨hc, y, hy1, hbc A y hy2⟩

theorem Progress.toIn {A : String} {K : List String} {a b : SetMap × Bool} (hA : A ∈ K)
    (h : Progress A a b) : ProgressIn K a b := by
  rcases h with h | ⟨hb, y, hy1, hy2⟩
  · exact Or.inl h
  · exact Or.inr ⟨hb, A, hA, y, hy1, hy2⟩

theorem ProgressIn.in_trans {K : List String} {a b c : SetMap × Bool} (h1 : ProgressIn K a b)
    (h2 : ProgressIn K b c) (hbc : b.1.Le c.1) : ProgressIn K a c := by
  rcases h1 with h1 | ⟨hb, A, hA, y, hy1, hy2⟩
  · rw [h1] at h2; exact h2
  · rcases h2 with h2 | ⟨hc, _⟩
    · rw [h2]; exact Or.inr ⟨hb, A, hA, y, hy1, hy2⟩
    · exact Or.inr ⟨hc, A, hA, y, hy1, hbc A y hy2⟩

theorem SetMap.weight_le (K U : List String) (m : SetMap) :
    m.weight K U ≤ K.length * U.length := by
  unfold SetMap.weight
  calc ((K.toFinset ×ˢ U.toFinset).filter (fun p => p.2 ∈ m.get p.1)).card
      ≤ (K.toFinset ×ˢ U.toFinset).card := Finset.card_filter_le _ _
    _ = K.toFinset.card * U.toFinset.card := Finset.card_product _ _
    _ ≤ K.length * U.length :=
      Nat.mul_le_mul (List.toFinset_card_le K) (List.toFinset_card_le U)

theorem SetMap.weight_lt (K U : List String) (m m1 : SetMap) (hle : m.Le m1)
    (hnew : ∃ A ∈ K, ∃ y ∈ U, y ∉ m.get A ∧ y ∈ m1.get A) :
    m.weight K U < m1.weight K U := by
  unfold SetMap.weight
  apply Finset.card_lt_card
  obtain ⟨A, hA, y, hy, h1, h2⟩ := hnew
  rw [Finset.ssubset_iff_of_subset]
  · refine ⟨(A, y), ?_, ?_⟩
    · simp [hA, hy, h2]
    · simp [h1]
  · intro p hp
    simp only [Finset.mem_filter] at hp ⊢
    exact ⟨hp.1, hle _ _ hp.2⟩

/-! ## `initializeFirstSets` -/

theorem firstAddAll_frame (A x : String) (hx : x ≠ A) :
    ∀ (l : List String) (fs : SetMap) (ch : Bool), (firstAddAll A l fs ch).1.get x = fs.get x := by
  intro l
  induction l with
  | nil => intro fs ch; rfl
  | cons s rest ih =>
    intro fs ch
    simp only [firstAddAll]
    split
    · rw [ih, SetMap.get_insert]
      simp [Ne.symm hx]
    · rw [ih]

theorem firstAddAll_mem (A y : String) :
    ∀ (l : List String) (fs : SetMap) (ch : Bool),
      y ∈ (firstAddAll A l fs ch).1.get A ↔ y ∈ fs.get A ∨ (y ∈ l ∧ y ≠ epsilon) := by
  intro l
  induction l with
  | nil => intro fs ch; simp [firstAddAll]
  | cons s rest ih =>
    intro fs ch
    simp only [firstAddAll]
    split
    · rename_i hc
      rw [ih, SetMap.mem_get_insert]
      constructor
      · rintro ((h | ⟨_, rfl⟩) | ⟨h1, h2⟩)
        · exact Or.inl h
        · exact Or.inr ⟨List.mem_cons_self _ _, hc.1⟩
        · exact Or.inr ⟨List.mem_cons_of_mem _ h1, h2⟩
      · rintro (h | ⟨h1, h2⟩)
        · exact Or.inl (Or.inl h)
        · rcases List.mem_cons.mp h1 with rfl | h1
          · exact Or.inl (Or.inr ⟨rfl, rfl⟩)
          · exact Or.inr ⟨h1, h2⟩
    · rename_i hc
      rw [ih]
      constructor
      · rintro (h | ⟨h1, h2⟩)
        · exact Or.inl h
        · exact Or.inr ⟨List.mem_cons_of_mem _ h1, h2⟩
      · rintro (h | ⟨h1, h2⟩)
        · exact Or.inl h
        · rcases List.mem_cons.mp h1 with rfl | h1
          · left
            by_contra hn
            exact hc ⟨h2, hn⟩
          · exact Or.inr ⟨h1, h2⟩

theorem firstAddAll_le (A : String) (l : List String) (fs : SetMap) (ch : Bool) :
    fs.Le (firstAddAll A l fs ch).1 := by
  intro x y h
  by_cases hx : x = A
  · subst hx
    exact (firstAddAll_mem x y l fs ch).mpr (Or.inl h)
  · rw [firstAddAll_frame A x hx]
    exact h

theorem firstAddAll_progress (A : String) :
    ∀ (l : List String) (fs : SetMap) (ch : Bool),
      Progress A (fs, ch) (firstAddAll A l fs ch) := by
  intro l
  induction l with
  | nil => intro fs ch; exact Or.inl rfl
  | cons s rest ih =>
    intro fs ch
    simp only [firstAddAll]
    split
    · rename_i hc
      refine Progress.progress_trans (b := (fs.insert A s, true)) ?_ (ih _ _) (firstAddAll_le _ _ _ _)
      refine Or.inr ⟨rfl, s, hc.2, ?_⟩
      simp [SetMap.mem_get_insert]
    · exact ih _ _

theorem firstAddAll_all (P : String → Prop) (A : String) :
    ∀ (l : List String) (fs : SetMap) (ch : Bool), (∀ y ∈ l, P y) → fs.All P →
      (firstAddAll A l fs ch).1.All P := by
  intro l fs ch hl hfs x y hy
  by_cases hx : x = A
  · subst hx
    rcases (firstAddAll_mem x y l fs ch).mp hy with h | ⟨h, _⟩
    · exact hfs _ _ h
    · exact hl _ h
  · rw [firstAddAll_frame A x hx] at hy
    exact hfs _ _ hy

theorem firstRight_frame (A x : String) (hx : x ≠ A) :
    ∀ (l : List String) (fs : SetMap) (ch : Bool), (firstRight A l fs ch).1.get x = fs.get x := by
  intro l
  induction l with
  | nil => intro fs ch; rfl
  | cons sym rest ih =>
    intro fs ch
    simp only [firstRight]
    split
    · exact firstAddAll_frame A x hx _ _ _
    · rw [ih, firstAddAll_frame A x hx]

theorem firstRight_le (A : String) :
    ∀ (l : List String) (fs : SetMap) (ch : Bool), fs.Le (firstRight A l fs ch).1 := by
  intro l
  induction l with
  | nil => intro fs ch; exact SetMap.Le.le_refl _
  | cons sym rest ih =>
    intro fs ch
    simp only [firstRight]
    split
    · exact firstAddAll_le _ _ _ _
    · exact SetMap.Le.le_trans (firstAddAll_le _ _ _ _) (ih _ _)

theorem firstRight_progress (A : String) :
    ∀ (l : List String) (fs : SetMap) (ch : Bool),
      Progress A (fs, ch) ((firstRight A l fs ch).1, (firstRight A l fs ch).2.1) := by
  intro l
  induction l with
  | nil => intro fs ch; exact Or.inl rfl
  | cons sym rest ih =>
    intro fs ch
    simp only [firstRight]
    split
    · exact firstAddAll_progress _ _ _ _
    · exact Progress.progress_trans (firstAddAll_progress A (fs.get sym) fs ch) (ih _ _)
        (firstRight_le _ _ _ _)

theorem firstRight_all (P : String → Prop) (A : String) :
    ∀ (l : List String) (fs : SetMap) (ch : Bool), fs.All P → (firstRight A l fs ch).1.All P := by
  intro l
  induction l with
  | nil => intro fs ch h; exact h
  | cons sym rest ih =>
    intro fs ch h
    have h1 := firstAddAll_all P A (fs.get sym) fs ch (fun y hy => h _ _ hy) h
    simp only [firstRight]
    split
    · exact h1
    · exact ih _ _ h1

theorem SetMap.insert_le (m : SetMap) (k s : String) : m.Le (m.insert k s) := by
  intro x y h
  rw [SetMap.mem_get_insert]
  exact Or.inl h

theorem SetMap.insert_all (P : String → Prop) (m : SetMap) (k s : String) (hs : P s)
    (h : m.All P) : (m.insert k s).All P := by
  intro x y hy
  rcases (SetMap.mem_get_insert m k x s y).mp hy with h1 | ⟨_, rfl⟩
  · exact h _ _ h1
  · exact hs

theorem SetMap.insert_frame (m : SetMap) (k s x : String) (hx : x ≠ k) :
    (m.insert k s).get x = m.get x := by
  rw [SetMap.get_insert]
  simp [Ne.symm hx]

theorem StepOk.step_trans {A : String} {a b c : SetMap × Bool} (h1 : StepOk A a b)
    (h2 : StepOk A b c) : StepOk A a c := by
  obtain ⟨a1, a2, a3, a4⟩ := h1
  obtain ⟨b1, b2, b3, b4⟩ := h2
  refine ⟨SetMap.Le.le_trans a1 b1, ?_, Progress.progress_trans a3 b3 b1, ?_⟩
  · intro x hx; rw [b2 x hx, a2 x hx]
  · intro P hP h; exact b4 P hP (a4 P hP h)

theorem firstRight_ok (A : String) (l : List String) (st : SetMap × Bool) :
    StepOk A st ((firstRight A l st.1 st.2).1, (firstRight A l st.1 st.2).2.1) :=
  ⟨firstRight_le _ _ _ _, fun x hx => firstRight_frame A x hx _ _ _,
    firstRight_progress _ _ _ _, fun P _ h => firstRight_all P A _ _ _ h⟩

theorem firstEpsilon_ok (A : String) (c : Bool) (st : SetMap × Bool) :
    StepOk A st (firstEpsilon A c st) := by
  unfold firstEpsilon
  split
  · rename_i hc
    refine ⟨SetMap.insert_le _ _ _, fun x hx => SetMap.insert_frame _ _ _ _ hx, ?_, ?_⟩
    · refine Or.inr ⟨rfl, epsilon, hc.2, ?_⟩
      simp [SetMap.mem_get_insert]
    · intro P hP h
      exact SetMap.insert_all P _ _ _ hP h
  · exact ⟨SetMap.Le.le_refl _, fun _ _ => rfl, Or.inl rfl, fun _ _ h => h⟩

theorem firstProd_ok (st : SetMap × Bool) (prod : Production) :
    StepOk prod.left st (firstProd st prod) := by
  have h := StepOk.step_trans (StepOk.step_trans (firstRight_ok prod.left prod.right st)
    (firstEpsilon_ok prod.left (firstRight prod.left prod.right st.1 st.2).2.2 _))
    (firstEpsilon_ok prod.left (firstRight prod.left prod.right st.1 st.2).2.2 _)
  unfold firstProd firstSizeCheck
  simp only []
  split
  · rename_i hlen
    obtain ⟨b1, b2, b3, b4⟩ := h
    refine ⟨b1, b2, ?_, b4⟩
    rcases b3 with b3 | ⟨_, y, hy1, hy2⟩
    · rw [b3] at hlen
      exact absurd hlen (lt_irrefl _)
    · exact Or.inr ⟨rfl, y, hy1, hy2⟩
  · exact h

theorem PassOk.pass_refl (K : List String) (a : SetMap × Bool) : PassOk K a a :=
  ⟨SetMap.Le.le_refl _, fun _ _ => rfl, Or.inl rfl⟩

theorem PassOk.pass_trans {K : List String} {a b c : SetMap × Bool} (h1 : PassOk K a b)
    (h2 : PassOk K b c) : PassOk K a c := by
  obtain ⟨a1, a2, a3⟩ := h1
  obtain ⟨b1, b2, b3⟩ := h2
  refine ⟨SetMap.Le.le_trans a1 b1, ?_, ProgressIn.in_trans a3 b3 b1⟩
  intro x hx; rw [b2 x hx, a2 x hx]

theorem StepOk.toPass {A : String} {K : List String} {a b : SetMap × Bool} (hA : A ∈ K)
    (h : StepOk A a b) : PassOk K a b := by
  obtain ⟨a1, a2, a3, _⟩ := h
  refine ⟨a1, ?_, Progress.toIn hA a3⟩
  intro x hx
  exact a2 x (fun hxa => hx (hxa ▸ hA))

theorem firstFold_ok (K : List String) :
    ∀ (prods : List Production) (st : SetMap × Bool), (∀ p ∈ prods, p.left ∈ K) →
      PassOk K st (prods.foldl firstProd st) ∧
      (∀ P : String → Prop, P epsilon → st.1.All P → (prods.foldl firstProd st).1.All P) := by
  intro prods
  induction prods with
  | nil => intro st _; exact ⟨PassOk.pass_refl _ _, fun _ _ h => h⟩
  | cons p rest ih =>
    intro st hK
    have h1 := firstProd_ok st p
    obtain ⟨h2, h3⟩ := ih (firstProd st p) (fun q hq => hK q (List.mem_cons_of_mem _ hq))
    simp only [List.foldl_cons]
    refine ⟨PassOk.pass_trans (StepOk.toPass (hK p (List.mem_cons_self _ _)) h1) h2, ?_⟩
    intro P hP h
    exact h3 P hP (h1.2.2.2 P hP h)

theorem firstPass_ok (prods : List Production) (fs : SetMap) :
    PassOk (prods.map Production.left) (fs, false) (firstPass prods fs) ∧
    (∀ P : String → Prop, P epsilon → fs.All P → (firstPass prods fs).1.All P) :=
  firstFold_ok _ prods (fs, false) (fun _ hp => List.mem_map_of_mem _ hp)

/-- A pass that reports a change has increased the weight of the map. -/
theorem weight_lt_of_pass (K U : List String) (m : SetMap) (r : SetMap × Bool)
    (hok : PassOk K (m, false) r) (hall : r.1.All (fun y => y ∈ U)) (hch : r.2 = true) :
    m.weight K U < r.1.weight K U := by
  obtain ⟨h1, _, h3⟩ := hok
  rcases h3 with h3 | ⟨_, A, hA, y, hy1, hy2⟩
  · rw [h3] at hch
    exact absurd hch (by simp)
  · exact SetMap.weight_lt K U m r.1 h1 ⟨A, hA, y, hall _ _ hy2, hy1, hy2⟩

theorem initTerminalFirst_mem (x y : String) :
    ∀ (terms : List String) (fs : SetMap),
      y ∈ (initTerminalFirst terms fs).get x ↔ y ∈ fs.get x ∨ (x ∈ terms ∧ y = x) := by
  intro terms
  induction terms with
  | nil => intro fs; simp [initTerminalFirst]
  | cons t rest ih =>
    intro fs
    simp only [initTerminalFirst]
    rw [ih, SetMap.mem_get_insert]
    constructor
    · rintro ((h | ⟨rfl, rfl⟩) | ⟨h1, h2⟩)
      · exact Or.inl h
      · exact Or.inr ⟨List.mem_cons_self _ _, rfl⟩
      · exact Or.inr ⟨List.mem_cons_of_mem _ h1, h2⟩
    · rintro (h | ⟨h1, h2⟩)
      · exact Or.inl (Or.inl h)
      · rcases List.mem_cons.mp h1 with rfl | h1
        · exact Or.inl (Or.inr ⟨rfl, h2⟩)
        · exact Or.inr ⟨h1, h2⟩

theorem initTerminalFirst_get (a : String) :
    ∀ (terms : List String) (fs : SetMap), a ∈ terms → (fs.get a = [] ∨ fs.get a = [a]) →
      (initTerminalFirst terms fs).get a = [a] := by
  have key : ∀ (terms : List String) (fs : SetMap), fs.get a = [a] →
      (initTerminalFirst terms fs).get a = [a] := by
    intro terms
    induction terms with
    | nil => intro fs h; exact h
    | cons t rest ih =>
      intro fs h
      simp only [initTerminalFirst]
      apply ih
      rw [SetMap.get_insert]
      by_cases ht : t = a
      · subst ht; simp [h, StrSet.insert]
      · simp [ht, h]
  intro terms
  induction terms with
  | nil => intro fs h; simp at h
  | cons t rest ih =>
    intro fs hmem h
    simp only [initTerminalFirst]
    by_cases ht : t = a
    · subst ht
      apply key
      rw [SetMap.get_insert]
      rcases h with h | h <;> simp [h, StrSet.insert]
    · have hmem1 : a ∈ rest := by
        rcases List.mem_cons.mp hmem with h1 | h1
        · exact absurd h1.symm ht
        · exact h1
      apply ih _ hmem1
      rw [SetMap.get_insert]
      simpa [ht] using h

theorem initEmpty_get (x : String) :
    ∀ (nts : List String) (fs : SetMap),
      (initEmpty nts fs).get x = if x ∈ nts then [] else fs.get x := by
  intro nts
  induction nts with
  | nil => intro fs; simp [initEmpty]
  | cons n rest ih =>
    intro fs
    simp only [initEmpty]
    rw [ih, SetMap.get_set]
    by_cases h1 : x ∈ rest
    · simp [h1]
    · by_cases h2 : n = x
      · subst h2; simp [h1]
      · have h3 : ¬ x = n := fun h => h2 h.symm
        simp [h1, h2, h3]

/-- The `FIRST` loop stops: the passes that report a change add a member of
`terminals ∪ {ε}` to the set of a left-hand side. -/
theorem initializeFirstSets_terminates (prods : List Production) (nts terms : StrSet) :
    ∃ fs, initializeFirstSets (firstFuel prods terms) prods nts terms = some fs ∧
      fs.All (fun y => y ∈ terms ++ [epsilon]) := by
  have hinv : ∀ s : SetMap, s.All (fun y => y ∈ terms ++ [epsilon]) →
      (firstPass prods s).1.All (fun y => y ∈ terms ++ [epsilon]) :=
    fun s hs => (firstPass_ok prods s).2 _ (by simp) hs
  have h0 : (initEmpty nts (initTerminalFirst terms [])).All (fun y => y ∈ terms ++ [epsilon]) := by
    intro x y hy
    rw [initEmpty_get] at hy
    by_cases hx : x ∈ nts
    · simp [hx] at hy
    · simp only [hx, if_false] at hy
      rcases (initTerminalFirst_mem x y terms []).mp hy with h | ⟨h1, h2⟩
      · simp [SetMap.get] at h
      · subst h2
        exact List.mem_append_left _ h1
  obtain ⟨r, hr⟩ := doWhile_terminates (firstPass prods)
    (fun s => s.All (fun y => y ∈ terms ++ [epsilon]))
    (SetMap.weight (prods.map Production.left) (terms ++ [epsilon]))
    (prods.length * (terms.length + 1)) hinv
    (fun s _ => by
      have := SetMap.weight_le (prods.map Production.left) (terms ++ [epsilon]) s
      simpa using this)
    (fun s hs hch => weight_lt_of_pass _ _ s _ (firstPass_ok prods s).1 (hinv s hs) hch)
    (firstFuel prods terms) _ h0 (by unfold firstFuel; omega)
  refine ⟨r, hr, ?_⟩
  obtain ⟨s1, hs1, hb⟩ := doWhile_result (firstPass prods)
    (fun s => s.All (fun y => y ∈ terms ++ [epsilon])) hinv _ _ r h0 hr
  have := hinv s1 hs1
  rw [hb] at this
  exact this

/-- The `FIRST` set of a symbol that is no left-hand side and no non-terminal is the one
the initialisation gave it. -/
theorem initializeFirstSets_frame (prods : List Production) (nts terms : StrSet) (fuel : Nat)
    (fs : SetMap) (h : initializeFirstSets fuel prods nts terms = some fs) (a : String)
    (ha : ∀ p ∈ prods, p.left ≠ a) :
    fs.get a = (initEmpty nts (initTerminalFirst terms [])).get a := by
  have hK : a ∉ prods.map Production.left := by
    intro hmem
    obtain ⟨p, hp, hpa⟩ := List.mem_map.mp hmem
    exact ha p hp hpa
  obtain ⟨s1, hs1, hb⟩ := doWhile_result (firstPass prods)
    (fun s => s.get a = (initEmpty nts (initTerminalFirst terms [])).get a)
    (fun s hs => by
      show (firstPass prods s).1.get a = _
      rw [(firstPass_ok prods s).1.2.1 a hK]; exact hs) _ _ fs rfl h
  have := (firstPass_ok prods s1).1.2.1 a hK
  rw [hb] at this
  rw [this, hs1]

/-! ## `initializeFollowSets` -/

theorem followAddAll_frame (B x : String) (hx : x ≠ B) :
    ∀ (l : List String) (fo : SetMap) (ch : Bool), (followAddAll B l fo ch).1.get x = fo.get x := by
  intro l
  induction l with
  | nil => intro fo ch; rfl
  | cons s rest ih =>
    intro fo ch
    simp only [followAddAll]
    split
    · rw [ih, SetMap.insert_frame _ _ _ _ hx]
    · rw [ih]

theorem followAddAll_mem (B y : String) :
    ∀ (l : List String) (fo : SetMap) (ch : Bool),
      y ∈ (followAddAll B l fo ch).1.get B ↔ y ∈ fo.get B ∨ y ∈ l := by
  intro l
  induction l with
  | nil => intro fo ch; simp [followAddAll]
  | cons s rest ih =>
    intro fo ch
    simp only [followAddAll]
    split
    · rw [ih, SetMap.mem_get_insert]
      simp only [true_and, List.mem_cons]
      tauto
    · rename_i hc
      rw [ih]
      simp only [List.mem_cons]
      constructor
      · tauto
      · rintro (h | rfl | h)
        · exact Or.inl h
        · exact Or.inl (by simpa using hc)
        · exact Or.inr h

theorem followAddAll_le (B : String) (l : List String) (fo : SetMap) (ch : Bool) :
    fo.Le (followAddAll B l fo ch).1 := by
  intro x y h
  by_cases hx : x = B
  · subst hx
    exact (followAddAll_mem x y l fo ch).mpr (Or.inl h)
  · rw [followAddAll_frame B x hx]
    exact h

theorem followAddAll_progress (B : String) :
    ∀ (l : List String) (fo : SetMap) (ch : Bool),
      Progress B (fo, ch) (followAddAll B l fo ch) := by
  intro l
  induction l with
  | nil => intro fo ch; exact Or.inl rfl
  | cons s rest ih =>
    intro fo ch
    simp only [followAddAll]
    split
    · rename_i hc
      refine Progress.progress_trans (b := (fo.insert B s, true)) ?_ (ih _ _) (followAddAll_le _ _ _ _)
      refine Or.inr ⟨rfl, s, hc, ?_⟩
      simp [SetMap.mem_get_insert]
    · exact ih _ _

theorem followAddAll_pass (K : List String) (B : String) (hB : B ∈ K) (l : List String)
    (st : SetMap × Bool) : PassOk K st (followAddAll B l st.1 st.2) := by
  refine ⟨followAddAll_le _ _ _ _, ?_, Progress.toIn hB (followAddAll_progress B l st.1 st.2)⟩
  intro x hx
  exact followAddAll_frame B x (fun h => hx (h ▸ hB)) _ _ _

theorem followAddAll_all (P : String → Prop) (B : String) (l : List String) (fo : SetMap)
    (ch : Bool) (hl : ∀ y ∈ l, P y) (hfo : fo.All P) : (followAddAll B l fo ch).1.All P := by
  intro x y hy
  by_cases hx : x = B
  · subst hx
    rcases (followAddAll_mem x y l fo ch).mp hy with h | h
    · exact hfo _ _ h
    · exact hl _ h
  · rw [followAddAll_frame B x hx] at hy
    exact hfo _ _ hy

theorem addNonEpsilon_mem (y : String) :
    ∀ (l : List String) (acc : StrSet),
      y ∈ addNonEpsilon l acc ↔ y ∈ acc ∨ (y ∈ l ∧ y ≠ epsilon) := by
  intro l
  induction l with
  | nil => intro acc; simp [addNonEpsilon]
  | cons s rest ih =>
    intro acc
    simp only [addNonEpsilon]
    split
    · rename_i hc
      rw [ih, StrSet.mem_insert]
      simp only [List.mem_cons]
      constructor
      · rintro ((h | rfl) | ⟨h1, h2⟩)
        · exact Or.inl h
        · exact Or.inr ⟨Or.inl rfl, hc⟩
        · exact Or.inr ⟨Or.inr h1, h2⟩
      · rintro (h | ⟨rfl | h1, h2⟩)
        · exact Or.inl (Or.inl h)
        · exact Or.inl (Or.inr rfl)
        · exact Or.inr ⟨h1, h2⟩
    · rename_i hc
      rw [ih]
      simp only [List.mem_cons]
      constructor
      · rintro (h | ⟨h1, h2⟩)
        · exact Or.inl h
        · exact Or.inr ⟨Or.inr h1, h2⟩
      · rintro (h | ⟨rfl | h1, h2⟩)
        · exact Or.inl h
        · exact absurd h2 hc
        · exact Or.inr ⟨h1, h2⟩

/-- The members of `firstOfRest`: the non-`ε` members of the `FIRST` set of a symbol of
`beta` all of whose predecessors have `ε` in their `FIRST` set. -/
theorem firstOfRest_mem (fs : SetMap) (y : String) :
    ∀ (l : List String) (acc : StrSet),
      y ∈ (firstOfRest fs l acc).1 ↔
        y ∈ acc ∨ ∃ pre sym post, l = pre ++ sym :: post ∧ (∀ s ∈ pre, epsilon ∈ fs.get s) ∧
          y ∈ fs.get sym ∧ y ≠ epsilon := by
  intro l
  induction l with
  | nil =>
    intro acc
    simp only [firstOfRest]
    constructor
    · intro h; exact Or.inl h
    · rintro (h | ⟨pre, sym, post, h, _⟩)
      · exact h
      · simp at h
  | cons s rest ih =>
    intro acc
    simp only [firstOfRest]
    split
    · rename_i hc
      rw [addNonEpsilon_mem]
      constructor
      · rintro (h | ⟨h1, h2⟩)
        · exact Or.inl h
        · exact Or.inr ⟨[], s, rest, rfl, by simp, h1, h2⟩
      · rintro (h | ⟨pre, sym, post, h, hpre, h1, h2⟩)
        · exact Or.inl h
        · cases pre with
          | nil =>
            simp only [List.nil_append, List.cons.injEq] at h
            obtain ⟨rfl, _⟩ := h
            exact Or.inr ⟨h1, h2⟩
          | cons a pre1 =>
            simp only [List.cons_append, List.cons.injEq] at h
            obtain ⟨rfl, _⟩ := h
            exact absurd (hpre _ (List.mem_cons_self _ _)) hc
    · rename_i hc
      have hc1 : epsilon ∈ fs.get s := by simpa using hc
      rw [ih, addNonEpsilon_mem]
      constructor
      · rintro ((h | ⟨h1, h2⟩) | ⟨pre, sym, post, h, hpre, h1, h2⟩)
        · exact Or.inl h
        · exact Or.inr ⟨[], s, rest, rfl, by simp, h1, h2⟩
        · refine Or.inr ⟨s :: pre, sym, post, by simp [h], ?_, h1, h2⟩
          intro t ht
          rcases List.mem_cons.mp ht with rfl | ht
          · exact hc1
          · exact hpre _ ht
      · rintro (h | ⟨pre, sym, post, h, hpre, h1, h2⟩)
        · exact Or.inl (Or.inl h)
        · cases pre with
          | nil =>
            simp only [List.nil_append, List.cons.injEq] at h
            obtain ⟨rfl, _⟩ := h
            exact Or.inl (Or.inr ⟨h1, h2⟩)
          | cons a pre1 =>
            simp only [List.cons_append, List.cons.injEq] at h
            obtain ⟨rfl, rfl⟩ := h
            exact Or.inr ⟨pre1, sym, post, rfl,
              fun t ht => hpre t (List.mem_cons_of_mem _ ht), h1, h2⟩

/-- The flag `canDeriveEpsilon` of `firstOfRest`: every symbol of `beta` has `ε` in its
`FIRST` set. -/
theorem firstOfRest_flag (fs : SetMap) :
    ∀ (l : List String) (acc : StrSet),
      (firstOfRest fs l acc).2 = true ↔ ∀ s ∈ l, epsilon ∈ fs.get s := by
  intro l
  induction l with
  | nil => intro acc; simp [firstOfRest]
  | cons s rest ih =>
    intro acc
    simp only [firstOfRest]
    split
    · rename_i hc
      simp only [Bool.false_eq_true, List.mem_cons, forall_eq_or_imp, false_iff, not_and]
      intro h
      exact absurd h hc
    · rename_i hc
      have hc1 : epsilon ∈ fs.get s := by simpa using hc
      rw [ih]
      simp [hc1]

/-- Lines 151-158: the conditional copy of `FOLLOW(A)` into `FOLLOW(B)`. -/
theorem followCopy_pass (K : List String) (A B : String) (hB : B ∈ K) (c : Prop) [Decidable c]
    (st : SetMap × Bool) :
    PassOk K st (if c then followAddAll B (st.1.get A) st.1 st.2 else st) := by
  split
  · exact followAddAll_pass K B hB _ st
  · exact PassOk.pass_refl _ _

theorem followRight_pass (fs : SetMap) (nts : StrSet) (A : String) :
    ∀ (l : List String) (st : SetMap × Bool),
      PassOk nts st (followRight fs nts A l st.1 st.2) := by
  intro l
  induction l with
  | nil => intro st; exact PassOk.pass_refl _ _
  | cons B rest ih =>
    intro st
    simp only [followRight]
    split
    · exact ih st
    · rename_i hB
      have hB1 : B ∈ nts := by simpa using hB
      exact PassOk.pass_trans (PassOk.pass_trans
        (followAddAll_pass nts B hB1 (firstOfRest fs rest []).1 st)
        (followCopy_pass nts A B hB1 _ _)) (ih _)

theorem followRight_all (fs : SetMap) (nts : StrSet) (A : String) (P : String → Prop)
    (hfs : ∀ x y, y ∈ fs.get x → y ≠ epsilon → P y) :
    ∀ (l : List String) (fo : SetMap) (ch : Bool), fo.All P →
      (followRight fs nts A l fo ch).1.All P := by
  intro l
  induction l with
  | nil => intro fo ch h; exact h
  | cons B rest ih =>
    intro fo ch h
    simp only [followRight]
    split
    · exact ih _ _ h
    · have h1 : (followAddAll B (firstOfRest fs rest []).1 fo ch).1.All P := by
        apply followAddAll_all P B _ fo ch _ h
        intro y hy
        rcases (firstOfRest_mem fs y rest []).mp hy with h2 | ⟨_, sym, _, _, _, h3, h4⟩
        · simp at h2
        · exact hfs sym y h3 h4
      apply ih
      split
      · exact followAddAll_all P B _ _ _ (fun y hy => h1 _ _ hy) h1
      · exact h1

theorem followFold_ok (fs : SetMap) (nts : StrSet) (P : String → Prop)
    (hfs : ∀ x y, y ∈ fs.get x → y ≠ epsilon → P y) :
    ∀ (prods : List Production) (st : SetMap × Bool),
      PassOk nts st (prods.foldl (followProd fs nts) st) ∧
      (st.1.All P → (prods.foldl (followProd fs nts) st).1.All P) := by
  intro prods
  induction prods with
  | nil => intro st; exact ⟨PassOk.pass_refl _ _, fun h => h⟩
  | cons p rest ih =>
    intro st
    obtain ⟨h2, h3⟩ := ih (followProd fs nts st p)
    simp only [List.foldl_cons]
    refine ⟨PassOk.pass_trans (followRight_pass fs nts p.left p.right st) h2, ?_⟩
    intro h
    exact h3 (followRight_all fs nts p.left P hfs p.right st.1 st.2 h)

/-- A step between two equal states whose flag is down did nothing. -/
theorem PassOk.sandwich {K : List String} {a b c : SetMap × Bool} (h1 : PassOk K a b)
    (h2 : PassOk K b c) (hca : c = a) (ha : a.2 = false) : b = a := by
  rcases h1.2.2 with h | ⟨hb, _⟩
  · exact h
  · rcases h2.2.2 with h | ⟨hc, _⟩
    · rw [hca] at h
      rw [← h] at hb
      rw [ha] at hb
      exact absurd hb (by simp)
    · rw [hca, ha] at hc
      exact absurd hc (by simp)

/-- When the loop over `beta` changes nothing, the `FOLLOW` equations of every position
hold in the sets it was run on. -/
theorem followRight_fixed (fs : SetMap) (nts : StrSet) (A : String) (fo : SetMap) :
    ∀ (l : List String), followRight fs nts A l fo false = (fo, false) →
      ∀ pre B post, l = pre ++ B :: post → B ∈ nts →
        (∀ y ∈ (firstOfRest fs post []).1, y ∈ fo.get B) ∧
        (((firstOfRest fs post []).2 = true ∨ post = []) → ∀ y ∈ fo.get A, y ∈ fo.get B) := by
  intro l
  induction l with
  | nil => intro _ pre B post h; simp at h
  | cons s rest ih =>
    intro hfix pre B post hl hB
    simp only [followRight] at hfix
    by_cases hs : s ∈ nts
    · simp only [hs, not_true_eq_false, if_false] at hfix
      have p1 := followAddAll_pass nts s hs (firstOfRest fs rest []).1 (fo, false)
      have p2 := followCopy_pass nts A s hs
        ((firstOfRest fs rest []).2 = true ∨ rest = [])
        (followAddAll s (firstOfRest fs rest []).1 fo false)
      have p3 := followRight_pass fs nts A rest
        (if (firstOfRest fs rest []).2 = true ∨ rest = [] then
          followAddAll s ((followAddAll s (firstOfRest fs rest []).1 fo false).1.get A)
            (followAddAll s (firstOfRest fs rest []).1 fo false).1
            (followAddAll s (firstOfRest fs rest []).1 fo false).2
         else followAddAll s (firstOfRest fs rest []).1 fo false)
      have e1 := PassOk.sandwich p1 (PassOk.pass_trans p2 p3) hfix rfl
      rw [e1] at p2 p3 hfix
      have e2 := PassOk.sandwich p2 p3 hfix rfl
      rw [e2] at hfix
      cases pre with
      | nil =>
        simp only [List.nil_append, List.cons.injEq] at hl
        obtain ⟨rfl, rfl⟩ := hl
        constructor
        · intro y hy
          have := (followAddAll_mem s y (firstOfRest fs rest []).1 fo false).mpr (Or.inr hy)
          rw [e1] at this
          exact this
        · intro hc y hy
          rw [if_pos hc] at e2
          have := (followAddAll_mem s y (fo.get A) fo false).mpr (Or.inr hy)
          rw [e2] at this
          exact this
      | cons a pre1 =>
        simp only [List.cons_append, List.cons.injEq] at hl
        exact ih hfix pre1 B post hl.2 hB
    · simp only [hs, not_false_eq_true, if_true] at hfix
      cases pre with
      | nil =>
        simp only [List.nil_append, List.cons.injEq] at hl
        exact absurd (hl.1 ▸ hB) hs
      | cons a pre1 =>
        simp only [List.cons_append, List.cons.injEq] at hl
        exact ih hfix pre1 B post hl.2 hB

/-- When a pass over the productions changes nothing, every production left the sets
as they were. -/
theorem followFold_fixed (fs : SetMap) (nts : StrSet) (fo : SetMap) :
    ∀ (prods : List Production), prods.foldl (followProd fs nts) (fo, false) = (fo, false) →
      ∀ p ∈ prods, followRight fs nts p.left p.right fo false = (fo, false) := by
  intro prods
  induction prods with
  | nil => intro _ p hp; simp at hp
  | cons q rest ih =>
    intro hfix p hp
    simp only [List.foldl_cons] at hfix
    have p1 := followRight_pass fs nts q.left q.right (fo, false)
    have p2 := (followFold_ok fs nts (fun _ => True) (fun _ _ _ _ => trivial) rest
      (followProd fs nts (fo, false) q)).1
    have e1 : followProd fs nts (fo, false) q = (fo, false) := PassOk.sandwich p1 p2 hfix rfl
    rcases List.mem_cons.mp hp with rfl | hp
    · exact e1
    · rw [e1] at hfix
      exact ih hfix p hp

theorem followPass_ok (fs : SetMap) (nts : StrSet) (prods : List Production) (fo : SetMap) :
    PassOk nts (fo, false) (followPass fs nts prods fo) :=
  (followFold_ok fs nts (fun _ => True) (fun _ _ _ _ => trivial) prods (fo, false)).1

theorem followPass_all (fs : SetMap) (nts : StrSet) (prods : List Production) (fo : SetMap)
    (P : String → Prop) (hfs : ∀ x y, y ∈ fs.get x → y ≠ epsilon → P y) (h : fo.All P) :
    (followPass fs nts prods fo).1.All P :=
  (followFold_ok fs nts P hfs prods (fo, false)).2 h

theorem followInit_mem (nts : StrSet) (start x y : String) :
    y ∈ (SetMap.insert (initEmpty nts []) start "$").get x ↔ (start = x ∧ y = "$") := by
  rw [SetMap.mem_get_insert, initEmpty_get]
  by_cases hx : x ∈ nts <;> simp [hx, SetMap.get]

/-- The `FOLLOW` loop stops, whenever the `FIRST` sets hold nothing but terminals and
`ε`: the passes that report a change add a member of `terminals ∪ {$}` to the set of a
non-terminal. -/
theorem initializeFollowSets_terminates (fs : SetMap) (prods : List Production)
    (nts terms : StrSet) (start : String) (hfs : fs.All (fun y => y ∈ terms ++ [epsilon])) :
    ∃ fo, initializeFollowSets (followFuel nts terms) fs prods nts start = some fo := by
  have hfs1 : ∀ x y, y ∈ fs.get x → y ≠ epsilon → y ∈ terms ++ ["$"] := by
    intro x y hy hne
    have := hfs x y hy
    simp only [List.mem_append, List.mem_singleton] at this ⊢
    rcases this with h | h
    · exact Or.inl h
    · exact absurd h hne
  have hinv : ∀ s : SetMap, s.All (fun y => y ∈ terms ++ ["$"]) →
      (followPass fs nts prods s).1.All (fun y => y ∈ terms ++ ["$"]) :=
    fun s hs => followPass_all fs nts prods s _ hfs1 hs
  have h0 : (SetMap.insert (initEmpty nts []) start "$").All (fun y => y ∈ terms ++ ["$"]) := by
    intro x y hy
    rw [followInit_mem] at hy
    simp [hy.2]
  exact doWhile_terminates (followPass fs nts prods)
    (fun s => s.All (fun y => y ∈ terms ++ ["$"]))
    (SetMap.weight nts (terms ++ ["$"]))
    (nts.length * (terms.length + 1)) hinv
    (fun s _ => by
      have := SetMap.weight_le nts (terms ++ ["$"]) s
      simpa using this)
    (fun s hs hch => weight_lt_of_pass _ _ s _ (followPass_ok fs nts prods s) (hinv s hs) hch)
    (followFuel nts terms) _ h0 (by unfold followFuel; omega)

/-- The sets that the `FOLLOW` loop returns: `$` follows the start symbol, no set holds
`ε`, and one more pass would change nothing. -/
theorem initializeFollowSets_result (fuel : Nat) (fs : SetMap) (prods : List Production)
    (nts : StrSet) (start : String) (fo : SetMap)
    (h : initializeFollowSets fuel fs prods nts start = some fo) :
    "$" ∈ fo.get start ∧ fo.All (fun y => y ≠ epsilon) ∧
      followPass fs nts prods fo = (fo, false) := by
  have hinv : ∀ s : SetMap, ("$" ∈ s.get start ∧ s.All (fun y => y ≠ epsilon)) →
      ("$" ∈ (followPass fs nts prods s).1.get start ∧
        (followPass fs nts prods s).1.All (fun y => y ≠ epsilon)) := by
    intro s hs
    exact ⟨(followPass_ok fs nts prods s).1 _ _ hs.1,
      followPass_all fs nts prods s _ (fun _ _ _ hne => hne) hs.2⟩
  have h0 : "$" ∈ (SetMap.insert (initEmpty nts []) start "$").get start ∧
      (SetMap.insert (initEmpty nts []) start "$").All (fun y => y ≠ epsilon) := by
    constructor
    · rw [followInit_mem]; exact ⟨rfl, rfl⟩
    · intro x y hy
      rw [followInit_mem] at hy
      rw [hy.2]
      decide
  obtain ⟨s1, hs1, hb⟩ := doWhile_result (followPass fs nts prods)
    (fun s => "$" ∈ s.get start ∧ s.All (fun y => y ≠ epsilon)) hinv _ _ fo h0 h
  have hp := (followPass_ok fs nts prods s1).2.2
  rw [hb] at hp
  have e : fo = s1 := by
    rcases hp with hp | ⟨hp, _⟩
    · exact (Prod.mk.inj hp).1
    · exact absurd hp (by simp)
  subst e
  exact ⟨hs1.1, hs1.2, hb⟩

/-- The constructor returns an object: both loops stop within the passes it allows. -/
theorem SLRParser.new_eq (prods : List Production) (nts terms : StrSet) (start : String) :
    ∃ fs fo, initializeFirstSets (firstFuel prods terms) prods nts terms = some fs ∧
      initializeFollowSets (followFuel nts terms) fs prods nts start = some fo ∧
      SLRParser.new prods nts terms start = some ⟨prods, nts, terms, start, fs, fo⟩ := by
  obtain ⟨fs, hfs, hall⟩ := initializeFirstSets_terminates prods nts terms
  obtain ⟨fo, hfo⟩ := initializeFollowSets_terminates fs prods nts terms start hall
  refine ⟨fs, fo, hfs, hfo, ?_⟩
  simp [SLRParser.new, hfs, hfo]

/-- C8: in a grammar whose terminals and non-terminals are disjoint and whose left-hand
sides are non-terminals, the constructor of `SLRParser` returns an object in which the
`FIRST` set of every terminal `a` is exactly `{a}`. -/
theorem first_of_terminal (prods : List Production) (nts terms : StrSet) (start : String)
    (hdisj : ∀ a ∈ terms, a ∉ nts) (hleft : ∀ p ∈ prods, p.left ∈ nts) :
    ∃ parser, SLRParser.new prods nts terms start = some parser ∧
      ∀ a ∈ terms, parser.firstSets.get a = [a] := by
  obtain ⟨fs, fo, hfs, _, hnew⟩ := SLRParser.new_eq prods nts terms start
  refine ⟨_, hnew, ?_⟩
  intro a ha
  show fs.get a = [a]
  rw [initializeFirstSets_frame prods nts terms _ fs hfs a
    (fun p hp hpa => hdisj a ha (hpa ▸ hleft p hp)), initEmpty_get]
  simp only [hdisj a ha, if_false]
  exact initTerminalFirst_get a terms [] ha (Or.inl rfl)

/-- C10: the `FOLLOW` sets of a constructed `SLRParser` satisfy the `FOLLOW` equations
with respect to its `FIRST` sets: `$` follows the start symbol; for every production
`B → α A β` with `A` a non-terminal, every non-`ε` member of `FIRST(β)` (by the
all-nullable-prefix rule) is in `FOLLOW(A)`, and `FOLLOW(B) ⊆ FOLLOW(A)` when `β` is empty
or every symbol of `β` has `ε` in its `FIRST` set; and no `FOLLOW` set contains `ε`. -/
theorem follow_equations (prods : List Production) (nts terms : StrSet) (start : String) :
    ∃ parser, SLRParser.new prods nts terms start = some parser ∧
      "$" ∈ parser.followSets.get start ∧
      (∀ p ∈ prods, ∀ alpha A beta, p.right = alpha ++ A :: beta → A ∈ nts →
        (∀ y, FirstOfString parser.firstSets beta y → y ≠ epsilon →
          y ∈ parser.followSets.get A) ∧
        ((beta = [] ∨ ∀ s ∈ beta, epsilon ∈ parser.firstSets.get s) →
          ∀ y ∈ parser.followSets.get p.left, y ∈ parser.followSets.get A)) ∧
      (∀ x, epsilon ∉ parser.followSets.get x) := by
  obtain ⟨fs, fo, _, hfo, hnew⟩ := SLRParser.new_eq prods nts terms start
  obtain ⟨h1, h2, h3⟩ := initializeFollowSets_result _ fs prods nts start fo hfo
  refine ⟨_, hnew, h1, ?_, fun x hx => h2 x _ hx rfl⟩
  intro p hp alpha A beta hr hA
  have hfix := followFold_fixed fs nts fo prods h3 p hp
  obtain ⟨e1, e2⟩ := followRight_fixed fs nts p.left fo p.right hfix alpha A beta hr hA
  constructor
  · intro y ⟨pre, sym, post, hb, hpre, hy⟩ hne
    exact e1 y ((firstOfRest_mem fs y beta []).mpr (Or.inr ⟨pre, sym, post, hb, hpre, hy, hne⟩))
  · intro hc y hy
    apply e2 _ y hy
    rcases hc with hc | hc
    · exact Or.inr hc
    · exact Or.inl ((firstOfRest_flag fs beta []).mpr hc)

/-- Witness of `first_of_terminal` (C8): the built-in grammar. -/
theorem first_of_terminal_witness :
    ∃ parser, SLRParser.new initializeProductions (getNonTerminals initializeProductions [])
        getTerminals "S'" = some parser ∧
      ∀ a ∈ getTerminals, parser.firstSets.get a = [a] :=
  first_of_terminal initializeProductions (getNonTerminals initializeProductions [])
    getTerminals "S'" (by decide) (by decide)

/-! ## The built-in parser -/

/-- The constructor of `SyntaxParser` computes `builtinTables`. -/
theorem new_builtin : SyntaxParser.new 100 = some builtinParser := by
  decide!

theorem buildSLRTable_unique (slr : SLRParser) (f g : Nat) (a b : AnalysisTables)
    (h : slr.buildSLRTable f = some a) (h0 : slr.buildSLRTable g = some b) : a = b := by
  simp only [SLRParser.buildSLRTable, SLRParser.constructCanonicalCollection] at h h0
  cases h1 : doWhile slr.canonicalPass f ([slr.closure [⟨0, 0⟩]], 0) with
  | none => rw [h1] at h; simp at h
  | some r =>
    cases h2 : doWhile slr.canonicalPass g ([slr.closure [⟨0, 0⟩]], 0) with
    | none => rw [h2] at h0; simp at h0
    | some r0 =>
      have e := doWhile_unique _ _ _ _ _ _ h1 h2
      rw [h1] at h
      rw [h2] at h0
      subst e
      simp only [Option.map_some'] at h h0
      rw [← Option.some.inj h, ← Option.some.inj h0]

/-- The object that the constructor returns does not depend on the number of passes
it was allowed. -/
theorem new_fuel_unique (f g : Nat) (p q : SyntaxParser)
    (h : SyntaxParser.new f = some p) (h0 : SyntaxParser.new g = some q) : p = q := by
  obtain ⟨a, ha, rfl⟩ := Option.map_eq_some'.mp h
  obtain ⟨b, hb, rfl⟩ := Option.map_eq_some'.mp h0
  obtain ⟨s1, hs1, ha1⟩ := Option.bind_eq_some.mp ha
  obtain ⟨s2, hs2, hb1⟩ := Option.bind_eq_some.mp hb
  rw [hs1] at hs2
  cases hs2
  rw [buildSLRTable_unique s1 f g a b ha1 hb1]

/-- A constructor call that returns returns the object `builtinParser`. -/
theorem new_unique (fuel : Nat) (parser : SyntaxParser)
    (h : SyntaxParser.new fuel = some parser) : parser = builtinParser :=
  new_fuel_unique fuel 100 parser builtinParser h new_builtin

theorem parseLoop_step (parser : SyntaxParser) (n : Nat) (c c1 : ParseContext)
    (log reported : List Diagnostic) (hpos : c.pos < c.tokens.length)
    (h : parser.iteration c = .next c1 reported) :
    parser.parseLoop (n + 1) c log = parser.parseLoop n c1 (log ++ reported) := by
  simp [SyntaxParser.parseLoop, hpos, h]

theorem parseLoop_mono (parser : SyntaxParser) :
    ∀ (n m : Nat) (c : ParseContext) (log : List Diagnostic) (o : ParseOutcome), n ≤ m →
      parser.parseLoop n c log = some o → parser.parseLoop m c log = some o := by
  intro n
  induction n with
  | zero => intro m c log o _ h; simp [SyntaxParser.parseLoop] at h
  | succ n ih =>
    intro m c log o hle h
    obtain ⟨m, rfl⟩ : ∃ k, m = k + 1 := ⟨m - 1, by omega⟩
    simp only [SyntaxParser.parseLoop] at h ⊢
    by_cases hpos : c.pos < c.tokens.length
    · simp only [hpos, if_true] at h ⊢
      cases hit : parser.iteration c with
      | next c1 reported =>
        rw [hit] at h
        exact ih m c1 _ o (by omega) h
      | done result reported =>
        rw [hit] at h
        exact h
    · simp only [hpos, if_false] at h ⊢
      exact h

theorem run_of_new (f1 f2 : Nat) (lexed : List Token) (parser : SyntaxParser)
    (h : SyntaxParser.new f1 = some parser) :
    SyntaxParser.run f1 f2 lexed = parser.parse f2 lexed :=
  congrArg (fun o : Option SyntaxParser => o.bind (fun parser => parser.parse f2 lexed)) h

theorem run_builtin (f2 : Nat) (lexed : List Token) :
    SyntaxParser.run 100 f2 lexed = builtinParser.parse f2 lexed :=
  run_of_new 100 f2 lexed builtinParser new_builtin

/-- The outcome of a run does not depend on the fuel it was given. -/
theorem run_unique (f1 f2 : Nat) (lexed : List Token) (o : ParseOutcome)
    (h : SyntaxParser.run f1 f2 lexed = some o) :
    ∀ g, f2 ≤ g → builtinParser.parse g lexed = some o := by
  intro g hg
  obtain ⟨parser, hp, h1⟩ := Option.bind_eq_some.mp h
  rw [← new_unique f1 parser hp]
  exact parseLoop_mono _ f2 g _ _ o hg h1

/-- An outcome computed with the built-in tables is the outcome of every run that
returns. -/
theorem run_eq_of_builtin (n : Nat) (lexed : List Token) (o0 : ParseOutcome)
    (h0 : builtinParser.parse n lexed = some o0) (f1 f2 : Nat) (o : ParseOutcome)
    (h : SyntaxParser.run f1 f2 lexed = some o) : o = o0 := by
  have h1 := run_unique f1 f2 _ o h (max f2 n) (le_max_left _ _)
  have h2 := parseLoop_mono builtinParser n (max f2 n) _ _ _ (le_max_right _ _) h0
  rw [SyntaxParser.parse] at h1
  rw [h2] at h1
  exact (Option.some.inj h1).symm

/-! ## Scenario: a declaration, `int x ;` -/

theorem parse_int_x_semicolon :
    builtinParser.parse 100
      [⟨TokenType.TYPE, "int", 1⟩, ⟨TokenType.IDENTIFIER, "x", 1⟩, ⟨TokenType.SEMICOLON, ";", 1⟩] =
      some ⟨.ok (.mk "Program" "" [.mk "Statements" "" [.mk "StmtList" "" [.mk "Statement" ""
        [.mk "DeclStmt" "" [.mk "Type" "" [.mk "int" "int" []], .mk "x" "x" [],
          .mk ";" ";" []]]]]]), []⟩ := by
  decide!

/-- On the tokens `int x ;` the built-in parser accepts without reporting an error,
whatever fuel it is given, and returns the tree
`Program(Statements(StmtList(Statement(DeclStmt(Type(int), x, ;)))))`: the root is
`Program`, a `Statement` node has the `DeclStmt` node as its child, and the leaves are,
from left to right, `int`, `x` and `;`, each with its lexeme in both fields. -/
theorem parse_declaration :
    SyntaxParser.run 100 100
        [⟨TokenType.TYPE, "int", 1⟩, ⟨TokenType.IDENTIFIER, "x", 1⟩, ⟨TokenType.SEMICOLON, ";", 1⟩] =
      some ⟨.ok (.mk "Program" "" [.mk "Statements" "" [.mk "StmtList" "" [.mk "Statement" ""
        [.mk "DeclStmt" "" [.mk "Type" "" [.mk "int" "int" []], .mk "x" "x" [],
          .mk ";" ";" []]]]]]), []⟩ ∧
    ∀ f1 f2 o, SyntaxParser.run f1 f2
        [⟨TokenType.TYPE, "int", 1⟩, ⟨TokenType.IDENTIFIER, "x", 1⟩, ⟨TokenType.SEMICOLON, ";", 1⟩] =
        some o →
      o.diagnostics = [] ∧ ∃ tree, o.result = .ok tree ∧ tree.symbol = "Program" ∧
        (∃ n ∈ tree.nodes, n.symbol = "Statement" ∧
          n.children.map SyntaxTreeNode.symbol = ["DeclStmt"]) ∧
        tree.leaves = [.mk "int" "int" [], .mk "x" "x" [], .mk ";" ";" []] := by
  refine ⟨(run_builtin _ _).trans parse_int_x_semicolon, ?_⟩
  intro f1 f2 o h
  rw [run_eq_of_builtin _ _ _ parse_int_x_semicolon f1 f2 o h]
  refine ⟨rfl, _, rfl, rfl, ?_, by decide!⟩
  exact ⟨.mk "Statement" "" [.mk "DeclStmt" "" [.mk "Type" "" [.mk "int" "int" []],
    .mk "x" "x" [], .mk ";" ";" []]], by decide!, rfl, rfl⟩

/-- C1 fails on the code: the tokens `int x ;` have the terminal names `int`, `IDENTIFIER`
and `SEMICOLON`, the built-in parser accepts them and returns the tree
`Program(Statements(StmtList(Statement(DeclStmt(Type(int), x, ;)))))` without reporting an
error, but the leaves of that tree carry the lexemes `int`, `x` and `;` as their symbols:
the main loop hands the lexeme to `performShift` where the symbol of the leaf is expected.
Whatever fuel a run is given, the symbols of the leaves it returns are not `int`,
`IDENTIFIER`, `SEMICOLON`. -/
theorem parse_declaration_leaf_symbols :
    ([⟨TokenType.TYPE, "int", 1⟩, ⟨TokenType.IDENTIFIER, "x", 1⟩,
        ⟨TokenType.SEMICOLON, ";", 1⟩] : List Token).map tokenTypeToTerminal =
      ["int", "IDENTIFIER", "SEMICOLON"] ∧
    SyntaxParser.run 100 100
        [⟨TokenType.TYPE, "int", 1⟩, ⟨TokenType.IDENTIFIER, "x", 1⟩, ⟨TokenType.SEMICOLON, ";", 1⟩] =
      some ⟨.ok (.mk "Program" "" [.mk "Statements" "" [.mk "StmtList" "" [.mk "Statement" ""
        [.mk "DeclStmt" "" [.mk "Type" "" [.mk "int" "int" []], .mk "x" "x" [],
          .mk ";" ";" []]]]]]), []⟩ ∧
    ∀ f1 f2 o, SyntaxParser.run f1 f2
        [⟨TokenType.TYPE, "int", 1⟩, ⟨TokenType.IDENTIFIER, "x", 1⟩, ⟨TokenType.SEMICOLON, ";", 1⟩] =
        some o →
      ∃ tree, o.result = .ok tree ∧
        tree.leaves = [.mk "int" "int" [], .mk "x" "x" [], .mk ";" ";" []] ∧
        tree.leaves.map SyntaxTreeNode.symbol = ["int", "x", ";"] ∧
        tree.leaves.map SyntaxTreeNode.symbol ≠ ["int", "IDENTIFIER", "SEMICOLON"] := by
  refine ⟨by decide!, (run_builtin _ _).trans parse_int_x_semicolon, ?_⟩
  intro f1 f2 o h
  rw [run_eq_of_builtin _ _ _ parse_int_x_semicolon f1 f2 o h]
  exact ⟨_, rfl, by decide!, by decide!, by decide!⟩

/-! ## Scenario: a declaration without terminator, `int x` -/

theorem parse_int_x :
    builtinParser.parse 100 [⟨TokenType.TYPE, "int", 1⟩, ⟨TokenType.IDENTIFIER, "x", 1⟩] =
      some ⟨.error (ParseError.runtimeError "Fatal parsing error: recovery failed"),
        [⟨0, "$"⟩]⟩ := by
  decide!

/-- C6, as the code has it: on the tokens `int x` the built-in parser reports a syntax
error at the end-of-input token and fails with the fatal error "Fatal parsing error:
recovery failed", whatever fuel it is given. -/
theorem parse_unterminated :
    SyntaxParser.run 100 100 [⟨TokenType.TYPE, "int", 1⟩, ⟨TokenType.IDENTIFIER, "x", 1⟩] =
      some ⟨.error (ParseError.runtimeError "Fatal parsing error: recovery failed"),
        [⟨0, "$"⟩]⟩ ∧
    ∀ f1 f2 o,
      SyntaxParser.run f1 f2 [⟨TokenType.TYPE, "int", 1⟩, ⟨TokenType.IDENTIFIER, "x", 1⟩] = some o →
      o = ⟨.error (ParseError.runtimeError "Fatal parsing error: recovery failed"), [⟨0, "$"⟩]⟩ :=
  ⟨(run_builtin _ _).trans parse_int_x,
    fun f1 f2 o h => run_eq_of_builtin _ _ _ parse_int_x f1 f2 o h⟩

/-- C6, as stated, fails: no run of the built-in parser on `int x` ends with the error
"unexpected end of input", in either spelling. -/
theorem parse_unterminated_message :
    ¬ ∃ f1 f2 o,
      SyntaxParser.run f1 f2 [⟨TokenType.TYPE, "int", 1⟩, ⟨TokenType.IDENTIFIER, "x", 1⟩] = some o ∧
      (o.result = .error (ParseError.runtimeError "unexpected end of input") ∨
       o.result = .error (ParseError.runtimeError "Unexpected end of input")) := by
  rintro ⟨f1, f2, o, h, hres⟩
  rw [run_eq_of_builtin _ _ _ parse_int_x f1 f2 o h] at hres
  revert hres
  decide!

/-! ## Scenario: an identifier spelled `SEMICOLON` after `int x` -/

/-- The context reached on `int x SEMICOLON` after `int` was shifted and reduced to `Type`
and `x` was shifted: the third token is the identifier whose lexeme is `SEMICOLON`. -/
theorem stuck_reached (n : Nat) :
    builtinParser.parse (n + 3) [⟨TokenType.TYPE, "int", 1⟩, ⟨TokenType.IDENTIFIER, "x", 1⟩,
        ⟨TokenType.IDENTIFIER, "SEMICOLON", 1⟩] =
      builtinParser.parseLoop n
        ⟨[⟨TokenType.TYPE, "int", 1⟩, ⟨TokenType.IDENTIFIER, "x", 1⟩,
            ⟨TokenType.IDENTIFIER, "SEMICOLON", 1⟩, ⟨TokenType.DOLLAR, "$", 0⟩], 2, [0, 11, 20],
          [.mk "Type" "" [.mk "int" "int" []], .mk "x" "x" []]⟩ [] := by
  unfold SyntaxParser.parse
  rw [parseLoop_step builtinParser (n + 2) _
    ⟨[⟨TokenType.TYPE, "int", 1⟩, ⟨TokenType.IDENTIFIER, "x", 1⟩,
        ⟨TokenType.IDENTIFIER, "SEMICOLON", 1⟩, ⟨TokenType.DOLLAR, "$", 0⟩], 1, [0, 15],
      [.mk "int" "int" []]⟩ [] [] (by decide!) (by decide!)]
  rw [parseLoop_step builtinParser (n + 1) _
    ⟨[⟨TokenType.TYPE, "int", 1⟩, ⟨TokenType.IDENTIFIER, "x", 1⟩,
        ⟨TokenType.IDENTIFIER, "SEMICOLON", 1⟩, ⟨TokenType.DOLLAR, "$", 0⟩], 1, [0, 11],
      [.mk "Type" "" [.mk "int" "int" []]]⟩ _ [] (by decide!) (by decide!)]
  rw [parseLoop_step builtinParser n _
    ⟨[⟨TokenType.TYPE, "int", 1⟩, ⟨TokenType.IDENTIFIER, "x", 1⟩,
        ⟨TokenType.IDENTIFIER, "SEMICOLON", 1⟩, ⟨TokenType.DOLLAR, "$", 0⟩], 2, [0, 11, 20],
      [.mk "Type" "" [.mk "int" "int" []], .mk "x" "x" []]⟩ _ [] (by decide!) (by decide!)]
  rfl

theorem stuck_iteration :
    builtinParser.iteration
        ⟨[⟨TokenType.TYPE, "int", 1⟩, ⟨TokenType.IDENTIFIER, "x", 1⟩,
            ⟨TokenType.IDENTIFIER, "SEMICOLON", 1⟩, ⟨TokenType.DOLLAR, "$", 0⟩], 2, [0, 11, 20],
          [.mk "Type" "" [.mk "int" "int" []], .mk "x" "x" []]⟩ =
      .next
        ⟨[⟨TokenType.TYPE, "int", 1⟩, ⟨TokenType.IDENTIFIER, "x", 1⟩,
            ⟨TokenType.IDENTIFIER, "SEMICOLON", 1⟩, ⟨TokenType.DOLLAR, "$", 0⟩], 2, [0, 11, 20],
          [.mk "Type" "" [.mk "int" "int" []], .mk "x" "x" []]⟩ [⟨1, "SEMICOLON"⟩] := by
  decide!

theorem stuck_forever :
    ∀ (n : Nat) (log : List Diagnostic),
      builtinParser.parseLoop n
        ⟨[⟨TokenType.TYPE, "int", 1⟩, ⟨TokenType.IDENTIFIER, "x", 1⟩,
            ⟨TokenType.IDENTIFIER, "SEMICOLON", 1⟩, ⟨TokenType.DOLLAR, "$", 0⟩], 2, [0, 11, 20],
          [.mk "Type" "" [.mk "int" "int" []], .mk "x" "x" []]⟩ log = none := by
  intro n
  induction n with
  | zero => intro log; rfl
  | succ n ih =>
    intro log
    rw [parseLoop_step builtinParser n _ _ log _ (by decide) stuck_iteration]
    exact ih _

/-- C5 fails on the code: on the tokens `int x SEMICOLON`, where the third token is an
identifier whose lexeme is `SEMICOLON`, the main loop of `parse()` never returns, whatever
fuel it is given: the iteration that handles the error at that token leaves the
configuration (state stack, symbol stack, `pos`) as it was. -/
theorem parse_loops_forever :
    (∀ f1 f2, SyntaxParser.run f1 f2 [⟨TokenType.TYPE, "int", 1⟩, ⟨TokenType.IDENTIFIER, "x", 1⟩,
        ⟨TokenType.IDENTIFIER, "SEMICOLON", 1⟩] = none) ∧
    builtinParser.iteration
        ⟨[⟨TokenType.TYPE, "int", 1⟩, ⟨TokenType.IDENTIFIER, "x", 1⟩,
            ⟨TokenType.IDENTIFIER, "SEMICOLON", 1⟩, ⟨TokenType.DOLLAR, "$", 0⟩], 2, [0, 11, 20],
          [.mk "Type" "" [.mk "int" "int" []], .mk "x" "x" []]⟩ =
      .next
        ⟨[⟨TokenType.TYPE, "int", 1⟩, ⟨TokenType.IDENTIFIER, "x", 1⟩,
            ⟨TokenType.IDENTIFIER, "SEMICOLON", 1⟩, ⟨TokenType.DOLLAR, "$", 0⟩], 2, [0, 11, 20],
          [.mk "Type" "" [.mk "int" "int" []], .mk "x" "x" []]⟩ [⟨1, "SEMICOLON"⟩] := by
  refine ⟨?_, stuck_iteration⟩
  intro f1 f2
  cases h : SyntaxParser.run f1 f2 [⟨TokenType.TYPE, "int", 1⟩, ⟨TokenType.IDENTIFIER, "x", 1⟩,
      ⟨TokenType.IDENTIFIER, "SEMICOLON", 1⟩] with
  | none => rfl
  | some o =>
    have h1 := run_unique f1 f2 _ o h (f2 + 3) (by omega)
    rw [stuck_reached, stuck_forever] at h1
    cases h1

/-! ## Scenario: a missing identifier, `int ;` followed by `int x ;` -/

/-- C7 fails on the code: on `int ; int x ;` the undefined action is hit at position 1,
the `;` token, whose terminal name `SEMICOLON` is in the synchronizing set; the skipping
loop of `recoverFromError`, which looks the lexeme `;` up instead, moves `pos` on to
position 5, the end-of-input token, and the run ends with the fatal recovery error. -/
theorem recovery_skips_past_semicolon :
    (builtinParser.getAction 15 ⟨TokenType.SEMICOLON, ";", 1⟩).type = ActionType.ERROR ∧
    tokenTypeToTerminal ⟨TokenType.SEMICOLON, ";", 1⟩ ∈ syncSymbols ∧
    skipLoop [⟨TokenType.TYPE, "int", 1⟩, ⟨TokenType.SEMICOLON, ";", 1⟩,
        ⟨TokenType.TYPE, "int", 2⟩, ⟨TokenType.IDENTIFIER, "x", 2⟩, ⟨TokenType.SEMICOLON, ";", 2⟩,
        ⟨TokenType.DOLLAR, "$", 0⟩] (6 - 1) 1 = 5 ∧
    builtinParser.iteration
        ⟨[⟨TokenType.TYPE, "int", 1⟩, ⟨TokenType.SEMICOLON, ";", 1⟩,
          ⟨TokenType.TYPE, "int", 2⟩, ⟨TokenType.IDENTIFIER, "x", 2⟩, ⟨TokenType.SEMICOLON, ";", 2⟩,
          ⟨TokenType.DOLLAR, "$", 0⟩], 1, [0, 15], [.mk "int" "int" []]⟩ =
      .done (.error (ParseError.runtimeError "Fatal parsing error: recovery failed"))
        [⟨1, ";"⟩] ∧
    SyntaxParser.run 100 100 [⟨TokenType.TYPE, "int", 1⟩, ⟨TokenType.SEMICOLON, ";", 1⟩,
        ⟨TokenType.TYPE, "int", 2⟩, ⟨TokenType.IDENTIFIER, "x", 2⟩, ⟨TokenType.SEMICOLON, ";", 2⟩] =
      some ⟨.error (ParseError.runtimeError "Fatal parsing error: recovery failed"),
        [⟨1, ";"⟩]⟩ := by
  refine ⟨by decide!, by decide!, by decide!, by decide!, ?_⟩
  rw [run_builtin]
  decide!

/-! ## The `FIRST` sets of the built-in grammar -/

/-- C9 fails on the code: in the built-in grammar `ε` is no terminal, so its `FIRST` set
is never seeded and stays empty, and the `FIRST` sets of `Statements` and `ElsePart`,
which have the productions `Statements → ε` and `ElsePart → ε`, do not contain `ε`. -/
theorem first_sets_lack_epsilon :
    ∃ parser, SLRParser.new initializeProductions (getNonTerminals initializeProductions [])
        getTerminals "S'" = some parser ∧
      parser.firstSets.get epsilon = [] ∧
      parser.firstSets.get "Statements" = ["IDENTIFIER", "IF", "WHILE", "int", "float", "bool"] ∧
      parser.firstSets.get "ElsePart" = ["ELSE"] ∧
      epsilon ∉ parser.firstSets.get "Statements" ∧ epsilon ∉ parser.firstSets.get "ElsePart" := by
  have h : (SLRParser.new initializeProductions (getNonTerminals initializeProductions [])
      getTerminals "S'").map (fun parser => (parser.firstSets.get epsilon,
        parser.firstSets.get "Statements", parser.firstSets.get "ElsePart")) =
      some ([], ["IDENTIFIER", "IF", "WHILE", "int", "float", "bool"], ["ELSE"]) := by
    decide!
  obtain ⟨parser, hp, he⟩ := Option.map_eq_some'.mp h
  simp only [Prod.mk.injEq] at he
  refine ⟨parser, hp, he.1, he.2.1, he.2.2, ?_, ?_⟩
  · rw [he.2.1]; decide
  · rw [he.2.2]; decide

/-! ## The leaves of the tree and the input -/

theorem leavesOfList_append (a b : List SyntaxTreeNode) :
    SyntaxTreeNode.leavesOfList (a ++ b) =
      SyntaxTreeNode.leavesOfList a ++ SyntaxTreeNode.leavesOfList b := by
  induction a with
  | nil => simp [SyntaxTreeNode.leavesOfList]
  | cons x rest ih => simp [SyntaxTreeNode.leavesOfList, ih]

theorem leaves_of_children (s v : String) (cs : List SyntaxTreeNode) (h : cs ≠ []) :
    (SyntaxTreeNode.mk s v cs).leaves = SyntaxTreeNode.leavesOfList cs := by
  cases cs with
  | nil => exact absurd rfl h
  | cons c rest => simp [SyntaxTreeNode.leaves]

theorem leafValues_append (a b : List SyntaxTreeNode) :
    leafValues (a ++ b) = leafValues a ++ leafValues b := by
  simp [leafValues, leavesOfList_append]

theorem leafValues_leaf (s v : String) : leafValues [SyntaxTreeNode.mk s v []] = [v] := by
  simp [leafValues, SyntaxTreeNode.leavesOfList, SyntaxTreeNode.leaves, SyntaxTreeNode.value]

theorem leafValues_node (s v : String) (cs : List SyntaxTreeNode) (h : cs ≠ []) :
    leafValues [SyntaxTreeNode.mk s v cs] = leafValues cs := by
  simp [leafValues, SyntaxTreeNode.leavesOfList, leaves_of_children s v cs h]

theorem leafValues_single (t : SyntaxTreeNode) :
    leafValues [t] = t.leaves.map SyntaxTreeNode.value := by
  simp [leafValues, SyntaxTreeNode.leavesOfList]

/-- The popping loop of `performReduction` moves the top `n` symbols, in their order, to
the front of `children`. -/
theorem reducePop_spec :
    ∀ (n : Nat) (ss : List Int) (sy ch : List SyntaxTreeNode) (ss1 : List Int)
      (sy1 ch1 : List SyntaxTreeNode), reducePop n ss sy ch = .ok (ss1, sy1, ch1) →
      sy ++ ch = sy1 ++ ch1 ∧ ch1.length = ch.length + n ∧ ss.length = ss1.length + n ∧
        sy.length = sy1.length + n := by
  intro n
  induction n with
  | zero =>
    intro ss sy ch ss1 sy1 ch1 h
    simp only [reducePop, Except.ok.injEq, Prod.mk.injEq] at h
    obtain ⟨rfl, rfl, rfl⟩ := h
    simp
  | succ n ih =>
    intro ss sy ch ss1 sy1 ch1 h
    simp only [reducePop] at h
    by_cases hss : ss = []
    · simp [hss] at h
    · simp only [hss, if_false] at h
      cases hb : sy.getLast? with
      | none => rw [hb] at h; simp at h
      | some back =>
        rw [hb] at h
        obtain ⟨e1, e2, e3, e4⟩ := ih _ _ _ _ _ _ h
        have hsy : sy.dropLast ++ [back] = sy := List.dropLast_append_getLast? back hb
        have hlen : sy.length = sy.dropLast.length + 1 := by
          conv_lhs => rw [← hsy]
          simp
        have hlen2 : ss.length = ss.dropLast.length + 1 := by
          have := List.length_dropLast ss
          have : ss.length ≠ 0 := fun h0 => hss (List.length_eq_zero.mp h0)
          simp only [List.length_dropLast]
          omega
        refine ⟨?_, ?_, ?_, ?_⟩
        · rw [← e1]
          conv_lhs => rw [← hsy]
          simp
        · rw [e2]; simp; omega
        · omega
        · omega

theorem StrMap.mem_of_find? {α : Type} (m : StrMap α) (k : String) (v : α)
    (h : m.find? k = some v) : (k, v) ∈ m := by
  induction m with
  | nil => simp [StrMap.find?] at h
  | cons e rest ih =>
    obtain ⟨k1, w⟩ := e
    simp only [StrMap.find?] at h
    by_cases hk : k1 = k
    · simp only [hk, if_true, Option.some.injEq] at h
      subst hk; subst h
      exact List.mem_cons_self _ _
    · simp only [hk, if_false] at h
      exact List.mem_cons_of_mem _ (ih h)

theorem getAction_eq (self : SyntaxParser) (state : Int) (token : Token) :
    self.getAction state token =
      match (self.actionRow state).find? (tokenTypeToTerminal token) with
      | some a => a
      | none => ⟨ActionType.ERROR, -1⟩ := rfl

/-- An action other than the default error was read from a row of the table, under the
terminal name of the token. -/
theorem getAction_mem (self : SyntaxParser) (state : Int) (token : Token)
    (h : (self.getAction state token).type ≠ ActionType.ERROR) :
    ∃ row ∈ self.tables_.action,
      (tokenTypeToTerminal token, self.getAction state token) ∈ row := by
  rw [getAction_eq] at h ⊢
  cases hf : (self.actionRow state).find? (tokenTypeToTerminal token) with
  | none => rw [hf] at h; exact absurd rfl h
  | some a =>
    simp only []
    have hm := StrMap.mem_of_find? _ _ _ hf
    refine ⟨self.actionRow state, ?_, hm⟩
    unfold SyntaxParser.actionRow at hm ⊢
    by_cases hlt : state.toNat < self.tables_.action.length
    · rw [List.getD_eq_getElem _ _ hlt]
      exact List.getElem_mem _
    · rw [List.getD_eq_default _ _ (by omega)] at hm
      simp at hm

theorem performShift_roundTrip (lexed : List Token) (c : ParseContext) (newState : Int)
    (token : String) (hpos : c.pos < c.tokens.length) (h : RoundTrip lexed c) :
    RoundTrip lexed (performShift newState token c) := by
  obtain ⟨h1, h2⟩ := h
  refine ⟨h1, ?_⟩
  simp only [performShift]
  rw [leafValues_append, h2, leafValues_leaf, List.take_succ, List.getD_eq_getElem _ _ hpos,
    List.getElem?_eq_getElem hpos]
  simp only [Option.toList, List.map_append, List.map_cons, List.map_nil]

theorem performReduction_roundTrip (self : SyntaxParser) (lexed : List Token)
    (c c1 : ParseContext) (prodId : Int)
    (hne : (prodAt self.productions_ prodId.toNat).right ≠ [])
    (hred : self.performReduction prodId c = .ok c1) (h : RoundTrip lexed c) :
    RoundTrip lexed c1 := by
  obtain ⟨h1, h2⟩ := h
  unfold SyntaxParser.performReduction at hred
  simp only [] at hred
  cases hp : reducePop (prodAt self.productions_ prodId.toNat).right.length c.stateStack
      c.symbolStack [] with
  | error e => rw [hp] at hred; simp at hred
  | ok r =>
    obtain ⟨ss, sy, ch⟩ := r
    rw [hp] at hred
    simp only [] at hred
    obtain ⟨e1, e2, _, _⟩ := reducePop_spec _ _ _ _ _ _ _ hp
    cases hl : ss.getLast? with
    | none => rw [hl] at hred; simp at hred
    | some cur =>
      rw [hl] at hred
      simp only [] at hred
      cases hg : (self.gotoRow cur).find? (prodAt self.productions_ prodId.toNat).left with
      | none => rw [hg] at hred; simp at hred
      | some ns =>
        rw [hg] at hred
        simp only [Except.ok.injEq] at hred
        subst hred
        refine ⟨h1, ?_⟩
        have hch : ch ≠ [] := by
          intro h0
          rw [h0] at e2
          simp only [List.length_nil, zero_add] at e2
          exact hne (List.length_eq_zero.mp e2.symm)
        show leafValues (sy ++ [SyntaxTreeNode.mk _ "" ch]) = _
        rw [leafValues_append, leafValues_node _ _ _ hch, ← leafValues_append, ← e1]
        simpa using h2

/-- An iteration that reports nothing and goes on was a shift or a reduction; it keeps
the round-trip invariant. -/
theorem iteration_quiet (self : SyntaxParser) (lexed : List Token) (c c1 : ParseContext)
    (hne : self.ReduceNonEmpty) (hpos : c.pos < c.tokens.length)
    (hit : self.iteration c = .next c1 []) (h : RoundTrip lexed c) : RoundTrip lexed c1 := by
  unfold SyntaxParser.iteration at hit
  simp only [] at hit
  cases hl : c.stateStack.getLast? with
  | none => rw [hl] at hit; simp at hit
  | some cur =>
    rw [hl] at hit
    simp only [] at hit
    cases ht : (self.getAction cur (c.tokens.getD c.pos default)).type with
    | SHIFT =>
      rw [ht] at hit
      simp only [StepResult.next.injEq, and_true] at hit
      rw [← hit]
      exact performShift_roundTrip lexed c _ _ hpos h
    | REDUCE =>
      rw [ht] at hit
      simp only [] at hit
      cases hr : self.performReduction (self.getAction cur (c.tokens.getD c.pos default)).value c with
      | error e => rw [hr] at hit; simp at hit
      | ok c2 =>
        rw [hr] at hit
        simp only [StepResult.next.injEq, and_true] at hit
        subst hit
        obtain ⟨row, hrow, hmem⟩ := getAction_mem self cur (c.tokens.getD c.pos default)
          (by rw [ht]; decide)
        exact performReduction_roundTrip self lexed c c2 _ (hne row hrow _ hmem ht) hr h
    | ACCEPT => rw [ht] at hit; simp at hit
    | ERROR =>
      rw [ht] at hit
      simp only [] at hit
      cases hr : self.recoverFromError c with
      | error e => rw [hr] at hit; simp at hit
      | ok c2 => rw [hr] at hit; simp at hit

/-- An iteration that leaves `parse()` with a tree took the accept action: the current
token is mapped to `$` and the tree is the only entry of the symbol stack. -/
theorem iteration_accept (self : SyntaxParser) (c : ParseContext) (tree : SyntaxTreeNode)
    (reported : List Diagnostic) (hacc : self.AcceptOnDollar)
    (hit : self.iteration c = .done (.ok tree) reported) :
    tokenTypeToTerminal (c.tokens.getD c.pos default) = "$" ∧ c.symbolStack = [tree] := by
  unfold SyntaxParser.iteration at hit
  simp only [] at hit
  cases hl : c.stateStack.getLast? with
  | none => rw [hl] at hit; simp at hit
  | some cur =>
    rw [hl] at hit
    simp only [] at hit
    cases ht : (self.getAction cur (c.tokens.getD c.pos default)).type with
    | SHIFT => rw [ht] at hit; simp at hit
    | REDUCE =>
      rw [ht] at hit
      simp only [] at hit
      cases hr : self.performReduction (self.getAction cur (c.tokens.getD c.pos default)).value c with
      | error e => rw [hr] at hit; simp at hit
      | ok c2 => rw [hr] at hit; simp at hit
    | ACCEPT =>
      rw [ht] at hit
      simp only [StepResult.done.injEq] at hit
      obtain ⟨row, hrow, hmem⟩ := getAction_mem self cur (c.tokens.getD c.pos default)
        (by rw [ht]; decide)
      refine ⟨hacc row hrow _ hmem ht, ?_⟩
      have hf := hit.1
      unfold finalizeParsing at hf
      split at hf
      · rename_i root hroot
        simp only [Except.ok.injEq] at hf
        rw [hroot, hf]
      · simp at hf
    | ERROR =>
      rw [ht] at hit
      simp only [] at hit
      cases hr : self.recoverFromError c with
      | error e => rw [hr] at hit; simp at hit
      | ok c2 => rw [hr] at hit; simp at hit

/-- The error stream only grows. -/
theorem parseLoop_log (self : SyntaxParser) :
    ∀ (n : Nat) (c : ParseContext) (log : List Diagnostic) (o : ParseOutcome),
      self.parseLoop n c log = some o → ∃ rest, o.diagnostics = log ++ rest := by
  intro n
  induction n with
  | zero => intro c log o h; simp [SyntaxParser.parseLoop] at h
  | succ n ih =>
    intro c log o h
    simp only [SyntaxParser.parseLoop] at h
    by_cases hpos : c.pos < c.tokens.length
    · simp only [hpos, if_true] at h
      cases hit : self.iteration c with
      | next c1 reported =>
        rw [hit] at h
        obtain ⟨rest, hrest⟩ := ih c1 _ o h
        exact ⟨reported ++ rest, by rw [hrest, List.append_assoc]⟩
      | done result reported =>
        rw [hit] at h
        simp only [Option.some.injEq] at h
        exact ⟨reported, by rw [← h]⟩
    · simp only [hpos, if_false, Option.some.injEq] at h
      exact ⟨[], by rw [← h]; simp⟩

/-- A run of the main loop that returns a tree and reports nothing returns a tree whose
leaves spell the whole input, provided no input token is mapped to `$`. -/
theorem parseLoop_roundTrip (self : SyntaxParser) (lexed : List Token)
    (hacc : self.AcceptOnDollar) (hne : self.ReduceNonEmpty)
    (hdollar : ∀ tok ∈ lexed, tokenTypeToTerminal tok ≠ "$") :
    ∀ (n : Nat) (c : ParseContext) (tree : SyntaxTreeNode), RoundTrip lexed c →
      self.parseLoop n c [] = some ⟨.ok tree, []⟩ →
      tree.leaves.map SyntaxTreeNode.value = lexed.map Token.value := by
  intro n
  induction n with
  | zero => intro c tree _ h; simp [SyntaxParser.parseLoop] at h
  | succ n ih =>
    intro c tree hrt h
    simp only [SyntaxParser.parseLoop] at h
    by_cases hpos : c.pos < c.tokens.length
    · simp only [hpos, if_true] at h
      cases hit : self.iteration c with
      | next c1 reported =>
        rw [hit] at h
        obtain ⟨rest, hrest⟩ := parseLoop_log self n c1 _ _ h
        have hrep : reported = [] := by
          simp only [List.nil_append] at hrest
          exact (List.append_eq_nil.mp hrest.symm).1
        subst hrep
        exact ih c1 tree (iteration_quiet self lexed c c1 hne hpos hit hrt) h
      | done result reported =>
        rw [hit] at h
        simp only [List.nil_append, Option.some.injEq, ParseOutcome.mk.injEq] at h
        obtain ⟨rfl, rfl⟩ := h
        obtain ⟨hterm, hstack⟩ := iteration_accept self c tree [] hacc hit
        obtain ⟨h1, h2⟩ := hrt
        have hlen : c.pos = lexed.length := by
          by_contra hneq
          have hlt : c.pos < lexed.length := by
            rw [h1] at hpos
            simp only [List.length_append, List.length_singleton] at hpos
            omega
          apply hdollar (lexed[c.pos]) (List.getElem_mem _)
          rw [← hterm, h1, List.getD_eq_getElem _ _ (by simp; omega),
            List.getElem_append_left hlt]
        rw [hstack, leafValues_single, h1, hlen] at h2
        rw [h2]
        simp
    · simp only [hpos, if_false, Option.some.injEq, ParseOutcome.mk.injEq] at h
      exact absurd h.1 (by simp)

theorem builtin_acceptOnDollar : builtinParser.AcceptOnDollar := by
  unfold SyntaxParser.AcceptOnDollar
  decide!

theorem builtin_reduceNonEmpty : builtinParser.ReduceNonEmpty := by
  unfold SyntaxParser.ReduceNonEmpty
  decide!

theorem roundTrip_init (lexed : List Token) :
    RoundTrip lexed (ParseContext.init (lexed ++ [⟨TokenType.DOLLAR, "$", 0⟩])) := by
  refine ⟨rfl, ?_⟩
  simp [ParseContext.init, leafValues, SyntaxTreeNode.leavesOfList]

/-- C2, as the code has it: when a run of the built-in parser returns a tree without
having reported a syntax error, on tokens none of which is mapped to the terminal `$`,
the values of the leaves of the tree, from left to right, are the lexemes of the input
tokens. -/
theorem leaves_spell_input (f1 f2 : Nat) (lexed : List Token) (tree : SyntaxTreeNode)
    (hdollar : ∀ tok ∈ lexed, tokenTypeToTerminal tok ≠ "$")
    (h : SyntaxParser.run f1 f2 lexed = some ⟨.ok tree, []⟩) :
    tree.leaves.map SyntaxTreeNode.value = lexed.map Token.value :=
  parseLoop_roundTrip builtinParser lexed builtin_acceptOnDollar builtin_reduceNonEmpty hdollar
    f2 _ tree (roundTrip_init lexed) (run_unique f1 f2 lexed _ h f2 (le_refl _))

/-- Witness of `leaves_spell_input` (C2): the declaration `int x ;`. -/
theorem leaves_spell_input_witness :
    (SyntaxTreeNode.mk "Program" "" [.mk "Statements" "" [.mk "StmtList" "" [.mk "Statement" ""
        [.mk "DeclStmt" "" [.mk "Type" "" [.mk "int" "int" []], .mk "x" "x" [],
          .mk ";" ";" []]]]]]).leaves.map SyntaxTreeNode.value =
      ([⟨TokenType.TYPE, "int", 1⟩, ⟨TokenType.IDENTIFIER, "x", 1⟩,
        ⟨TokenType.SEMICOLON, ";", 1⟩] : List Token).map Token.value :=
  leaves_spell_input 100 100 _ _ (by decide) ((run_builtin _ _).trans parse_int_x_semicolon)

/-- C2, as stated, fails: on `int x ; )` the built-in parser reports a syntax error at
`)`, recovers and returns the tree of `int x ;`, whose leaves spell three lexemes where
the input has four. -/
theorem leaves_miss_skipped_token :
    SyntaxParser.run 100 100 [⟨TokenType.TYPE, "int", 1⟩, ⟨TokenType.IDENTIFIER, "x", 1⟩,
        ⟨TokenType.SEMICOLON, ";", 1⟩, ⟨TokenType.RIGHT_PAREN, ")", 1⟩] =
      some ⟨.ok (.mk "Program" "" [.mk "Statements" "" [.mk "StmtList" "" [.mk "Statement" ""
        [.mk "DeclStmt" "" [.mk "Type" "" [.mk "int" "int" []], .mk "x" "x" [],
          .mk ";" ";" []]]]]]), [⟨1, ")"⟩]⟩ ∧
    (SyntaxTreeNode.mk "Program" "" [.mk "Statements" "" [.mk "StmtList" "" [.mk "Statement" ""
        [.mk "DeclStmt" "" [.mk "Type" "" [.mk "int" "int" []], .mk "x" "x" [],
          .mk ";" ";" []]]]]]).leaves.map SyntaxTreeNode.value ≠
      ([⟨TokenType.TYPE, "int", 1⟩, ⟨TokenType.IDENTIFIER, "x", 1⟩,
        ⟨TokenType.SEMICOLON, ";", 1⟩, ⟨TokenType.RIGHT_PAREN, ")", 1⟩] : List Token).map
        Token.value := by
  constructor
  · rw [run_builtin]
    decide!
  · decide!

/-! ## `closure` -/

theorem closureProds_new (prods : List Production) (closureItems : List Item) (symbol : String) :
    ∀ (l : List Production) (newItems : List Item), (∀ q ∈ l, q ∈ prods) →
      ∀ x ∈ closureProds closureItems symbol l newItems,
        x ∈ newItems ∨ ((∃ q ∈ prods, x = ⟨q.id, 0⟩) ∧ x ∉ closureItems) := by
  intro l
  induction l with
  | nil => intro newItems _ x hx; exact Or.inl hx
  | cons q rest ih =>
    intro newItems hl x hx
    have hrest : ∀ q1 ∈ rest, q1 ∈ prods := fun q1 h1 => hl q1 (List.mem_cons_of_mem _ h1)
    simp only [closureProds] at hx
    split at hx
    · exact ih newItems hrest x hx
    · split at hx
      · exact ih newItems hrest x hx
      · rename_i hex
        rcases ih _ hrest x hx with h | h
        · rcases List.mem_append.mp h with h | h
          · exact Or.inl h
          · right
            rw [List.mem_singleton] at h
            subst h
            exact ⟨⟨q, hl q (List.mem_cons_self _ _), rfl⟩, fun hc => hex (Or.inl hc)⟩
        · exact Or.inr h

theorem closureItemsPass_new (prods : List Production) (nts : StrSet)
    (closureItems : List Item) :
    ∀ (l : List Item) (newItems : List Item),
      ∀ x ∈ closureItemsPass prods nts closureItems l newItems,
        x ∈ newItems ∨ ((∃ q ∈ prods, x = ⟨q.id, 0⟩) ∧ x ∉ closureItems) := by
  intro l
  induction l with
  | nil => intro newItems x hx; exact Or.inl hx
  | cons item rest ih =>
    intro newItems x hx
    simp only [closureItemsPass] at hx
    split at hx
    · exact ih newItems x hx
    · split at hx
      · exact ih newItems x hx
      · rcases ih _ x hx with h | h
        · exact closureProds_new prods closureItems _ prods newItems (fun _ h1 => h1) x h
        · exact Or.inr h

/-- A pass of `closure` that reports a change has put a production id at dot position 0
that was not there before. -/
theorem closurePass_grows (prods : List Production) (nts : StrSet) (items : List Item)
    (h : (closurePass prods nts items).2 = true) :
    closureWeight prods items < closureWeight prods (closurePass prods nts items).1 := by
  unfold closurePass at h ⊢
  simp only [decide_eq_true_eq] at h ⊢
  obtain ⟨x, hx⟩ := List.exists_mem_of_ne_nil _ h
  rcases closureItemsPass_new prods nts items items [] x hx with h1 | ⟨⟨q, hq, rfl⟩, h2⟩
  · simp at h1
  · unfold closureWeight
    apply Finset.card_lt_card
    rw [Finset.ssubset_iff_of_subset]
    · refine ⟨q.id, ?_, ?_⟩
      · simp only [Finset.mem_filter, List.mem_toFinset, List.mem_map, List.mem_append]
        exact ⟨⟨q, hq, rfl⟩, Or.inr hx⟩
      · simp only [Finset.mem_filter, not_and]
        intro _
        exact h2
    · intro i hi
      simp only [Finset.mem_filter, List.mem_append] at hi ⊢
      exact ⟨hi.1, Or.inl hi.2⟩

theorem closureWeight_le (prods : List Production) (items : List Item) :
    closureWeight prods items ≤ prods.length := by
  unfold closureWeight
  calc ((prods.map Production.id).toFinset.filter (fun i => (⟨i, 0⟩ : Item) ∈ items)).card
      ≤ (prods.map Production.id).toFinset.card := Finset.card_filter_le _ _
    _ ≤ (prods.map Production.id).length := List.toFinset_card_le _
    _ = prods.length := List.length_map _ _

/-- The loop of `closure` stops within `productions.size() + 1` passes. -/
theorem closure_terminates (prods : List Production) (nts : StrSet) (items : List Item) :
    ∃ r, doWhile (closurePass prods nts) (prods.length + 1) items = some r :=
  doWhile_terminates (closurePass prods nts) (fun _ => True) (closureWeight prods) prods.length
    (fun _ _ => trivial) (fun s _ => closureWeight_le prods s)
    (fun s _ h => closurePass_grows prods nts s h) (prods.length + 1) items trivial (by omega)

/-! ## `buildSLRTable`: the assignments to a row -/

theorem StrMap.find?_assign {α : Type} (m : StrMap α) (k x : String) (v : α) :
    (m.assign k v).find? x = if k = x then some v else m.find? x := by
  induction m with
  | nil => simp [StrMap.assign, StrMap.find?]
  | cons e rest ih =>
    obtain ⟨k1, w⟩ := e
    simp only [StrMap.assign]
    by_cases h1 : k1 = k
    · subst h1
      by_cases h2 : k1 = x <;> simp [StrMap.find?, h2]
    · by_cases h2 : k1 = x
      · subst h2
        have h3 : ¬ k = k1 := fun h => h1 h.symm
        simp [StrMap.find?, h1, h3]
      · simp [StrMap.find?, h1, h2, ih]

theorem applyWrites_append (row : StrMap TableAction) (a b : List (String × TableAction)) :
    applyWrites row (a ++ b) = applyWrites (applyWrites row a) b := by
  simp [applyWrites, List.foldl_append]

/-- After a sequence of assignments an entry holds what was assigned to it last. -/
theorem find?_applyWrites (key : String) :
    ∀ (writes : List (String × TableAction)) (row : StrMap TableAction),
      (applyWrites row writes).find? key =
        match lastWrite writes key with
        | some w => some w
        | none => row.find? key := by
  intro writes
  induction writes with
  | nil => intro row; rfl
  | cons w rest ih =>
    intro row
    obtain ⟨k, v⟩ := w
    show (applyWrites (row.assign k v) rest).find? key = _
    rw [ih]
    simp only [lastWrite]
    cases lastWrite rest key with
    | some x => rfl
    | none =>
      simp only [StrMap.find?_assign]
      by_cases hk : k = key <;> simp [hk]

theorem assignReduce_eq (prodId : Nat) :
    ∀ (l : List String) (row : StrMap TableAction),
      assignReduce prodId l row = applyWrites row
        (l.map (fun followSym => (followSym, (⟨ActionType.REDUCE, (prodId : Int)⟩ : TableAction)))) := by
  intro l
  induction l with
  | nil => intro row; rfl
  | cons a rest ih => intro row; simp only [assignReduce, ih]; rfl

theorem reduceEntries_eq (self : SLRParser) :
    ∀ (l : List Item) (row : StrMap TableAction),
      self.reduceEntries l row = applyWrites row (self.reduceWrites l) := by
  intro l
  induction l with
  | nil => intro row; rfl
  | cons item rest ih =>
    intro row
    simp only [SLRParser.reduceEntries, SLRParser.reduceWrites]
    split
    · split
      · rw [ih]; rfl
      · rw [ih, assignReduce_eq, applyWrites_append]
    · exact ih row

theorem shiftEntries_eq (self : SLRParser) (cc : List (List Item)) (items : List Item) :
    ∀ (l : List Item) (st : StrMap TableAction × StrMap Int × StrSet),
      (self.shiftEntries cc items l st).1 =
        applyWrites st.1 (self.shiftWrites cc items l st.2.2) := by
  intro l
  induction l with
  | nil => intro st; rfl
  | cons item rest ih =>
    intro st
    simp only [SLRParser.shiftEntries, SLRParser.shiftWrites]
    split
    · split
      · exact ih st
      · split
        · rw [ih]
        · split
          · rw [ih]; rfl
          · split
            · rw [ih]
            · rw [ih]
    · exact ih st

/-- The `ACTION` row of a state is what the assignments of `buildSLRTable` leave of an
empty row. -/
theorem buildRow_action (self : SLRParser) (cc : List (List Item)) (items : List Item) :
    (self.buildRow cc items).1 = applyWrites [] (self.actionWrites cc items) := by
  unfold SLRParser.buildRow SLRParser.actionWrites
  simp only []
  rw [shiftEntries_eq, reduceEntries_eq, applyWrites_append]

/-- C3, as the code has it: `buildSLRTable` has no failure path.  Once the canonical
collection is there it returns tables with one `ACTION` row per state, also when a (state,
terminal) pair is assigned two distinct actions: each entry holds the action that was
assigned to it last (a shift overwrites a reduce or accept, a later reduce an earlier one)
and is undefined when nothing was assigned to it. -/
theorem conflicts_are_overwritten (self : SLRParser) (fuel : Nat) (cc : List (List Item))
    (h : self.constructCanonicalCollection fuel = some cc) :
    ∃ tables, self.buildSLRTable fuel = some tables ∧ tables.action.length = cc.length ∧
      ∀ i items, cc[i]? = some items → ∀ terminal,
        (tables.action.getD i []).find? terminal =
          lastWrite (self.actionWrites cc items) terminal := by
  refine ⟨self.tablesOf cc, ?_, ?_, ?_⟩
  · simp only [SLRParser.buildSLRTable, h]
  · simp [SLRParser.tablesOf]
  · intro i items hi terminal
    have hrow : (self.tablesOf cc).action.getD i [] = (self.buildRow cc items).1 := by
      simp [SLRParser.tablesOf, List.getD_eq_getElem?_getD, hi]
    rw [hrow, buildRow_action, find?_applyWrites]
    cases lastWrite (self.actionWrites cc items) terminal <;> rfl

/-! ## Scenario: the grammar `S → a S a | a`, which has a shift/reduce conflict -/

theorem conflictGrammar_eval :
    (SLRParser.new [⟨"S'", ["S"], 0⟩, ⟨"S", ["a", "S", "a"], 1⟩, ⟨"S", ["a"], 2⟩] ["S'", "S"]
        ["a", "$"] "S'").bind (fun parser =>
      (parser.constructCanonicalCollection 20).map (fun cc =>
        (cc, parser.tablesOf cc, parser.actionWrites cc (cc.getD 2 [])))) =
    some ([[⟨0, 0⟩, ⟨1, 0⟩, ⟨2, 0⟩], [⟨0, 1⟩], [⟨1, 1⟩, ⟨2, 1⟩, ⟨1, 0⟩, ⟨2, 0⟩], [⟨1, 2⟩],
        [⟨1, 3⟩]],
      ⟨[[("a", ⟨.SHIFT, 2⟩)], [("$", ⟨.ACCEPT, -1⟩)],
        [("$", ⟨.REDUCE, 2⟩), ("a", ⟨.SHIFT, 2⟩)], [("a", ⟨.SHIFT, 4⟩)],
        [("$", ⟨.REDUCE, 1⟩), ("a", ⟨.REDUCE, 1⟩)]],
       [[("S", 1)], [], [("S", 3)], [], []]⟩,
      [("$", ⟨.REDUCE, 2⟩), ("a", ⟨.REDUCE, 2⟩), ("a", ⟨.SHIFT, 2⟩)]) := by
  decide!

/-- C3, as stated, fails: for the grammar `S' → S, S → a S a | a` the state that holds
`S → a . S a` and `S → a .` is assigned both `reduce(2)` and `shift(2)` under the terminal
`a`, and `buildSLRTable` returns tables all the same, with `shift(2)` in that entry. -/
theorem conflict_returns_tables :
    ∃ parser cc tables,
      SLRParser.new [⟨"S'", ["S"], 0⟩, ⟨"S", ["a", "S", "a"], 1⟩, ⟨"S", ["a"], 2⟩] ["S'", "S"]
        ["a", "$"] "S'" = some parser ∧
      parser.constructCanonicalCollection 20 = some cc ∧
      parser.buildSLRTable 20 = some tables ∧
      cc[2]? = some [⟨1, 1⟩, ⟨2, 1⟩, ⟨1, 0⟩, ⟨2, 0⟩] ∧
      parser.Conflict cc [⟨1, 1⟩, ⟨2, 1⟩, ⟨1, 0⟩, ⟨2, 0⟩] "a" ∧
      (tables.action.getD 2 []).find? "a" = some ⟨ActionType.SHIFT, 2⟩ := by
  obtain ⟨parser, hp, h1⟩ := Option.bind_eq_some.mp conflictGrammar_eval
  obtain ⟨cc, hcc, h2⟩ := Option.map_eq_some'.mp h1
  simp only [Prod.mk.injEq] at h2
  obtain ⟨e1, e2, e3⟩ := h2
  have hitems : cc.getD 2 [] = [⟨1, 1⟩, ⟨2, 1⟩, ⟨1, 0⟩, ⟨2, 0⟩] := by rw [e1]; rfl
  rw [hitems] at e3
  refine ⟨parser, cc, parser.tablesOf cc, hp, hcc, ?_, ?_, ?_, ?_⟩
  · simp only [SLRParser.buildSLRTable, hcc]
  · rw [e1]; rfl
  · refine ⟨⟨ActionType.REDUCE, 2⟩, ⟨ActionType.SHIFT, 2⟩, ?_, ?_, by decide⟩
    · rw [e3]; decide
    · rw [e3]; decide
  · rw [e2]
    decide

/-- Witness of `conflicts_are_overwritten` (C3): the grammar `S' → S, S → a S a | a`. -/
theorem conflicts_are_overwritten_witness :
    ∃ parser cc tables,
      SLRParser.new [⟨"S'", ["S"], 0⟩, ⟨"S", ["a", "S", "a"], 1⟩, ⟨"S", ["a"], 2⟩] ["S'", "S"]
        ["a", "$"] "S'" = some parser ∧
      parser.constructCanonicalCollection 20 = some cc ∧
      parser.buildSLRTable 20 = some tables ∧ tables.action.length = cc.length ∧
      ∀ i items, cc[i]? = some items → ∀ terminal,
        (tables.action.getD i []).find? terminal =
          lastWrite (parser.actionWrites cc items) terminal := by
  obtain ⟨parser, hp, h1⟩ := Option.bind_eq_some.mp conflictGrammar_eval
  obtain ⟨cc, hcc, _⟩ := Option.map_eq_some'.mp h1
  obtain ⟨tables, ht, hlen, hrow⟩ := conflicts_are_overwritten parser 20 cc hcc
  exact ⟨parser, cc, tables, hp, hcc, ht, hlen, hrow⟩

/-! ## Scenario: the grammar `S → a S | a` -/

set_option synthInstance.maxSize 1024 in
theorem rightRecursive_eval :
    (SLRParser.new [⟨"S'", ["S"], 0⟩, ⟨"S", ["a", "S"], 1⟩, ⟨"S", ["a"], 2⟩] ["S'", "S"]
        ["a", "$"] "S'").bind (fun parser =>
      (parser.constructCanonicalCollection 20).map (fun cc =>
        (cc, parser.tablesOf cc, (parser.followSets.get "S" : List String),
          cc.map (parser.actionWrites cc)))) =
    some ([[⟨0, 0⟩, ⟨1, 0⟩, ⟨2, 0⟩], [⟨0, 1⟩], [⟨1, 1⟩, ⟨2, 1⟩, ⟨1, 0⟩, ⟨2, 0⟩], [⟨1, 2⟩]],
      ⟨[[("a", ⟨.SHIFT, 2⟩)], [("$", ⟨.ACCEPT, -1⟩)],
        [("$", ⟨.REDUCE, 2⟩), ("a", ⟨.SHIFT, 2⟩)], [("$", ⟨.REDUCE, 1⟩)]],
       [[("S", 1)], [], [("S", 3)], []]⟩,
      ["$"],
      [[("a", ⟨.SHIFT, 2⟩)], [("$", ⟨.ACCEPT, -1⟩)],
        [("$", ⟨.REDUCE, 2⟩), ("a", ⟨.SHIFT, 2⟩)], [("$", ⟨.REDUCE, 1⟩)]]) := by
  decide!

/-- C4, as the code has it: for the grammar `S' → S, S → a S | a` table construction
does not fail, whatever fuel it is given.  `FOLLOW(S)` is `{$}`, so the state that holds
`S → a . S` and `S → a .` gets `reduce(2)` under `$` and `shift` under `a`, and no entry of
any state is assigned two distinct actions. -/
theorem rightRecursive_tables :
    ∃ parser cc,
      SLRParser.new [⟨"S'", ["S"], 0⟩, ⟨"S", ["a", "S"], 1⟩, ⟨"S", ["a"], 2⟩] ["S'", "S"]
        ["a", "$"] "S'" = some parser ∧
      parser.constructCanonicalCollection 20 = some cc ∧
      cc = [[⟨0, 0⟩, ⟨1, 0⟩, ⟨2, 0⟩], [⟨0, 1⟩], [⟨1, 1⟩, ⟨2, 1⟩, ⟨1, 0⟩, ⟨2, 0⟩], [⟨1, 2⟩]] ∧
      parser.followSets.get "S" = ["$"] ∧
      (∀ fuel tables, parser.buildSLRTable fuel = some tables →
        tables = ⟨[[("a", ⟨.SHIFT, 2⟩)], [("$", ⟨.ACCEPT, -1⟩)],
            [("$", ⟨.REDUCE, 2⟩), ("a", ⟨.SHIFT, 2⟩)], [("$", ⟨.REDUCE, 1⟩)]],
          [[("S", 1)], [], [("S", 3)], []]⟩) ∧
      (∀ items ∈ cc, ∀ terminal, ¬ parser.Conflict cc items terminal) := by
  obtain ⟨parser, hp, h1⟩ := Option.bind_eq_some.mp rightRecursive_eval
  obtain ⟨cc, hcc, h2⟩ := Option.map_eq_some'.mp h1
  simp only [Prod.mk.injEq] at h2
  obtain ⟨e1, e2, e3, e4⟩ := h2
  refine ⟨parser, cc, hp, hcc, e1, e3, ?_, ?_⟩
  · intro fuel tables ht
    have h20 : parser.buildSLRTable 20 = some (parser.tablesOf cc) := by
      simp only [SLRParser.buildSLRTable, hcc]
    rw [buildSLRTable_unique parser fuel 20 _ _ ht h20, e2]
  · intro items hitems terminal ⟨a, b, ha, hb, hab⟩
    have hw : parser.actionWrites cc items ∈ cc.map (parser.actionWrites cc) :=
      List.mem_map_of_mem _ hitems
    rw [e4] at hw
    have key : ∀ ws ∈ ([[("a", ⟨.SHIFT, 2⟩)], [("$", ⟨.ACCEPT, -1⟩)],
        [("$", ⟨.REDUCE, 2⟩), ("a", ⟨.SHIFT, 2⟩)], [("$", ⟨.REDUCE, 1⟩)]] :
          List (List (String × TableAction))),
        ∀ w1 ∈ ws, ∀ w2 ∈ ws, w1.1 = w2.1 → w1.2 = w2.2 := by decide
    exact hab (key _ hw _ ha _ hb rfl)

/-- C4, as stated, fails: for the grammar `S' → S, S → a S | a` `buildSLRTable` returns
tables; it does not fail. -/
theorem rightRecursive_returns :
    ∃ parser tables,
      SLRParser.new [⟨"S'", ["S"], 0⟩, ⟨"S", ["a", "S"], 1⟩, ⟨"S", ["a"], 2⟩] ["S'", "S"]
        ["a", "$"] "S'" = some parser ∧
      parser.buildSLRTable 20 = some tables := by
  obtain ⟨parser, hp, h1⟩ := Option.bind_eq_some.mp rightRecursive_eval
  obtain ⟨cc, hcc, _⟩ := Option.map_eq_some'.mp h1
  exact ⟨parser, parser.tablesOf cc, hp, by simp only [SLRParser.buildSLRTable, hcc]⟩

/-! ## The `FOLLOW` sets of the built-in grammar -/

theorem builtin_first_identifier :
    (SLRParser.new initializeProductions (getNonTerminals initializeProductions [])
        getTerminals "S'").map (fun parser => parser.firstSets.get "IDENTIFIER") =
      some ["IDENTIFIER"] := by
  decide!

/-- Witness of `follow_equations` (C10): in the built-in grammar the production
`DeclStmt → Type IDENTIFIER SEMICOLON` puts `IDENTIFIER` into `FOLLOW(Type)`. -/
theorem follow_equations_witness :
    ∃ parser, SLRParser.new initializeProductions (getNonTerminals initializeProductions [])
        getTerminals "S'" = some parser ∧
      "$" ∈ parser.followSets.get "S'" ∧ "IDENTIFIER" ∈ parser.followSets.get "Type" ∧
      epsilon ∉ parser.followSets.get "Type" := by
  obtain ⟨parser, hnew, h1, h2, h3⟩ := follow_equations initializeProductions
    (getNonTerminals initializeProductions []) getTerminals "S'"
  refine ⟨parser, hnew, h1, ?_, h3 _⟩
  have hid : parser.firstSets.get "IDENTIFIER" = ["IDENTIFIER"] := by
    have := builtin_first_identifier
    rw [hnew] at this
    exact Option.some.inj this
  refine (h2 ⟨"DeclStmt", ["Type", "IDENTIFIER", "SEMICOLON"], 9⟩ (by decide) [] "Type"
    ["IDENTIFIER", "SEMICOLON"] rfl (by decide)).1 "IDENTIFIER" ?_ (by decide)
  exact ⟨[], "IDENTIFIER", ["SEMICOLON"], rfl, by simp, by rw [hid]; simp⟩

/-! ## `computeStringFirst` -/

/-- What `computeStringFirst` computes: the loop visits every symbol, so a symbol other
than `ε` is in the result when it is in the `FIRST` set of any symbol of the string, and
`ε` is in the result when every symbol has `ε` in its `FIRST` set. -/
theorem stringFirstLoop_spec (self : SLRParser) (y : String) :
    ∀ (l : List String) (result : StrSet) (can : Bool),
      (y ∈ (self.stringFirstLoop l result can).1 ↔
        y ∈ result ∨ ∃ sym ∈ l, y ∈ self.firstSets.get sym ∧ y ≠ epsilon) ∧
      ((self.stringFirstLoop l result can).2 = true ↔
        can = true ∧ ∀ sym ∈ l, epsilon ∈ self.firstSets.get sym) := by
  intro l
  induction l with
  | nil => intro result can; simp [SLRParser.stringFirstLoop]
  | cons s rest ih =>
    intro result can
    simp only [SLRParser.stringFirstLoop]
    obtain ⟨h1, h2⟩ := ih (addNonEpsilon (self.firstSets.get s) result)
      (if epsilon ∉ self.firstSets.get s then false else can)
    constructor
    · rw [h1, addNonEpsilon_mem]
      simp only [List.mem_cons, exists_eq_or_imp]
      tauto
    · rw [h2]
      by_cases hs : epsilon ∈ self.firstSets.get s
      · simp [hs]
      · simp [hs]

/-- C11 fails on the code: the loop of `computeStringFirst` has no `break`, so for the two
distinct terminals `IDENTIFIER` and `SEMICOLON` of the built-in grammar, whose `FIRST` sets
are `{IDENTIFIER}` and `{SEMICOLON}`, the result for `[IDENTIFIER, SEMICOLON]` is
`{IDENTIFIER, SEMICOLON}`. -/
theorem stringFirst_of_two_terminals :
    ∃ parser, SLRParser.new initializeProductions (getNonTerminals initializeProductions [])
        getTerminals "S'" = some parser ∧
      parser.firstSets.get "IDENTIFIER" = ["IDENTIFIER"] ∧
      parser.firstSets.get "SEMICOLON" = ["SEMICOLON"] ∧
      parser.computeStringFirst ["IDENTIFIER", "SEMICOLON"] = ["IDENTIFIER", "SEMICOLON"] := by
  have h : (SLRParser.new initializeProductions (getNonTerminals initializeProductions [])
      getTerminals "S'").map (fun parser => ((parser.firstSets.get "IDENTIFIER" : List String),
        (parser.firstSets.get "SEMICOLON" : List String),
        (parser.computeStringFirst ["IDENTIFIER", "SEMICOLON"] : List String))) =
      some (["IDENTIFIER"], ["SEMICOLON"], ["IDENTIFIER", "SEMICOLON"]) := by
    decide!
  obtain ⟨parser, hp, he⟩ := Option.map_eq_some'.mp h
  simp only [Prod.mk.injEq] at he
  exact ⟨parser, hp, he.1, he.2.1, he.2.2⟩

/-- A pass that reports no change has added nothing. -/
theorem closurePass_fixed (prods : List Production) (nts : StrSet) (s r : List Item)
    (h : closurePass prods nts s = (r, false)) : r = s := by
  unfold closurePass at h
  simp only [Prod.mk.injEq, decide_eq_false_iff_not, not_not] at h
  rw [← h.1, h.2, List.append_nil]

/-- The list that `closure` returns is left unchanged by one more pass. -/
theorem closure_fixed (self : SLRParser) (items : List Item) :
    closurePass self.productions self.nonTerminals (self.closure items) =
      (self.closure items, false) := by
  obtain ⟨r, hr⟩ := closure_terminates self.productions self.nonTerminals items
  have hc : self.closure items = r := by
    unfold SLRParser.closure
    rw [hr]
    rfl
  obtain ⟨s1, _, hb⟩ := doWhile_result (closurePass self.productions self.nonTerminals)
    (fun _ => True) (fun _ _ => trivial) _ _ r trivial hr
  have e := closurePass_fixed _ _ _ _ hb
  rw [hc]
  rw [e] at hb ⊢
  exact hb

/-- On a list that one pass leaves unchanged, `closure` returns the list itself. -/
theorem closure_of_fixed (self : SLRParser) (r : List Item)
    (h : closurePass self.productions self.nonTerminals r = (r, false)) :
    self.closure r = r := by
  unfold SLRParser.closure
  simp only [doWhile, h]
  rfl

/-- C12: `closure(closure(I)) = closure(I)`, as lists, for every grammar and every list `I`
of items (in particular for dense production ids and valid items). -/
theorem closure_idempotent (self : SLRParser) (items : List Item) :
    self.closure (self.closure items) = self.closure items :=
  closure_of_fixed self _ (closure_fixed self items)

/-! ## `performShift`, `performReduction`, `recoverFromError` -/

/-- The popping loop of `performReduction`: with `n` entries on both stacks it removes
the top `n` of each and puts the removed symbols, in their order, in front of `children`;
with fewer entries it runs into an empty vector. -/
theorem reducePop_eq :
    ∀ (n : Nat) (ss : List Int) (sy ch : List SyntaxTreeNode),
      reducePop n ss sy ch =
        if n ≤ ss.length ∧ n ≤ sy.length then
          .ok (ss.take (ss.length - n), sy.take (sy.length - n), sy.drop (sy.length - n) ++ ch)
        else .error ParseError.undefinedBehaviour := by
  intro n
  induction n with
  | zero => intro ss sy ch; simp [reducePop]
  | succ n ih =>
    intro ss sy ch
    simp only [reducePop]
    rcases List.eq_nil_or_concat ss with hss | ⟨zs, t, rfl⟩
    · simp [hss]
    · have hne : zs ++ [t] ≠ [] := by simp
      simp only [List.concat_eq_append, hne, if_false, List.dropLast_concat]
      rcases List.eq_nil_or_concat sy with hsy | ⟨ys, back, rfl⟩
      · simp [hsy]
      · simp only [List.concat_eq_append]
        have hlast : (ys ++ [back]).getLast? = some back := by simp
        rw [hlast]
        simp only [List.dropLast_concat]
        rw [ih]
        simp only [List.length_append, List.length_singleton]
        by_cases hc : n ≤ zs.length ∧ n ≤ ys.length
        · have hc1 : n + 1 ≤ zs.length + 1 ∧ n + 1 ≤ ys.length + 1 := by omega
          rw [if_pos hc, if_pos hc1]
          have a1 : zs.length + 1 - (n + 1) = zs.length - n := by omega
          have a2 : ys.length + 1 - (n + 1) = ys.length - n := by omega
          rw [a1, a2, List.take_append_of_le_length (by omega),
            List.take_append_of_le_length (by omega),
            List.drop_append_of_le_length (by omega)]
          simp
        · have hc1 : ¬ (n + 1 ≤ zs.length + 1 ∧ n + 1 ≤ ys.length + 1) := by omega
          rw [if_neg hc, if_neg hc1]

theorem getLast?_take_getD (l : List Int) (m : Nat) (h1 : 1 ≤ m) (h2 : m ≤ l.length) :
    (l.take m).getLast? = some (l.getD (m - 1) 0) := by
  rw [List.getLast?_take, if_neg (by omega), List.getElem?_eq_getElem (by omega),
    List.getD_eq_getElem _ _ (by omega)]
  rfl

/-- What `performReduction` does on stacks that hold enough entries. -/
theorem performReduction_eq (self : SyntaxParser) (prodId : Int) (c : ParseContext)
    (hs : (prodAt self.productions_ prodId.toNat).right.length < c.stateStack.length)
    (hy : (prodAt self.productions_ prodId.toNat).right.length ≤ c.symbolStack.length) :
    self.performReduction prodId c =
      match (self.gotoRow (c.stateStack.getD
          (c.stateStack.length - (prodAt self.productions_ prodId.toNat).right.length - 1) 0)).find?
          (prodAt self.productions_ prodId.toNat).left with
      | none => .error ParseError.outOfRange
      | some newState =>
        .ok ⟨c.tokens, c.pos,
          c.stateStack.take
            (c.stateStack.length - (prodAt self.productions_ prodId.toNat).right.length) ++
            [newState],
          c.symbolStack.take
            (c.symbolStack.length - (prodAt self.productions_ prodId.toNat).right.length) ++
            [SyntaxTreeNode.mk (prodAt self.productions_ prodId.toNat).left ""
              (c.symbolStack.drop
                (c.symbolStack.length -
                  (prodAt self.productions_ prodId.toNat).right.length))]⟩ := by
  unfold SyntaxParser.performReduction
  simp only []
  rw [reducePop_eq, if_pos ⟨by omega, hy⟩]
  simp only [List.append_nil]
  rw [getLast?_take_getD _ _ (by omega) (by omega)]

/-- Without enough entries on the stacks a reduction runs into an empty vector. -/
theorem reduction_underflow (self : SyntaxParser) (prodId : Int) (c : ParseContext)
    (h : ¬ ((prodAt self.productions_ prodId.toNat).right.length < c.stateStack.length ∧
      (prodAt self.productions_ prodId.toNat).right.length ≤ c.symbolStack.length)) :
    self.performReduction prodId c = .error ParseError.undefinedBehaviour := by
  unfold SyntaxParser.performReduction
  simp only []
  rw [reducePop_eq]
  by_cases hc : (prodAt self.productions_ prodId.toNat).right.length ≤ c.stateStack.length ∧
      (prodAt self.productions_ prodId.toNat).right.length ≤ c.symbolStack.length
  · rw [if_pos hc]
    have hlen : c.stateStack.length = (prodAt self.productions_ prodId.toNat).right.length := by
      omega
    simp [hlen]
  · rw [if_neg hc]

/-- The function `performReduction` has no case of its own for the marker `ε`: called with
the `ε`-production `Statements → ε` (production 3, right-hand side `[ε]`) on the states
`[0, 4]` and one symbol, it pops one entry from each stack. State 4 is the target of no
shift and of no goto, so no run of `parse()` makes this call. -/
theorem epsilon_reduction_pops_one :
    (prodAt builtinParser.productions_ 3).right = [epsilon] ∧
    builtinParser.performReduction 3
        ⟨[⟨TokenType.DOLLAR, "$", 0⟩], 0, [0, 4], [.mk "ε" "ε" []]⟩ =
      .ok ⟨[⟨TokenType.DOLLAR, "$", 0⟩], 0, [0, 2],
        [.mk "Statements" "" [.mk "ε" "ε" []]]⟩ := by
  constructor
  · decide!
  · decide!

/-- What an iteration does when the action is `shift(j)`: it pushes `j` onto the state
stack, pushes a childless leaf, increases `pos` by one, writes nothing to the error stream
and leaves the tokens and the rest of both stacks as they were. The main loop passes the
lexeme of the current token as the symbol of the leaf, so the leaf holds the lexeme in
both fields. -/
theorem shift_effect (self : SyntaxParser) (c : ParseContext) (currentState j : Int)
    (htop : c.stateStack.getLast? = some currentState)
    (hact : self.getAction currentState (c.tokens.getD c.pos default) =
      ⟨ActionType.SHIFT, j⟩) :
    self.iteration c =
      .next ⟨c.tokens, c.pos + 1, c.stateStack ++ [j],
        c.symbolStack ++ [SyntaxTreeNode.mk (c.tokens.getD c.pos default).value
          (c.tokens.getD c.pos default).value []]⟩ [] := by
  unfold SyntaxParser.iteration
  simp only [htop, hact]
  rfl

/-- C15 fails on the code: after `int` of `int x ;` was shifted and reduced to `Type`, the
current token `x` has the terminal name `IDENTIFIER` and the action is `shift(20)`; the
iteration leaves 20 on top of the state stack, increases `pos` from 1 to 2, keeps the rest
of both stacks and pushes a childless leaf with the value `x`, but the symbol of that leaf
is the lexeme `x`, not the terminal name `IDENTIFIER`. -/
theorem shift_leaf_symbol :
    builtinParser.configAfter 2 (ParseContext.init
        [⟨TokenType.TYPE, "int", 1⟩, ⟨TokenType.IDENTIFIER, "x", 1⟩,
          ⟨TokenType.SEMICOLON, ";", 1⟩, ⟨TokenType.DOLLAR, "$", 0⟩]) =
      some ⟨[⟨TokenType.TYPE, "int", 1⟩, ⟨TokenType.IDENTIFIER, "x", 1⟩,
          ⟨TokenType.SEMICOLON, ";", 1⟩, ⟨TokenType.DOLLAR, "$", 0⟩], 1, [0, 11],
          [.mk "Type" "" [.mk "int" "int" []]]⟩ ∧
    tokenTypeToTerminal ⟨TokenType.IDENTIFIER, "x", 1⟩ = "IDENTIFIER" ∧
    builtinParser.getAction 11 ⟨TokenType.IDENTIFIER, "x", 1⟩ = ⟨ActionType.SHIFT, 20⟩ ∧
    builtinParser.iteration
        ⟨[⟨TokenType.TYPE, "int", 1⟩, ⟨TokenType.IDENTIFIER, "x", 1⟩,
          ⟨TokenType.SEMICOLON, ";", 1⟩, ⟨TokenType.DOLLAR, "$", 0⟩], 1, [0, 11],
          [.mk "Type" "" [.mk "int" "int" []]]⟩ =
      .next ⟨[⟨TokenType.TYPE, "int", 1⟩, ⟨TokenType.IDENTIFIER, "x", 1⟩,
          ⟨TokenType.SEMICOLON, ";", 1⟩, ⟨TokenType.DOLLAR, "$", 0⟩], 2, [0, 11, 20],
          [.mk "Type" "" [.mk "int" "int" []], .mk "x" "x" []]⟩ [] ∧
    SyntaxTreeNode.mk "x" "x" [] ≠ SyntaxTreeNode.mk "IDENTIFIER" "x" [] := by
  refine ⟨by decide!, by decide!, by decide!, by decide!, by decide!⟩

/-- The popping loop of `recoverFromError` removes the same number of entries from the
top of both stacks (as many symbols as there are, when there are fewer). -/
theorem popLoop_eq (self : SyntaxParser) (tokens : List Token) (pos : Nat) :
    ∀ (fuel : Nat) (ss : List Int) (sy : List SyntaxTreeNode),
      ∃ j, (self.popLoop tokens pos fuel ss sy).1 = ss.take (ss.length - j) ∧
        (self.popLoop tokens pos fuel ss sy).2 = sy.take (sy.length - j) := by
  intro fuel
  induction fuel with
  | zero => intro ss sy; exact ⟨0, by simp [SyntaxParser.popLoop]⟩
  | succ n ih =>
    intro ss sy
    simp only [SyntaxParser.popLoop]
    cases hl : ss.getLast? with
    | none => exact ⟨0, by simp⟩
    | some cur =>
      simp only []
      split
      · exact ⟨0, by simp⟩
      · obtain ⟨j, h1, h2⟩ := ih ss.dropLast sy.dropLast
        refine ⟨j + 1, ?_, ?_⟩
        · rw [h1, List.dropLast_eq_take, List.take_take]
          congr 1
          simp only [List.length_take]
          omega
        · rw [h2, List.dropLast_eq_take, List.take_take]
          congr 1
          simp only [List.length_take]
          omega

theorem performShift_stackInv (newState : Int) (token : String) (c : ParseContext)
    (h : StackInv c) : StackInv (performShift newState token c) := by
  unfold StackInv at h ⊢
  simp [performShift, h]

theorem performReduction_stackInv (self : SyntaxParser) (prodId : Int) (c c1 : ParseContext)
    (h : StackInv c) (hred : self.performReduction prodId c = .ok c1) : StackInv c1 := by
  by_cases hc : (prodAt self.productions_ prodId.toNat).right.length < c.stateStack.length ∧
      (prodAt self.productions_ prodId.toNat).right.length ≤ c.symbolStack.length
  · rw [performReduction_eq self prodId c hc.1 hc.2] at hred
    split at hred
    · simp at hred
    · simp only [Except.ok.injEq] at hred
      subst hred
      unfold StackInv at h ⊢
      simp only [List.length_append, List.length_take, List.length_singleton]
      omega
  · rw [reduction_underflow self prodId c hc] at hred
    simp at hred

theorem recoverFromError_stackInv (self : SyntaxParser) (c c1 : ParseContext)
    (h : StackInv c) (hrec : self.recoverFromError c = .ok c1) : StackInv c1 := by
  unfold SyntaxParser.recoverFromError at hrec
  simp only [] at hrec
  split at hrec
  · simp at hrec
  · rename_i hne
    simp only [Except.ok.injEq] at hrec
    subst hrec
    obtain ⟨j, h1, h2⟩ := popLoop_eq self c.tokens
      (skipLoop c.tokens (c.tokens.length - c.pos) c.pos) c.stateStack.length
      c.stateStack c.symbolStack
    unfold StackInv at h ⊢
    simp only []
    rw [h1] at hne ⊢
    rw [h2]
    have hpos : 0 < (c.stateStack.take (c.stateStack.length - j)).length :=
      List.length_pos.mpr hne
    simp only [List.length_take] at hpos ⊢
    omega

theorem iteration_stackInv (self : SyntaxParser) (c c1 : ParseContext)
    (reported : List Diagnostic) (h : StackInv c) (hit : self.iteration c = .next c1 reported) :
    StackInv c1 := by
  unfold SyntaxParser.iteration at hit
  simp only [] at hit
  cases hl : c.stateStack.getLast? with
  | none => rw [hl] at hit; simp at hit
  | some cur =>
    rw [hl] at hit
    simp only [] at hit
    cases ht : (self.getAction cur (c.tokens.getD c.pos default)).type with
    | SHIFT =>
      rw [ht] at hit
      simp only [StepResult.next.injEq] at hit
      rw [← hit.1]
      exact performShift_stackInv _ _ c h
    | REDUCE =>
      rw [ht] at hit
      simp only [] at hit
      cases hr : self.performReduction (self.getAction cur (c.tokens.getD c.pos default)).value c with
      | error e => rw [hr] at hit; simp at hit
      | ok c2 =>
        rw [hr] at hit
        simp only [StepResult.next.injEq] at hit
        rw [← hit.1]
        exact performReduction_stackInv self _ c c2 h hr
    | ACCEPT => rw [ht] at hit; simp at hit
    | ERROR =>
      rw [ht] at hit
      simp only [] at hit
      cases hr : self.recoverFromError c with
      | error e => rw [hr] at hit; simp at hit
      | ok c2 =>
        rw [hr] at hit
        simp only [StepResult.next.injEq] at hit
        rw [← hit.1]
        exact recoverFromError_stackInv self c c2 h hr

/-- A property of the initial configuration that every iteration keeps holds in every
configuration of the run. -/
theorem configAfter_induction (self : SyntaxParser) (P : ParseContext → Prop)
    (hstep : ∀ c c1 reported, P c → c.pos < c.tokens.length →
      self.iteration c = .next c1 reported → P c1) :
    ∀ (n : Nat) (c0 c : ParseContext), P c0 → self.configAfter n c0 = some c → P c := by
  intro n
  induction n with
  | zero =>
    intro c0 c h0 h
    simp only [SyntaxParser.configAfter, Option.some.injEq] at h
    exact h ▸ h0
  | succ n ih =>
    intro c0 c h0 h
    simp only [SyntaxParser.configAfter] at h
    by_cases hpos : c0.pos < c0.tokens.length
    · simp only [hpos, if_true] at h
      cases hit : self.iteration c0 with
      | next c1 reported =>
        rw [hit] at h
        exact ih c1 c (hstep c0 c1 reported h0 hpos hit) h
      | done result reported => rw [hit] at h; simp at h
    · simp [hpos] at h

/-- C17: the invariant `|stateStack| = |symbolStack| + 1` holds in the initial context, is
kept by `performShift`, by every `performReduction` that returns (it returns only when the
stacks hold at least `|right(p)|` symbols), and by every `recoverFromError` that returns
normally; hence it holds in every configuration that the main loop of `parse()` reaches,
whatever the tables and the tokens. -/
theorem stack_invariant (self : SyntaxParser) :
    (∀ tokens, StackInv (ParseContext.init tokens)) ∧
    (∀ newState token c, StackInv c → StackInv (performShift newState token c)) ∧
    (∀ prodId c c1, StackInv c → self.performReduction prodId c = .ok c1 → StackInv c1) ∧
    (∀ prodId c, StackInv c →
      (prodAt self.productions_ prodId.toNat).right.length ≤ c.symbolStack.length →
      ∀ e, self.performReduction prodId c = .error e → e = ParseError.outOfRange) ∧
    (∀ c c1, StackInv c → self.recoverFromError c = .ok c1 → StackInv c1) ∧
    (∀ tokens n c, self.configAfter n (ParseContext.init tokens) = some c → StackInv c) := by
  refine ⟨fun _ => by unfold StackInv; rfl, performShift_stackInv, fun prodId c c1 => performReduction_stackInv self
    prodId c c1, ?_, recoverFromError_stackInv self, ?_⟩
  · intro prodId c h hk e he
    rw [performReduction_eq self prodId c (by unfold StackInv at h; omega) hk] at he
    split at he
    · simp only [Except.error.injEq] at he
      exact he.symm
    · simp at he
  · intro tokens n c h
    exact configAfter_induction self StackInv
      (fun c c1 reported hc _ hit => iteration_stackInv self c c1 reported hc hit) n
      (ParseContext.init tokens) c (by unfold StackInv; rfl) h

/-! ## Acceptance -/

theorem getAction_entry (self : SyntaxParser) (state : Int) (token : Token)
    (h : (self.getAction state token).type ≠ ActionType.ERROR) :
    (tokenTypeToTerminal token, self.getAction state token) ∈
      self.tables_.action.getD state.toNat [] := by
  rw [getAction_eq] at h ⊢
  cases hf : (self.actionRow state).find? (tokenTypeToTerminal token) with
  | none => rw [hf] at h; exact absurd rfl h
  | some a => exact StrMap.mem_of_find? _ _ _ hf

theorem top_cases (rest : List Int) (cur : Int) (h : (0 :: rest).getLast? = some cur) :
    (rest = [] ∧ cur = 0) ∨ cur ∈ rest := by
  rcases List.eq_nil_or_concat rest with hr | ⟨zs, t, rfl⟩
  · subst hr
    simp only [List.getLast?_singleton, Option.some.injEq] at h
    exact Or.inl ⟨rfl, h.symm⟩
  · right
    simp only [List.concat_eq_append] at h ⊢
    have : (0 :: (zs ++ [t])).getLast? = some t := by
      rw [← List.cons_append, List.getLast?_append]
      simp
    rw [this] at h
    simp only [Option.some.injEq] at h
    subst h
    simp

/-- On a stack with state 1 the state on top is state 1, where the tables hold neither a
shift nor a reduce. -/
theorem one_not_on_stack (self : SyntaxParser) (hrows : self.StartRows) (c : ParseContext)
    (rest : List Int) (cur : Int) (token : Token) (hss : c.stateStack = 0 :: rest)
    (hone : (1 : Int) ∈ rest → rest = [1] ∧ ∃ n, c.symbolStack = [n] ∧ n.symbol = "Program")
    (htop : c.stateStack.getLast? = some cur)
    (ht : (self.getAction cur token).type = ActionType.SHIFT ∨
      (self.getAction cur token).type = ActionType.REDUCE) : (1 : Int) ∉ rest := by
  intro h1
  obtain ⟨hr, _⟩ := hone h1
  rw [hss, hr] at htop
  simp only [List.getLast?_cons_cons, List.getLast?_singleton, Option.some.injEq] at htop
  subst htop
  have hne : (self.getAction 1 token).type ≠ ActionType.ERROR := by
    rcases ht with ht | ht <;> rw [ht] <;> decide
  have hmem := getAction_entry self 1 token hne
  obtain ⟨a1, a2, _⟩ := hrows.1 _ _ hmem
  rcases ht with ht | ht
  · exact (a1 ht).2 rfl
  · exact a2 ht rfl

theorem performShift_acceptInv (self : SyntaxParser) (hrows : self.StartRows)
    (c : ParseContext) (cur : Int) (token : String) (h : AcceptInv c)
    (htop : c.stateStack.getLast? = some cur)
    (ht : (self.getAction cur (c.tokens.getD c.pos default)).type = ActionType.SHIFT) :
    AcceptInv (performShift (self.getAction cur (c.tokens.getD c.pos default)).value token c) := by
  obtain ⟨rest, hss, hlen, hpos, hone⟩ := h
  have hno := one_not_on_stack self hrows c rest cur _ hss hone htop (Or.inl ht)
  have hmem := getAction_entry self cur (c.tokens.getD c.pos default) (by rw [ht]; decide)
  have hv : 2 ≤ (self.getAction cur (c.tokens.getD c.pos default)).value :=
    ((hrows.1 _ _ hmem).1 ht).1
  refine ⟨rest ++ [(self.getAction cur (c.tokens.getD c.pos default)).value], ?_, ?_, ?_, ?_⟩
  · simp [performShift, hss]
  · simp [performShift, hlen]
  · intro s hs
    rcases List.mem_append.mp hs with hs | hs
    · exact hpos s hs
    · rw [List.mem_singleton] at hs
      omega
  · intro h1
    rcases List.mem_append.mp h1 with h1 | h1
    · exact absurd h1 hno
    · rw [List.mem_singleton] at h1
      omega

theorem take_cons_sub (a : Int) (l : List Int) (j : Nat) (hj : j ≤ l.length) :
    (a :: l).take ((a :: l).length - j) = a :: l.take (l.length - j) := by
  have : (a :: l).length - j = (l.length - j) + 1 := by
    simp only [List.length_cons]
    omega
  rw [this, List.take_succ_cons]

theorem getD_cons_sub (l : List Int) (m : Nat) :
    (m = 0 ∧ (0 :: l).getD m 0 = 0) ∨ (0 :: l).getD m 0 ∈ l ∨ (0 :: l).getD m 0 = 0 ∧ l.length < m := by
  cases m with
  | zero => exact Or.inl ⟨rfl, rfl⟩
  | succ k =>
    right
    by_cases hk : k < l.length
    · left
      simp only [List.getD_cons_succ]
      rw [List.getD_eq_getElem _ _ hk]
      exact List.getElem_mem _
    · right
      simp only [List.getD_cons_succ]
      rw [List.getD_eq_default _ _ (by omega)]
      exact ⟨rfl, by omega⟩

theorem performReduction_acceptInv (self : SyntaxParser) (hrows : self.StartRows)
    (c c1 : ParseContext) (cur : Int) (h : AcceptInv c)
    (htop : c.stateStack.getLast? = some cur)
    (ht : (self.getAction cur (c.tokens.getD c.pos default)).type = ActionType.REDUCE)
    (hred : self.performReduction (self.getAction cur (c.tokens.getD c.pos default)).value c =
      .ok c1) : AcceptInv c1 := by
  obtain ⟨rest, hss, hlen, hpos, hone⟩ := h
  have hno := one_not_on_stack self hrows c rest cur _ hss hone htop (Or.inr ht)
  generalize (self.getAction cur (c.tokens.getD c.pos default)).value = prodId at hred
  by_cases hc : (prodAt self.productions_ prodId.toNat).right.length < c.stateStack.length ∧
      (prodAt self.productions_ prodId.toNat).right.length ≤ c.symbolStack.length
  · rw [performReduction_eq self prodId c hc.1 hc.2] at hred
    generalize hk : (prodAt self.productions_ prodId.toNat).right.length = k at hred hc
    cases hf : (self.gotoRow (c.stateStack.getD (c.stateStack.length - k - 1) 0)).find?
        (prodAt self.productions_ prodId.toNat).left with
    | none => rw [hf] at hred; simp at hred
    | some v =>
      rw [hf] at hred
      simp only [Except.ok.injEq] at hred
      subst hred
      have hmem := StrMap.mem_of_find? _ _ _ hf
      obtain ⟨hv1, hv2⟩ := hrows.2 _ _ hmem
      have hv1 : (1 : Int) ≤ v := hv1
      have hv2 : v = 1 → (c.stateStack.getD (c.stateStack.length - k - 1) 0).toNat = 0 ∧
        (prodAt self.productions_ prodId.toNat).left = "Program" := hv2
      have hkr : k ≤ rest.length := by
        have := hc.1
        rw [hss] at this
        simp only [List.length_cons] at this
        omega
      refine ⟨rest.take (rest.length - k) ++ [v], ?_, ?_, ?_, ?_⟩
      · show c.stateStack.take (c.stateStack.length - k) ++ [v] = _
        rw [hss, take_cons_sub 0 rest k hkr]
        rfl
      · simp only [List.length_append, List.length_take, List.length_singleton]
        omega
      · intro s hs
        rcases List.mem_append.mp hs with hs | hs
        · exact hpos s (List.mem_of_mem_take hs)
        · rw [List.mem_singleton] at hs
          omega
      · intro h1
        rcases List.mem_append.mp h1 with h1 | h1
        · exact absurd (List.mem_of_mem_take h1) hno
        · rw [List.mem_singleton] at h1
          obtain ⟨hz, hleft⟩ := hv2 h1.symm
          have hidx : c.stateStack.length - k - 1 = rest.length - k := by
            rw [hss]
            simp only [List.length_cons]
            omega
          rw [hidx, hss] at hz
          rcases getD_cons_sub rest (rest.length - k) with ⟨hm, _⟩ | hm | ⟨_, hm⟩
          · have hy0 : c.symbolStack.length - k = 0 := by omega
            refine ⟨?_, SyntaxTreeNode.mk (prodAt self.productions_ prodId.toNat).left ""
              (c.symbolStack.drop (c.symbolStack.length - k)), ?_, hleft⟩
            · rw [hm, ← h1]
              rfl
            · show c.symbolStack.take (c.symbolStack.length - k) ++ _ = _
              rw [hy0]
              rfl
          · have := hpos _ hm
            omega
          · omega
  · rw [reduction_underflow self prodId c hc] at hred
    simp at hred

theorem recoverFromError_acceptInv (self : SyntaxParser) (c c1 : ParseContext)
    (h : AcceptInv c) (hrec : self.recoverFromError c = .ok c1) : AcceptInv c1 := by
  obtain ⟨rest, hss, hlen, hpos, hone⟩ := h
  unfold SyntaxParser.recoverFromError at hrec
  simp only [] at hrec
  split at hrec
  · simp at hrec
  · rename_i hne
    simp only [Except.ok.injEq] at hrec
    subst hrec
    obtain ⟨j, h1, h2⟩ := popLoop_eq self c.tokens
      (skipLoop c.tokens (c.tokens.length - c.pos) c.pos) c.stateStack.length
      c.stateStack c.symbolStack
    rw [h1] at hne
    have hlp : 0 < (c.stateStack.take (c.stateStack.length - j)).length :=
      List.length_pos.mpr hne
    have hj : j ≤ rest.length := by
      rw [hss] at hlp
      simp only [List.length_take, List.length_cons] at hlp
      omega
    refine ⟨rest.take (rest.length - j), ?_, ?_, ?_, ?_⟩
    · show (self.popLoop _ _ _ _ _).1 = _
      rw [h1, hss, take_cons_sub 0 rest j hj]
    · show _ = (self.popLoop _ _ _ _ _).2.length
      rw [h2]
      simp only [List.length_take]
      omega
    · intro s hs
      exact hpos s (List.mem_of_mem_take hs)
    · intro hm
      obtain ⟨hr, n, hn, hsym⟩ := hone (List.mem_of_mem_take hm)
      have hj0 : j = 0 := by
        rw [hr] at hm
        by_contra hcon
        have : [(1 : Int)].length - j = 0 := by
          simp only [List.length_singleton]
          omega
        rw [this] at hm
        simp at hm
      subst hj0
      refine ⟨by rw [hr]; rfl, n, ?_, hsym⟩
      show (self.popLoop _ _ _ _ _).2 = _
      rw [h2, hn]
      rfl

theorem iteration_acceptInv (self : SyntaxParser) (hrows : self.StartRows) (c c1 : ParseContext)
    (reported : List Diagnostic) (h : AcceptInv c) (hit : self.iteration c = .next c1 reported) :
    AcceptInv c1 := by
  unfold SyntaxParser.iteration at hit
  simp only [] at hit
  cases hl : c.stateStack.getLast? with
  | none => rw [hl] at hit; simp at hit
  | some cur =>
    rw [hl] at hit
    simp only [] at hit
    cases ht : (self.getAction cur (c.tokens.getD c.pos default)).type with
    | SHIFT =>
      rw [ht] at hit
      simp only [StepResult.next.injEq] at hit
      rw [← hit.1]
      exact performShift_acceptInv self hrows c cur _ h hl ht
    | REDUCE =>
      rw [ht] at hit
      simp only [] at hit
      cases hr : self.performReduction (self.getAction cur (c.tokens.getD c.pos default)).value c with
      | error e => rw [hr] at hit; simp at hit
      | ok c2 =>
        rw [hr] at hit
        simp only [StepResult.next.injEq] at hit
        rw [← hit.1]
        exact performReduction_acceptInv self hrows c c2 cur h hl ht hr
    | ACCEPT => rw [ht] at hit; simp at hit
    | ERROR =>
      rw [ht] at hit
      simp only [] at hit
      cases hr : self.recoverFromError c with
      | error e => rw [hr] at hit; simp at hit
      | ok c2 =>
        rw [hr] at hit
        simp only [StepResult.next.injEq] at hit
        rw [← hit.1]
        exact recoverFromError_acceptInv self c c2 h hr

/-- In a configuration with the invariant the accept action is taken with exactly one
symbol on the stack, a `Program` node. -/
theorem accept_acceptInv (self : SyntaxParser) (hrows : self.StartRows) (c : ParseContext)
    (cur : Int) (h : AcceptInv c) (htop : c.stateStack.getLast? = some cur)
    (ht : (self.getAction cur (c.tokens.getD c.pos default)).type = ActionType.ACCEPT) :
    ∃ root, c.symbolStack = [root] ∧ root.symbol = "Program" := by
  obtain ⟨rest, hss, hlen, hpos, hone⟩ := h
  have hmem := getAction_entry self cur (c.tokens.getD c.pos default) (by rw [ht]; decide)
  have hcur : cur.toNat = 1 := (hrows.1 _ _ hmem).2.2 ht
  rw [hss] at htop
  rcases top_cases rest cur htop with ⟨_, h0⟩ | hm
  · rw [h0] at hcur
    exact absurd hcur (by decide)
  · have hc1 : cur = 1 := by
      have := hpos cur hm
      omega
    rw [hc1] at hm
    exact (hone hm).2

theorem builtin_startRows : builtinParser.StartRows := by
  constructor
  · intro i
    by_cases hi : i < 52
    · revert i
      decide!
    · intro e he
      rw [List.getD_eq_default _ _ (by
        have : builtinParser.tables_.action.length = 52 := by decide!
        omega)] at he
      simp at he
  · intro i
    by_cases hi : i < 52
    · revert i
      decide!
    · intro e he
      rw [List.getD_eq_default _ _ (by
        have : builtinParser.tables_.goto_.length = 52 := by decide!
        omega)] at he
      simp at he

theorem acceptInv_init (tokens : List Token) : AcceptInv (ParseContext.init tokens) :=
  ⟨[], rfl, rfl, fun _ hs => absurd hs (List.not_mem_nil _),
    fun hs => absurd hs (List.not_mem_nil _)⟩

/-- C18: for the built-in grammar and every token sequence, in every configuration that
the main loop of `parse()` reaches from the initial one and in which the action for the
state on top and the current token is `accept`, the symbol stack has exactly one element,
its symbol is `Program`, `finalizeParsing` returns it, and so the iteration leaves `parse()`
with that node and writes nothing to the error stream. -/
theorem accept_returns_program (tokens : List Token) (n : Nat) (c : ParseContext) (cur : Int)
    (hreach : builtinParser.configAfter n (ParseContext.init tokens) = some c)
    (htop : c.stateStack.getLast? = some cur)
    (hacc : (builtinParser.getAction cur (c.tokens.getD c.pos default)).type =
      ActionType.ACCEPT) :
    ∃ root, c.symbolStack = [root] ∧ root.symbol = "Program" ∧
      finalizeParsing c = .ok root ∧ builtinParser.iteration c = .done (.ok root) [] := by
  have hinv : AcceptInv c :=
    configAfter_induction builtinParser AcceptInv
      (fun c c1 reported hc _ hit => iteration_acceptInv builtinParser builtin_startRows
        c c1 reported hc hit) n (ParseContext.init tokens) c (acceptInv_init tokens) hreach
  obtain ⟨root, hroot, hsym⟩ := accept_acceptInv builtinParser builtin_startRows c cur hinv
    htop hacc
  have hfin : finalizeParsing c = .ok root := by
    unfold finalizeParsing
    rw [hroot]
  refine ⟨root, hroot, hsym, hfin, ?_⟩
  unfold SyntaxParser.iteration
  simp only [htop, hacc, hfin]

/-- Witness of `accept_returns_program` (C18): on `int x ;` the ninth iteration leaves the
states `[0, 1]` and the token `$`, for which the action is `accept`. -/
theorem accept_returns_program_witness :
    ∃ root, (([SyntaxTreeNode.mk "Program" ""
        [.mk "Statements" "" [.mk "StmtList" "" [.mk "Statement" "" [.mk "DeclStmt" ""
          [.mk "Type" "" [.mk "int" "int" []], .mk "x" "x" [], .mk ";" ";" []]]]]]] :
        List SyntaxTreeNode) = [root]) ∧ root.symbol = "Program" ∧
      finalizeParsing ⟨[⟨TokenType.TYPE, "int", 1⟩, ⟨TokenType.IDENTIFIER, "x", 1⟩,
          ⟨TokenType.SEMICOLON, ";", 1⟩, ⟨TokenType.DOLLAR, "$", 0⟩], 3, [0, 1],
        [.mk "Program" ""
          [.mk "Statements" "" [.mk "StmtList" "" [.mk "Statement" "" [.mk "DeclStmt" ""
            [.mk "Type" "" [.mk "int" "int" []], .mk "x" "x" [], .mk ";" ";" []]]]]]]⟩ =
        .ok root ∧
      builtinParser.iteration ⟨[⟨TokenType.TYPE, "int", 1⟩, ⟨TokenType.IDENTIFIER, "x", 1⟩,
          ⟨TokenType.SEMICOLON, ";", 1⟩, ⟨TokenType.DOLLAR, "$", 0⟩], 3, [0, 1],
        [.mk "Program" ""
          [.mk "Statements" "" [.mk "StmtList" "" [.mk "Statement" "" [.mk "DeclStmt" ""
            [.mk "Type" "" [.mk "int" "int" []], .mk "x" "x" [], .mk ";" ";" []]]]]]]⟩ =
        .done (.ok root) [] :=
  accept_returns_program
    [⟨TokenType.TYPE, "int", 1⟩, ⟨TokenType.IDENTIFIER, "x", 1⟩,
      ⟨TokenType.SEMICOLON, ";", 1⟩, ⟨TokenType.DOLLAR, "$", 0⟩] 9
    ⟨[⟨TokenType.TYPE, "int", 1⟩, ⟨TokenType.IDENTIFIER, "x", 1⟩,
          ⟨TokenType.SEMICOLON, ";", 1⟩, ⟨TokenType.DOLLAR, "$", 0⟩], 3, [0, 1],
        [.mk "Program" ""
          [.mk "Statements" "" [.mk "StmtList" "" [.mk "Statement" "" [.mk "DeclStmt" ""
            [.mk "Type" "" [.mk "int" "int" []], .mk "x" "x" [], .mk ";" ";" []]]]]]]⟩ 1
    (by decide!) (by decide!) (by decide!)

/-! ## `tokenTypeToTerminal` -/

/-- No entry of `opMap` has the name `UNKNOWN`. -/
theorem opMap_name_ne_unknown (lexeme name : String) (h : opMap.find? lexeme = some name) :
    name ≠ "UNKNOWN" := by
  have hmem := StrMap.mem_of_find? _ _ _ h
  have hall : ∀ e ∈ opMap, e.2 ≠ "UNKNOWN" := by decide
  exact hall _ hmem

/-- C19, as the code has it: a token of a category without a case in the `switch`
(`KEYWORD`, `DELIMITER`, `COMMENT`, `UNKNOWN`) is mapped to the sentinel `UNKNOWN`, an
operator token whose lexeme is not in `opMap` is mapped to the different sentinel
`UNKNOWN_OP`, and `UNKNOWN` is returned for no other token, a `TYPE` token with the lexeme
`UNKNOWN` apart.  Neither sentinel has an entry in a row of the built-in `ACTION` table, so
the driver finds the action `ERROR` for both. -/
theorem unmapped_token_sentinels (token : Token) :
    (token.type ∈ [TokenType.KEYWORD, TokenType.DELIMITER, TokenType.COMMENT,
        TokenType.UNKNOWN] → tokenTypeToTerminal token = "UNKNOWN") ∧
    (token.type = TokenType.OPERATOR → opMap.find? token.value = none →
      tokenTypeToTerminal token = "UNKNOWN_OP") ∧
    (tokenTypeToTerminal token = "UNKNOWN" ↔
      token.type ∈ [TokenType.KEYWORD, TokenType.DELIMITER, TokenType.COMMENT,
        TokenType.UNKNOWN] ∨ (token.type = TokenType.TYPE ∧ token.value = "UNKNOWN")) ∧
    (tokenTypeToTerminal token = "UNKNOWN" ∨ tokenTypeToTerminal token = "UNKNOWN_OP" →
      ∀ state, builtinParser.getAction state token = ⟨ActionType.ERROR, -1⟩) := by
  obtain ⟨ty, value, line⟩ := token
  refine ⟨?_, ?_, ?_, ?_⟩
  · intro h
    simp only [List.mem_cons, List.mem_singleton, List.not_mem_nil, or_false] at h
    rcases h with h | h | h | h <;> subst h <;> rfl
  · intro h1 h2
    simp only at h1 h2
    subst h1
    simp only [tokenTypeToTerminal, h2]
  · constructor
    · intro h
      cases ty
      case OPERATOR =>
        simp only [tokenTypeToTerminal] at h
        cases hf : opMap.find? value with
        | none => rw [hf] at h; exact absurd h (by decide)
        | some name => rw [hf] at h; exact absurd h (opMap_name_ne_unknown _ _ hf)
      case TYPE => exact Or.inr ⟨rfl, h⟩
      all_goals first
        | (exfalso; simp [tokenTypeToTerminal] at h; done)
        | (left; simp)
    · intro h
      rcases h with h | ⟨h1, h2⟩
      · simp only [List.mem_cons, List.mem_singleton, List.not_mem_nil, or_false] at h
        rcases h with h | h | h | h <;> subst h <;> rfl
      · simp only at h1 h2
        subst h1
        simp only [tokenTypeToTerminal, h2]
  · intro h state
    rw [getAction_eq]
    have hrow : ∀ i, (builtinParser.tables_.action.getD i []).find? "UNKNOWN" = none ∧
        (builtinParser.tables_.action.getD i []).find? "UNKNOWN_OP" = none := by
      intro i
      by_cases hi : i < 52
      · revert i
        decide!
      · rw [List.getD_eq_default _ _ (by
          have : builtinParser.tables_.action.length = 52 := by decide!
          omega)]
        exact ⟨rfl, rfl⟩
    unfold SyntaxParser.actionRow
    rcases h with h | h <;> rw [h]
    · rw [(hrow state.toNat).1]
    · rw [(hrow state.toNat).2]

/-- C19, as stated, fails: the operator token `%`, whose lexeme is not in `opMap`, is
mapped to `UNKNOWN_OP`, not to `UNKNOWN`. -/
theorem unknown_operator_sentinel :
    opMap.find? "%" = none ∧
    tokenTypeToTerminal ⟨TokenType.OPERATOR, "%", 1⟩ = "UNKNOWN_OP" ∧
    tokenTypeToTerminal ⟨TokenType.OPERATOR, "%", 1⟩ ≠ "UNKNOWN" := by
  decide

/-! ## The lexer and `tokenTypeToTerminal` -/

/-- The categories that `lexer.cpp` gives to tokens. -/
theorem readIdentifier_type (lexer : Lexer) :
    lexer.readIdentifier.1.type = TokenType.KEYWORD ∨
    lexer.readIdentifier.1.type = TokenType.IDENTIFIER := by
  unfold Lexer.readIdentifier
  simp only []
  cases hf : Keywords.find?
      (readIdentifierLoop (lexer.source.length - lexer.pos) lexer "").2 with
  | none => exact Or.inr rfl
  | some type =>
    left
    have hall : ∀ e ∈ Keywords, e.2 = TokenType.KEYWORD := by decide
    exact hall _ (StrMap.mem_of_find? _ _ _ hf)

theorem readOperator_type (lexer : Lexer) (r : Token × Lexer)
    (h : lexer.readOperator = .ok r) : r.1.type = TokenType.OPERATOR := by
  unfold Lexer.readOperator at h
  simp only [] at h
  split at h
  · rename_i type hf
    simp only [Except.ok.injEq] at h
    subst h
    have hall : ∀ e ∈ operators, e.2 = TokenType.OPERATOR := by decide
    exact hall _ (StrMap.mem_of_find? _ _ _ hf)
  · simp at h

theorem readDelimiter_type (lexer : Lexer) :
    lexer.readDelimiter.1.type = TokenType.DELIMITER ∨
    lexer.readDelimiter.1.type = TokenType.UNKNOWN := by
  unfold Lexer.readDelimiter
  simp only []
  have hall : ∀ e ∈ delimiters, e.2 = TokenType.DELIMITER := by decide
  split
  · rename_i type hf
    exact Or.inl (hall _ (StrMap.mem_of_find? _ _ _ hf))
  · split
    · split
      · rename_i type hf
        exact absurd hf (by simp)
      · exact Or.inr rfl
    · exact Or.inr rfl

/-- Every token that the loop of `tokenize` appends has one of the categories of
`lexer.cpp`. -/
theorem tokenizeLoop_categories (P : Token → Prop)
    (hP : ∀ t : Token, t.type ∈ [TokenType.KEYWORD, TokenType.IDENTIFIER, TokenType.NUMBER,
      TokenType.OPERATOR, TokenType.DELIMITER, TokenType.STRING, TokenType.UNKNOWN] → P t) :
    ∀ (fuel : Nat) (lexer : Lexer) (tokens result : List Token),
      (∀ t ∈ tokens, P t) → tokenizeLoop fuel lexer tokens = some (.ok result) →
      ∀ t ∈ result, P t := by
  intro fuel
  induction fuel with
  | zero => intro lexer tokens result _ h; simp [tokenizeLoop] at h
  | succ n ih =>
    intro lexer tokens result hall h
    have hadd : ∀ t0 : Token, P t0 → ∀ t ∈ tokens ++ [t0], P t := by
      intro t0 h0 t ht
      rcases List.mem_append.mp ht with ht | ht
      · exact hall t ht
      · rw [List.mem_singleton] at ht
        exact ht ▸ h0
    simp only [tokenizeLoop] at h
    split at h
    · split at h
      · exact ih _ _ _ hall h
      · split at h
        · exact ih _ _ _ (hadd _ (hP _ (by simp [Lexer.readNumber]))) h
        · split at h
          · refine ih _ _ _ (hadd _ (hP _ ?_)) h
            rcases readIdentifier_type lexer with h1 | h1 <;> rw [h1] <;> simp
          · split at h
            · exact ih _ _ _ (hadd _ (hP _ (by simp [Lexer.readString]))) h
            · split at h
              · exact ih _ _ _ hall h
              · split at h
                · exact ih _ _ _ hall h
                · split at h
                  · cases hr : lexer.readOperator with
                    | error e => rw [hr] at h; simp at h
                    | ok r =>
                      rw [hr] at h
                      refine ih _ _ _ (hadd _ (hP _ ?_)) h
                      rw [readOperator_type lexer r hr]
                      simp
                  · split at h
                    · refine ih _ _ _ (hadd _ (hP _ ?_)) h
                      rcases readDelimiter_type lexer with h1 | h1 <;> rw [h1] <;> simp
                    · exact ih _ _ _ (hadd _ (hP _ (by simp))) h
    · simp only [Option.some.injEq, Except.ok.injEq] at h
      exact h ▸ hall

/-- A token with a category of `lexer.cpp` is mapped to none of the terminals of the
delimiters and the type keywords. -/
theorem lexer_category_terminal (t : Token)
    (h : t.type ∈ [TokenType.KEYWORD, TokenType.IDENTIFIER, TokenType.NUMBER,
      TokenType.OPERATOR, TokenType.DELIMITER, TokenType.STRING, TokenType.UNKNOWN]) :
    tokenTypeToTerminal t ∉ ["LEFT_PAREN", "RIGHT_PAREN", "LEFT_BRACE", "RIGHT_BRACE",
      "SEMICOLON", "COMMA", "int", "float", "bool"] := by
  obtain ⟨ty, value, line⟩ := t
  simp only [List.mem_cons, List.mem_singleton, List.not_mem_nil, or_false] at h
  rcases h with h | h | h | h | h | h | h <;> subst h
  case inr.inr.inr.inl =>
    simp only [tokenTypeToTerminal]
    cases hf : opMap.find? value with
    | none => decide
    | some name =>
      have hall : ∀ e ∈ opMap, e.2 ∉ ["LEFT_PAREN", "RIGHT_PAREN", "LEFT_BRACE",
        "RIGHT_BRACE", "SEMICOLON", "COMMA", "int", "float", "bool"] := by decide
      exact hall _ (StrMap.mem_of_find? _ _ _ hf)
  all_goals simp [tokenTypeToTerminal]

/-- C20 fails on the code: `Lexer::tokenize` gives the delimiters the category `DELIMITER`
and the keywords the category `KEYWORD`, for which the `switch` of `tokenTypeToTerminal`
has no case.  On the source `int float bool ( ) { } ; ,` every one of the nine tokens is
mapped to `UNKNOWN`, on `int x;` the terminals are `UNKNOWN`, `IDENTIFIER`, `UNKNOWN`, and
for no source is a token that `tokenize` returns mapped to one of `LEFT_PAREN`,
`RIGHT_PAREN`, `LEFT_BRACE`, `RIGHT_BRACE`, `SEMICOLON`, `COMMA`, `int`, `float`, `bool`. -/
theorem lexed_delimiters_unmapped :
    tokenize "int float bool ( ) \x7b \x7d ; ," =
      some (.ok [⟨TokenType.KEYWORD, "int", 1⟩, ⟨TokenType.KEYWORD, "float", 1⟩,
        ⟨TokenType.KEYWORD, "bool", 1⟩, ⟨TokenType.DELIMITER, "(", 1⟩,
        ⟨TokenType.DELIMITER, ")", 1⟩, ⟨TokenType.DELIMITER, "\x7b", 1⟩,
        ⟨TokenType.DELIMITER, "\x7d", 1⟩, ⟨TokenType.DELIMITER, ";", 1⟩,
        ⟨TokenType.DELIMITER, ",", 1⟩]) ∧
    [⟨TokenType.KEYWORD, "int", 1⟩, ⟨TokenType.KEYWORD, "float", 1⟩,
        ⟨TokenType.KEYWORD, "bool", 1⟩, ⟨TokenType.DELIMITER, "(", 1⟩,
        ⟨TokenType.DELIMITER, ")", 1⟩, ⟨TokenType.DELIMITER, "\x7b", 1⟩,
        ⟨TokenType.DELIMITER, "\x7d", 1⟩, ⟨TokenType.DELIMITER, ";", 1⟩,
        ⟨TokenType.DELIMITER, ",", 1⟩].map tokenTypeToTerminal =
      ["UNKNOWN", "UNKNOWN", "UNKNOWN", "UNKNOWN", "UNKNOWN", "UNKNOWN", "UNKNOWN",
        "UNKNOWN", "UNKNOWN"] ∧
    tokenize "int x;" =
      some (.ok [⟨TokenType.KEYWORD, "int", 1⟩, ⟨TokenType.IDENTIFIER, "x", 1⟩,
        ⟨TokenType.DELIMITER, ";", 1⟩]) ∧
    [⟨TokenType.KEYWORD, "int", 1⟩, ⟨TokenType.IDENTIFIER, "x", 1⟩,
        ⟨TokenType.DELIMITER, ";", 1⟩].map tokenTypeToTerminal =
      ["UNKNOWN", "IDENTIFIER", "UNKNOWN"] ∧
    ∀ source tokens, tokenize source = some (.ok tokens) → ∀ t ∈ tokens,
      tokenTypeToTerminal t ∉ ["LEFT_PAREN", "RIGHT_PAREN", "LEFT_BRACE", "RIGHT_BRACE",
        "SEMICOLON", "COMMA", "int", "float", "bool"] := by
  refine ⟨by decide!, by decide!, by decide!, by decide!, ?_⟩
  intro source tokens h
  exact tokenizeLoop_categories _ lexer_category_terminal _ _ _ _
    (fun _ ht => absurd ht (List.not_mem_nil _)) h

/-! ## The item-set engine: `closure` and `goTo` -/

theorem doWhile_invariant {σ : Type} (body : σ → σ × Bool) (Inv : σ → Prop)
    (hinv : ∀ s, Inv s → Inv (body s).1) (n : Nat) (s r : σ) (hs : Inv s)
    (h : doWhile body n s = some r) : Inv r := by
  obtain ⟨s1, h1, hb⟩ := doWhile_result body Inv hinv n s r hs h
  have h2 := hinv s1 h1
  rw [hb] at h2
  exact h2

/-- A property of `items` that every pass of the loop of `closure` keeps holds of
`closure(items)`. -/
theorem closure_invariant (self : SLRParser) (Inv : List Item → Prop)
    (hinv : ∀ s, Inv s → Inv (s ++ closureItemsPass self.productions self.nonTerminals s s []))
    (items : List Item) (h0 : Inv items) : Inv (self.closure items) := by
  obtain ⟨r, hr⟩ := closure_terminates self.productions self.nonTerminals items
  have hc : self.closure items = r := by
    unfold SLRParser.closure
    rw [hr]
    rfl
  rw [hc]
  exact doWhile_invariant _ Inv (fun s hs => hinv s hs) _ _ _ h0 hr

theorem closureProds_left (closureItems : List Item) (symbol : String) :
    ∀ (l : List Production) (newItems : List Item),
      ∀ x ∈ closureProds closureItems symbol l newItems,
        x ∈ newItems ∨ ∃ q ∈ l, x = ⟨q.id, 0⟩ ∧ q.left = symbol := by
  intro l
  induction l with
  | nil => intro newItems x hx; exact Or.inl hx
  | cons q rest ih =>
    intro newItems x hx
    have hup : (∃ q1 ∈ rest, x = ⟨q1.id, 0⟩ ∧ q1.left = symbol) →
        ∃ q1 ∈ q :: rest, x = ⟨q1.id, 0⟩ ∧ q1.left = symbol := by
      rintro ⟨q1, h1, h2⟩
      exact ⟨q1, List.mem_cons_of_mem _ h1, h2⟩
    simp only [closureProds] at hx
    split at hx
    · exact (ih newItems x hx).imp id hup
    · rename_i hleft
      split at hx
      · exact (ih newItems x hx).imp id hup
      · rcases ih _ x hx with h | h
        · rcases List.mem_append.mp h with h | h
          · exact Or.inl h
          · right
            rw [List.mem_singleton] at h
            exact ⟨q, List.mem_cons_self _ _, h, by simpa using hleft⟩
        · exact Or.inr (hup h)

theorem closureItemsPass_left (prods : List Production) (nts : StrSet)
    (closureItems : List Item) :
    ∀ (l : List Item) (newItems : List Item),
      ∀ x ∈ closureItemsPass prods nts closureItems l newItems,
        x ∈ newItems ∨ ∃ item ∈ l, ∃ q ∈ prods, x = ⟨q.id, 0⟩ ∧
          afterDot prods item = some q.left ∧ q.left ∈ nts := by
  intro l
  induction l with
  | nil => intro newItems x hx; exact Or.inl hx
  | cons item rest ih =>
    intro newItems x hx
    have hup : (∃ it ∈ rest, ∃ q ∈ prods, x = ⟨q.id, 0⟩ ∧
          afterDot prods it = some q.left ∧ q.left ∈ nts) →
        ∃ it ∈ item :: rest, ∃ q ∈ prods, x = ⟨q.id, 0⟩ ∧
          afterDot prods it = some q.left ∧ q.left ∈ nts := by
      rintro ⟨it, h1, h2⟩
      exact ⟨it, List.mem_cons_of_mem _ h1, h2⟩
    simp only [closureItemsPass] at hx
    split at hx
    · exact (ih newItems x hx).imp id hup
    · rename_i hdot
      split at hx
      · exact (ih newItems x hx).imp id hup
      · rename_i hnt
        rcases ih _ x hx with h | h
        · rcases closureProds_left closureItems _ prods newItems x h with h1 | ⟨q, hq, hx1, hl⟩
          · exact Or.inl h1
          · right
            refine ⟨item, List.mem_cons_self _ _, q, hq, hx1, ?_, ?_⟩
            · unfold afterDot
              rw [if_pos (by omega), hl]
            · rw [hl]
              simpa using hnt
        · exact Or.inr (hup h)

theorem closureProds_nodup (closureItems : List Item) (symbol : String) :
    ∀ (l : List Production) (newItems : List Item),
      newItems.Nodup → (∀ x ∈ newItems, x ∉ closureItems) →
      (closureProds closureItems symbol l newItems).Nodup ∧
        ∀ x ∈ closureProds closureItems symbol l newItems, x ∉ closureItems := by
  intro l
  induction l with
  | nil => intro newItems h1 h2; exact ⟨h1, h2⟩
  | cons q rest ih =>
    intro newItems h1 h2
    simp only [closureProds]
    split
    · exact ih newItems h1 h2
    · split
      · exact ih newItems h1 h2
      · rename_i hex
        have hex1 : (⟨q.id, 0⟩ : Item) ∉ closureItems ∧ (⟨q.id, 0⟩ : Item) ∉ newItems := by
          constructor
          · exact fun hc => hex (Or.inl hc)
          · exact fun hc => hex (Or.inr hc)
        apply ih
        · rw [List.nodup_append]
          refine ⟨h1, List.nodup_singleton _, ?_⟩
          intro a ha hb
          rw [List.mem_singleton] at hb
          exact hex1.2 (hb ▸ ha)
        · intro x hx
          rcases List.mem_append.mp hx with hx | hx
          · exact h2 x hx
          · rw [List.mem_singleton] at hx
            rw [hx]
            exact hex1.1

theorem closureItemsPass_nodup (prods : List Production) (nts : StrSet)
    (closureItems : List Item) :
    ∀ (l : List Item) (newItems : List Item),
      newItems.Nodup → (∀ x ∈ newItems, x ∉ closureItems) →
      (closureItemsPass prods nts closureItems l newItems).Nodup ∧
        ∀ x ∈ closureItemsPass prods nts closureItems l newItems, x ∉ closureItems := by
  intro l
  induction l with
  | nil => intro newItems h1 h2; exact ⟨h1, h2⟩
  | cons item rest ih =>
    intro newItems h1 h2
    simp only [closureItemsPass]
    split
    · exact ih newItems h1 h2
    · split
      · exact ih newItems h1 h2
      · obtain ⟨a, b⟩ := closureProds_nodup closureItems
          ((prodAt prods item.prodId).right.getD item.dotPos "") prods newItems h1 h2
        exact ih _ a b

/-- The list `closure(items)` starts with nothing lost: every item of `items` is in it. -/
theorem closure_subset (self : SLRParser) (items : List Item) :
    ∀ x ∈ items, x ∈ self.closure items :=
  closure_invariant self (fun s => ∀ x ∈ items, x ∈ s)
    (fun _ hs x hx => List.mem_append_left _ (hs x hx)) items (fun _ hx => hx)

/-- An item of `closure(items)` is an item of `items`, or it is `(q.id, 0)` for a
production `q` whose left-hand side is a non-terminal after the dot of an item of
`closure(items)`. -/
theorem closure_mem_cases (self : SLRParser) (items : List Item) :
    ∀ x ∈ self.closure items, x ∈ items ∨ ∃ item ∈ self.closure items,
      ∃ q ∈ self.productions, x = ⟨q.id, 0⟩ ∧
        afterDot self.productions item = some q.left ∧ q.left ∈ self.nonTerminals := by
  have key := closure_invariant self
    (fun s => ∀ x ∈ s, x ∈ items ∨ ∃ item ∈ s, ∃ q ∈ self.productions, x = ⟨q.id, 0⟩ ∧
        afterDot self.productions item = some q.left ∧ q.left ∈ self.nonTerminals)
    (by
      intro s hs x hx
      rcases List.mem_append.mp hx with hx | hx
      · rcases hs x hx with h | ⟨it, hit, h⟩
        · exact Or.inl h
        · exact Or.inr ⟨it, List.mem_append_left _ hit, h⟩
      · rcases closureItemsPass_left self.productions self.nonTerminals s s [] x hx with
          h | ⟨it, hit, h⟩
        · simp at h
        · exact Or.inr ⟨it, List.mem_append_left _ hit, h⟩)
    items (fun x hx => Or.inl hx)
  exact key

/-- The closure of a duplicate-free list is duplicate-free. -/
theorem closure_nodup (self : SLRParser) (items : List Item) (h : items.Nodup) :
    (self.closure items).Nodup :=
  closure_invariant self List.Nodup
    (by
      intro s hs
      obtain ⟨a, b⟩ := closureItemsPass_nodup self.productions self.nonTerminals s s []
        List.nodup_nil (fun _ hx => absurd hx (List.not_mem_nil _))
      rw [List.nodup_append]
      exact ⟨hs, a, fun x hx hy => b x hy hx⟩)
    items h

/-- The kernel of `goTo(items, symbol)`: the items of `items` with `symbol` after the dot,
the dot moved over it. -/
theorem goToKernel_mem (self : SLRParser) (symbol : String) (x : Item) :
    ∀ items : List Item, x ∈ self.goToKernel symbol items ↔
      ∃ item ∈ items, afterDot self.productions item = some symbol ∧
        x = ⟨item.prodId, item.dotPos + 1⟩ := by
  intro items
  induction items with
  | nil => simp [SLRParser.goToKernel]
  | cons item rest ih =>
    simp only [SLRParser.goToKernel]
    by_cases hc : item.dotPos < (prodAt self.productions item.prodId).right.length ∧
        (prodAt self.productions item.prodId).right.getD item.dotPos "" = symbol
    · rw [if_pos hc, List.mem_cons, ih]
      constructor
      · rintro (h | ⟨it, h1, h2⟩)
        · refine ⟨item, List.mem_cons_self _ _, ?_, h⟩
          unfold afterDot
          rw [if_pos hc.1, hc.2]
        · exact ⟨it, List.mem_cons_of_mem _ h1, h2⟩
      · rintro ⟨it, h1, h2, h3⟩
        rcases List.mem_cons.mp h1 with h1 | h1
        · exact Or.inl (h1 ▸ h3)
        · exact Or.inr ⟨it, h1, h2, h3⟩
    · rw [if_neg hc, ih]
      constructor
      · rintro ⟨it, h1, h2⟩
        exact ⟨it, List.mem_cons_of_mem _ h1, h2⟩
      · rintro ⟨it, h1, h2, h3⟩
        rcases List.mem_cons.mp h1 with h1 | h1
        · exfalso
          subst h1
          unfold afterDot at h2
          split at h2
          · rename_i hlt
            simp only [Option.some.injEq] at h2
            exact hc ⟨hlt, h2⟩
          · simp at h2
        · exact ⟨it, h1, h2, h3⟩

/-! ## The canonical collection -/

theorem mergeStates_append :
    ∀ (l merged : List (List Item)), ∃ ext, mergeStates l merged = merged ++ ext ∧
      (∀ x ∈ ext, x ∈ l) ∧ (merged.Nodup → (merged ++ ext).Nodup) := by
  intro l
  induction l with
  | nil => intro merged; exact ⟨[], by simp [mergeStates], by simp, by simp⟩
  | cons s rest ih =>
    intro merged
    simp only [mergeStates]
    split
    · obtain ⟨ext, h1, h2, h3⟩ := ih merged
      exact ⟨ext, h1, fun x hx => List.mem_cons_of_mem _ (h2 x hx), h3⟩
    · rename_i hnot
      obtain ⟨ext, h1, h2, h3⟩ := ih (merged ++ [s])
      refine ⟨s :: ext, ?_, ?_, ?_⟩
      · rw [h1, List.append_assoc]
        rfl
      · intro x hx
        rcases List.mem_cons.mp hx with hx | hx
        · exact hx ▸ List.mem_cons_self _ _
        · exact List.mem_cons_of_mem _ (h2 x hx)
      · intro hm
        have h4 : (merged ++ [s]).Nodup := by
          rw [List.nodup_append]
          refine ⟨hm, List.nodup_singleton _, ?_⟩
          intro a ha hb
          rw [List.mem_singleton] at hb
          exact hnot (hb ▸ ha)
        have h5 := h3 h4
        rw [List.append_assoc] at h5
        exact h5

/-- When no state of `l` is in `merged` and `l` has no duplicates, merging appends `l`. -/
theorem mergeStates_fresh :
    ∀ (l merged : List (List Item)), l.Nodup → (∀ x ∈ l, x ∉ merged) →
      mergeStates l merged = merged ++ l := by
  intro l
  induction l with
  | nil => intro merged _ _; simp [mergeStates]
  | cons s rest ih =>
    intro merged hn hf
    simp only [mergeStates]
    rw [if_neg (hf s (List.mem_cons_self _ _))]
    rw [ih (merged ++ [s]) (List.nodup_cons.mp hn).2]
    · rw [List.append_assoc]
      rfl
    · intro x hx hm
      rcases List.mem_append.mp hm with hm | hm
      · exact hf x (List.mem_cons_of_mem _ hx) hm
      · rw [List.mem_singleton] at hm
        exact (List.nodup_cons.mp hn).1 (hm ▸ hx)

/-- What `expandState` pushes onto `temp`: non-empty results of `goTo` on the symbols
given that are neither in the collection nor in `temp` already. -/
theorem expandState_spec (self : SLRParser) (cc : List (List Item)) (items : List Item) :
    ∀ (symbols : List String) (temp : List (List Item)),
      (temp.Nodup → (∀ x ∈ temp, x ∉ cc) →
        (self.expandState cc items symbols temp).Nodup ∧
          ∀ x ∈ self.expandState cc items symbols temp, x ∉ cc) ∧
      ∀ x ∈ self.expandState cc items symbols temp, x ∈ temp ∨
        ∃ X ∈ symbols, x = self.goTo items X ∧ x ≠ [] := by
  intro symbols
  induction symbols with
  | nil => intro temp; exact ⟨fun h1 h2 => ⟨h1, h2⟩, fun x hx => Or.inl hx⟩
  | cons X rest ih =>
    intro temp
    have hup : ∀ x, (∃ Y ∈ rest, x = self.goTo items Y ∧ x ≠ []) →
        ∃ Y ∈ X :: rest, x = self.goTo items Y ∧ x ≠ [] := by
      rintro x ⟨Y, h1, h2⟩
      exact ⟨Y, List.mem_cons_of_mem _ h1, h2⟩
    simp only [SLRParser.expandState]
    split
    · rename_i hne
      split
      · exact ⟨(ih temp).1, fun x hx => ((ih temp).2 x hx).imp id (hup x)⟩
      · rename_i hex
        constructor
        · intro h1 h2
          apply (ih _).1
          · rw [List.nodup_append]
            refine ⟨h1, List.nodup_singleton _, ?_⟩
            intro a ha hb
            rw [List.mem_singleton] at hb
            exact hex (Or.inr (hb ▸ ha))
          · intro x hx
            rcases List.mem_append.mp hx with hx | hx
            · exact h2 x hx
            · rw [List.mem_singleton] at hx
              rw [hx]
              exact fun hc => hex (Or.inl hc)
        · intro x hx
          rcases (ih _).2 x hx with h | h
          · rcases List.mem_append.mp h with h | h
            · exact Or.inl h
            · rw [List.mem_singleton] at h
              exact Or.inr ⟨X, List.mem_cons_self _ _, h, h ▸ hne⟩
          · exact Or.inr (hup x h)
    · exact ⟨(ih temp).1, fun x hx => ((ih temp).2 x hx).imp id (hup x)⟩

theorem expandStates_spec (self : SLRParser) (cc : List (List Item)) :
    ∀ (l : List (List Item)) (temp : List (List Item)),
      (temp.Nodup → (∀ x ∈ temp, x ∉ cc) →
        (self.expandStates cc l temp).Nodup ∧ ∀ x ∈ self.expandStates cc l temp, x ∉ cc) ∧
      ∀ x ∈ self.expandStates cc l temp, x ∈ temp ∨
        ∃ I ∈ l, ∃ X ∈ self.dotSymbols I [], x = self.goTo I X ∧ x ≠ [] := by
  intro l
  induction l with
  | nil => intro temp; exact ⟨fun h1 h2 => ⟨h1, h2⟩, fun x hx => Or.inl hx⟩
  | cons I rest ih =>
    intro temp
    simp only [SLRParser.expandStates]
    constructor
    · intro h1 h2
      obtain ⟨a, b⟩ := (expandState_spec self cc I (self.dotSymbols I []) temp).1 h1 h2
      exact (ih _).1 a b
    · intro x hx
      rcases (ih _).2 x hx with h | ⟨J, hJ, h⟩
      · rcases (expandState_spec self cc I (self.dotSymbols I []) temp).2 x h with h1 | h1
        · exact Or.inl h1
        · exact Or.inr ⟨I, List.mem_cons_self _ _, h1⟩
      · exact Or.inr ⟨J, List.mem_cons_of_mem _ hJ, h⟩

/-- One pass of the loop of `constructCanonicalCollection` keeps the first state in place,
keeps the collection free of equal states, and adds only non-empty results of `goTo` on
states of the collection. -/
theorem canonicalPass_invariant (self : SLRParser) (P : List Item → Prop)
    (hstep : ∀ I X, P I → self.goTo I X ≠ [] → P (self.goTo I X))
    (st : List (List Item) × Nat)
    (h : (∃ tail, st.1 = self.closure [⟨0, 0⟩] :: tail) ∧ st.1.Nodup ∧ ∀ s ∈ st.1, P s) :
    (∃ tail, (self.canonicalPass st).1.1 = self.closure [⟨0, 0⟩] :: tail) ∧
      (self.canonicalPass st).1.1.Nodup ∧ ∀ s ∈ (self.canonicalPass st).1.1, P s := by
  obtain ⟨⟨tail, ht⟩, hn, hP⟩ := h
  obtain ⟨ext, h1, h2, h3⟩ := mergeStates_append
    (self.expandStates st.1 ((st.1.take st.1.length).drop st.2) []) st.1
  have hm : (self.canonicalPass st).1.1 = st.1 ++ ext := h1
  rw [hm]
  refine ⟨⟨tail ++ ext, by rw [ht]; rfl⟩, h3 hn, ?_⟩
  intro s hs
  rcases List.mem_append.mp hs with hs | hs
  · exact hP s hs
  · rcases (expandStates_spec self st.1 _ []).2 s (h2 s hs) with h4 | ⟨I, hI, X, _, hx, hne⟩
    · simp at h4
    · rw [hx]
      exact hstep I X (hP I (List.mem_of_mem_take (List.mem_of_mem_drop hI))) (hx ▸ hne)

/-- Induction over the canonical collection: the collection starts with
`closure([(0, 0)])`, no two of its states are equal (as item lists), and a property of the
first state that `goTo` passes on to its non-empty results holds of every state. -/
theorem canonical_induction (self : SLRParser) (P : List Item → Prop)
    (h0 : P (self.closure [⟨0, 0⟩]))
    (hstep : ∀ I X, P I → self.goTo I X ≠ [] → P (self.goTo I X))
    (fuel : Nat) (cc : List (List Item))
    (hcc : self.constructCanonicalCollection fuel = some cc) :
    (∃ tail, cc = self.closure [⟨0, 0⟩] :: tail) ∧ cc.Nodup ∧ ∀ s ∈ cc, P s := by
  unfold SLRParser.constructCanonicalCollection at hcc
  obtain ⟨st, hst, rfl⟩ := Option.map_eq_some'.mp hcc
  exact doWhile_invariant self.canonicalPass
    (fun st => (∃ tail, st.1 = self.closure [⟨0, 0⟩] :: tail) ∧ st.1.Nodup ∧ ∀ s ∈ st.1, P s)
    (fun st h => canonicalPass_invariant self P hstep st h) fuel _ st
    ⟨⟨[], rfl⟩, List.nodup_singleton _, by
      intro s hs
      rw [List.mem_singleton] at hs
      exact hs ▸ h0⟩ hst

/-- With dense ids, a production of the grammar with id `i` is `productions[i]`. -/
theorem prod_of_dense (prods : List Production)
    (hdense : ∀ i < prods.length, (prodAt prods i).id = i) (q : Production)
    (hq : q ∈ prods) : q = prodAt prods q.id := by
  obtain ⟨i, hi, rfl⟩ := List.getElem_of_mem hq
  have h := hdense i hi
  unfold prodAt at h ⊢
  rw [List.getD_eq_getElem _ _ hi] at h
  rw [h, List.getD_eq_getElem _ _ hi]

/-- The symbol after a dot is a symbol of a right-hand side of the grammar. -/
theorem afterDot_mem (prods : List Production) (item : Item) (symbol : String)
    (h : afterDot prods item = some symbol) : ∃ p ∈ prods, symbol ∈ p.right := by
  unfold afterDot at h
  split at h
  · rename_i hlt
    simp only [Option.some.injEq] at h
    have hin : item.prodId < prods.length := by
      by_contra hc
      unfold prodAt at hlt
      rw [List.getD_eq_default _ _ (by omega)] at hlt
      exact absurd hlt (Nat.not_lt_zero _)
    refine ⟨prodAt prods item.prodId, ?_, ?_⟩
    · unfold prodAt
      rw [List.getD_eq_getElem _ _ hin]
      exact List.getElem_mem _
    · rw [← h, List.getD_eq_getElem _ _ hlt]
      exact List.getElem_mem _
  · simp at h

/-- In an augmented grammar no result of `goTo` holds the initial item `(0, 0)`. -/
theorem goTo_no_initial (self : SLRParser)
    (hdense : ∀ i < self.productions.length, (prodAt self.productions i).id = i)
    (haug : (prodAt self.productions 0).left = self.startSymbol)
    (hstart : ∀ p ∈ self.productions, self.startSymbol ∉ p.right)
    (I : List Item) (X : String) : (⟨0, 0⟩ : Item) ∉ self.goTo I X := by
  intro h
  unfold SLRParser.goTo at h
  rcases closure_mem_cases self _ _ h with h1 | ⟨item, _, q, hq, hx, hdot, _⟩
  · obtain ⟨it, _, _, h2⟩ := (goToKernel_mem self X _ I).mp h1
    simp only [Item.mk.injEq] at h2
    omega
  · simp only [Item.mk.injEq, and_true] at hx
    have hq0 := prod_of_dense self.productions hdense q hq
    rw [← hx] at hq0
    obtain ⟨p, hp, hmem⟩ := afterDot_mem self.productions item q.left hdot
    rw [hq0, haug] at hmem
    exact hstart p hp hmem

/-! ## Termination of `constructCanonicalCollection` -/

theorem knownItem_mem_universe (prods : List Production) (x : Item)
    (h : KnownItem prods x) : x ∈ itemUniverse prods := by
  unfold itemUniverse
  rw [List.mem_flatMap]
  refine ⟨x.prodId, ?_, ?_⟩
  · rw [List.mem_cons]
    exact h.1
  · rw [List.mem_map]
    exact ⟨x.dotPos, List.mem_range.mpr (Nat.lt_succ_of_le h.2), rfl⟩

theorem knownState_mem_universe (prods : List Production) (s : List Item)
    (h : KnownState prods s) : s ∈ stateUniverse prods := by
  unfold stateUniverse
  rw [List.mem_flatMap]
  refine ⟨(itemUniverse prods).dedup.filter (fun x => decide (x ∈ s)), ?_, ?_⟩
  · rw [List.mem_sublists]
    exact List.filter_sublist _
  · rw [List.mem_permutations]
    rw [List.perm_ext_iff_of_nodup h.1 ((List.nodup_dedup _).filter _)]
    intro a
    rw [List.mem_filter, List.mem_dedup]
    constructor
    · intro ha
      exact ⟨knownItem_mem_universe prods a (h.2 a ha), by simpa using ha⟩
    · intro ha
      simpa using ha.2

theorem goToKernel_nodup (self : SLRParser) (symbol : String) :
    ∀ items : List Item, items.Nodup → (self.goToKernel symbol items).Nodup := by
  intro items
  induction items with
  | nil => intro _; simp [SLRParser.goToKernel]
  | cons item rest ih =>
    intro h
    obtain ⟨h1, h2⟩ := List.nodup_cons.mp h
    simp only [SLRParser.goToKernel]
    split
    · rw [List.nodup_cons]
      refine ⟨?_, ih h2⟩
      intro hm
      obtain ⟨it, hit, _, heq⟩ := (goToKernel_mem self symbol _ rest).mp hm
      simp only [Item.mk.injEq, Nat.add_right_cancel_iff] at heq
      have : it = item := by
        cases it
        cases item
        simp only [Item.mk.injEq]
        exact ⟨heq.1.symm, heq.2.symm⟩
      exact h1 (this ▸ hit)
    · exact ih h2

theorem closure_known (self : SLRParser) (items : List Item)
    (h : KnownState self.productions items) : KnownState self.productions (self.closure items) := by
  refine ⟨closure_nodup self items h.1, ?_⟩
  intro x hx
  rcases closure_mem_cases self items x hx with h1 | ⟨_, _, q, hq, hx1, _, _⟩
  · exact h.2 x h1
  · rw [hx1]
    exact ⟨Or.inr (List.mem_map.mpr ⟨q, hq, rfl⟩), Nat.zero_le _⟩

theorem goTo_known (self : SLRParser) (I : List Item) (X : String)
    (h : KnownState self.productions I) : KnownState self.productions (self.goTo I X) := by
  unfold SLRParser.goTo
  apply closure_known
  refine ⟨goToKernel_nodup self X I h.1, ?_⟩
  intro x hx
  obtain ⟨it, hit, hdot, heq⟩ := (goToKernel_mem self X x I).mp hx
  rw [heq]
  refine ⟨(h.2 it hit).1, ?_⟩
  unfold afterDot at hdot
  split at hdot
  · rename_i hlt
    exact hlt
  · simp at hdot

theorem initial_known (self : SLRParser) :
    KnownState self.productions (self.closure [⟨0, 0⟩]) := by
  apply closure_known
  refine ⟨List.nodup_singleton _, ?_⟩
  intro x hx
  rw [List.mem_singleton] at hx
  rw [hx]
  exact ⟨Or.inl rfl, Nat.zero_le _⟩

/-- A pass that reports a change makes the collection longer. -/
theorem canonicalPass_grows (self : SLRParser) (st : List (List Item) × Nat)
    (h : (self.canonicalPass st).2 = true) :
    st.1.length < (self.canonicalPass st).1.1.length := by
  obtain ⟨a, b⟩ := (expandStates_spec self st.1 ((st.1.take st.1.length).drop st.2) []).1
    List.nodup_nil (fun _ hx => absurd hx (List.not_mem_nil _))
  have hm : (self.canonicalPass st).1.1 =
      st.1 ++ self.expandStates st.1 ((st.1.take st.1.length).drop st.2) [] :=
    mergeStates_fresh _ _ a b
  have hne : self.expandStates st.1 ((st.1.take st.1.length).drop st.2) [] ≠ [] := by
    have h1 : decide (self.expandStates st.1 ((st.1.take st.1.length).drop st.2) [] ≠ []) =
        true := h
    simpa using h1
  rw [hm, List.length_append]
  have := List.length_pos.mpr hne
  omega

/-- The loop of `constructCanonicalCollection` stops, for every grammar: the states are
duplicate-free lists of items over a finite set, and no state is appended twice. -/
theorem canonical_terminates (self : SLRParser) :
    ∃ cc, self.constructCanonicalCollection ((stateUniverse self.productions).length + 1) =
      some cc := by
  have hstep : ∀ I X, KnownState self.productions I → self.goTo I X ≠ [] →
      KnownState self.productions (self.goTo I X) := fun I X hI _ => goTo_known self I X hI
  obtain ⟨r, hr⟩ := doWhile_terminates self.canonicalPass
    (fun st => (∃ tail, st.1 = self.closure [⟨0, 0⟩] :: tail) ∧ st.1.Nodup ∧
      ∀ s ∈ st.1, KnownState self.productions s)
    (fun st => st.1.length) (stateUniverse self.productions).length
    (fun st h => canonicalPass_invariant self _ hstep st h)
    (fun st h => (List.Nodup.subperm h.2.1
      (fun s hs => knownState_mem_universe _ s (h.2.2 s hs))).length_le)
    (fun st _ hc => canonicalPass_grows self st hc)
    ((stateUniverse self.productions).length + 1) ([self.closure [⟨0, 0⟩]], 0)
    ⟨⟨[], rfl⟩, List.nodup_singleton _, by
      intro s hs
      rw [List.mem_singleton] at hs
      exact hs ▸ initial_known self⟩
    (by simp only [List.length_singleton]; omega)
  exact ⟨r.1, by unfold SLRParser.constructCanonicalCollection; rw [hr]; rfl⟩

theorem canonical_unique (self : SLRParser) (f g : Nat) (a b : List (List Item))
    (h : self.constructCanonicalCollection f = some a)
    (h0 : self.constructCanonicalCollection g = some b) : a = b := by
  unfold SLRParser.constructCanonicalCollection at h h0
  obtain ⟨r, hr, rfl⟩ := Option.map_eq_some'.mp h
  obtain ⟨r0, hr0, rfl⟩ := Option.map_eq_some'.mp h0
  rw [doWhile_unique _ _ _ _ _ _ hr hr0]

theorem getElem?_succ_mem {α : Type} (a : α) (l : List α) (i : Nat) (s : α) (hi : i ≠ 0)
    (h : (a :: l)[i]? = some s) : s ∈ l := by
  obtain ⟨j, rfl⟩ : ∃ j, i = j + 1 := ⟨i - 1, by omega⟩
  rw [List.getElem?_cons_succ] at h
  obtain ⟨hj, hs⟩ := List.getElem?_eq_some.mp h
  exact hs ▸ List.getElem_mem hj

/-- The closure of the empty list is empty. -/
theorem closure_nil (self : SLRParser) : self.closure [] = [] :=
  closure_of_fixed self [] rfl

/-- Every item of `closure([(0, 0)])` has its dot at position 0. -/
theorem initial_dots (self : SLRParser) : ∀ x ∈ self.closure [⟨0, 0⟩], x.dotPos = 0 := by
  intro x hx
  rcases closure_mem_cases self _ x hx with h | ⟨_, _, q, _, h, _⟩
  · rw [List.mem_singleton] at h
    rw [h]
  · rw [h]

/-- A non-empty result of `goTo` holds an item whose dot is not at position 0. -/
theorem goTo_has_kernel (self : SLRParser) (I : List Item) (X : String)
    (h : self.goTo I X ≠ []) : ∃ x ∈ self.goTo I X, 1 ≤ x.dotPos := by
  unfold SLRParser.goTo at h ⊢
  have hk : self.goToKernel X I ≠ [] := by
    intro hc
    rw [hc, closure_nil] at h
    exact h rfl
  obtain ⟨x, hx⟩ := List.exists_mem_of_ne_nil _ hk
  refine ⟨x, closure_subset self _ x hx, ?_⟩
  obtain ⟨it, _, _, heq⟩ := (goToKernel_mem self X x I).mp hx
  rw [heq]
  exact Nat.le_add_left 1 _

/-- C13: for every grammar (with dense production ids or not), `constructCanonicalCollection`
returns a collection, the same for every sufficient number of passes, that has
`closure([(0, 0)])` at index 0, and no state at another index is equal to it: such a state
holds an item that `closure([(0, 0)])` does not hold, so it differs from it as an item list
and as an item set.  When the ids are dense and the augmented start symbol, the left-hand
side of production 0, occurs on no right-hand side, no other state even holds the item
`(0, 0)`. -/
theorem initial_state_unique (self : SLRParser) :
    ∃ cc, self.constructCanonicalCollection ((stateUniverse self.productions).length + 1) =
        some cc ∧
      (∀ fuel cc1, self.constructCanonicalCollection fuel = some cc1 → cc1 = cc) ∧
      cc[0]? = some (self.closure [⟨0, 0⟩]) ∧
      (⟨0, 0⟩ : Item) ∈ self.closure [⟨0, 0⟩] ∧
      (∀ (i : Nat) (s : List Item), i ≠ 0 → cc[i]? = some s →
        s ≠ self.closure [⟨0, 0⟩] ∧ ∃ x ∈ s, x ∉ self.closure [⟨0, 0⟩]) ∧
      ((∀ i < self.productions.length, (prodAt self.productions i).id = i) →
        (prodAt self.productions 0).left = self.startSymbol →
        (∀ p ∈ self.productions, self.startSymbol ∉ p.right) →
        ∀ (i : Nat) (s : List Item), i ≠ 0 → cc[i]? = some s → (⟨0, 0⟩ : Item) ∉ s) := by
  obtain ⟨cc, hcc⟩ := canonical_terminates self
  obtain ⟨⟨tail, ht⟩, hn, hP⟩ := canonical_induction self
    (fun s => s = self.closure [⟨0, 0⟩] ∨ ∃ x ∈ s, 1 ≤ x.dotPos) (Or.inl rfl)
    (fun I X _ hne => Or.inr (goTo_has_kernel self I X hne)) _ cc hcc
  have htail : ∀ (i : Nat) (s : List Item), i ≠ 0 → cc[i]? = some s →
      s ∈ cc ∧ s ≠ self.closure [⟨0, 0⟩] := by
    intro i s hi hs
    rw [ht] at hs hn ⊢
    have hmem := getElem?_succ_mem _ _ i s hi hs
    exact ⟨List.mem_cons_of_mem _ hmem, fun hc => (List.nodup_cons.mp hn).1 (hc ▸ hmem)⟩
  refine ⟨cc, hcc, fun fuel cc1 h1 => canonical_unique self _ _ _ _ h1 hcc, ?_,
    closure_subset self _ _ (List.mem_singleton.mpr rfl), ?_, ?_⟩
  · rw [ht, List.getElem?_cons_zero]
  · intro i s hi hs
    obtain ⟨hmem, hne⟩ := htail i s hi hs
    refine ⟨hne, ?_⟩
    rcases hP s hmem with h1 | ⟨x, hx, hd⟩
    · exact absurd h1 hne
    · refine ⟨x, hx, fun hc => ?_⟩
      have := initial_dots self x hc
      omega
  · intro hdense haug hstart i s hi hs
    obtain ⟨hmem, hne⟩ := htail i s hi hs
    obtain ⟨_, _, hQ⟩ := canonical_induction self
      (fun s => s = self.closure [⟨0, 0⟩] ∨ (⟨0, 0⟩ : Item) ∉ s) (Or.inl rfl)
      (fun I X _ _ => Or.inr (goTo_no_initial self hdense haug hstart I X)) _ cc hcc
    rcases hQ s hmem with h1 | h1
    · exact absurd h1 hne
    · exact h1

/-- C14, as the code has it: for every grammar, `constructCanonicalCollection` returns a
collection in which no two states at different indices are equal as item lists (the same
items in the same order): an item list reached from different predecessors is stored only
once. -/
theorem states_pairwise_distinct (self : SLRParser) :
    ∃ cc, self.constructCanonicalCollection ((stateUniverse self.productions).length + 1) =
        some cc ∧
      (∀ fuel cc1, self.constructCanonicalCollection fuel = some cc1 → cc1 = cc) ∧
      ∀ (i j : Nat) (s t : List Item), i ≠ j → cc[i]? = some s → cc[j]? = some t → s ≠ t := by
  obtain ⟨cc, hcc⟩ := canonical_terminates self
  obtain ⟨_, hn, _⟩ := canonical_induction self (fun _ => True) trivial
    (fun _ _ _ _ => trivial) _ cc hcc
  refine ⟨cc, hcc, fun fuel cc1 h1 => canonical_unique self _ _ _ _ h1 hcc, ?_⟩
  intro i j s t hij hs ht hst
  subst hst
  obtain ⟨hi, hsi⟩ := List.getElem?_eq_some.mp hs
  obtain ⟨hj, hsj⟩ := List.getElem?_eq_some.mp ht
  exact hij ((List.Nodup.getElem_inj_iff hn).mp (hsi.trans hsj.symm))

/-! ## Scenario: a grammar with two states that hold the same items in different orders -/

theorem permutedGrammar_eval :
    (SLRParser.new [⟨"S'", ["S"], 0⟩, ⟨"S", ["A"], 1⟩, ⟨"S", ["B"], 2⟩, ⟨"S", ["y", "T"], 3⟩,
        ⟨"T", ["B"], 4⟩, ⟨"T", ["A"], 5⟩, ⟨"A", ["a", "b"], 6⟩, ⟨"B", ["a", "c"], 7⟩]
        ["S'", "S", "T", "A", "B"] ["a", "b", "c", "y", "$"] "S'").bind (fun parser =>
      parser.constructCanonicalCollection 20) =
    some [[⟨0, 0⟩, ⟨1, 0⟩, ⟨2, 0⟩, ⟨3, 0⟩, ⟨6, 0⟩, ⟨7, 0⟩], [⟨0, 1⟩], [⟨1, 1⟩], [⟨2, 1⟩],
      [⟨3, 1⟩, ⟨4, 0⟩, ⟨5, 0⟩, ⟨7, 0⟩, ⟨6, 0⟩], [⟨6, 1⟩, ⟨7, 1⟩], [⟨3, 2⟩], [⟨4, 1⟩], [⟨5, 1⟩],
      [⟨7, 1⟩, ⟨6, 1⟩], [⟨6, 2⟩], [⟨7, 2⟩]] := by
  decide!

/-- C14, as stated, fails: for the grammar `S' → S`, `S → A | B | y T`, `T → B | A`,
`A → a b`, `B → a c` (dense ids 0..7) the collection holds the state `[A → a . b, B → a . c]`
at index 5 and the state `[B → a . c, A → a . b]` at index 9: the same items, discovered in
different orders. -/
theorem permuted_states_both_stored :
    (∀ i < 8, (prodAt [⟨"S'", ["S"], 0⟩, ⟨"S", ["A"], 1⟩, ⟨"S", ["B"], 2⟩,
        ⟨"S", ["y", "T"], 3⟩, ⟨"T", ["B"], 4⟩, ⟨"T", ["A"], 5⟩, ⟨"A", ["a", "b"], 6⟩,
        ⟨"B", ["a", "c"], 7⟩] i).id = i) ∧
    ∃ parser cc,
      SLRParser.new [⟨"S'", ["S"], 0⟩, ⟨"S", ["A"], 1⟩, ⟨"S", ["B"], 2⟩, ⟨"S", ["y", "T"], 3⟩,
        ⟨"T", ["B"], 4⟩, ⟨"T", ["A"], 5⟩, ⟨"A", ["a", "b"], 6⟩, ⟨"B", ["a", "c"], 7⟩]
        ["S'", "S", "T", "A", "B"] ["a", "b", "c", "y", "$"] "S'" = some parser ∧
      parser.constructCanonicalCollection 20 = some cc ∧
      cc[5]? = some [⟨6, 1⟩, ⟨7, 1⟩] ∧ cc[9]? = some [⟨7, 1⟩, ⟨6, 1⟩] ∧
      ∀ x : Item, x ∈ [(⟨6, 1⟩ : Item), ⟨7, 1⟩] ↔ x ∈ [(⟨7, 1⟩ : Item), ⟨6, 1⟩] := by
  refine ⟨by decide, ?_⟩
  obtain ⟨parser, hp, hcc⟩ := Option.bind_eq_some.mp permutedGrammar_eval
  refine ⟨parser, _, hp, hcc, rfl, rfl, ?_⟩
  intro x
  simp only [List.mem_cons, List.mem_singleton, List.not_mem_nil, or_false]
  exact Or.comm

/-! ## The fixpoint of `initializeFirstSets` -/

/-- A step after which the map is back to what it was did nothing. -/
theorem Progress.fixed {A : String} {a b : SetMap × Bool} {m : SetMap} (h : Progress A a b)
    (hle : b.1.Le m) (hm : m = a.1) : b = a := by
  rcases h with h | ⟨_, y, hy1, hy2⟩
  · exact h
  · exact absurd (hm ▸ hle A y hy2) hy1

/-- When the loop over `prod.right` leaves the map as it was, the rule of `FIRST` holds
in that map at every position of the right-hand side. -/
theorem firstRight_fixed (A : String) (fs : SetMap) :
    ∀ (l : List String), (firstRight A l fs false).1 = fs →
      (∀ pre sym post, l = pre ++ sym :: post → (∀ s ∈ pre, epsilon ∈ fs.get s) →
        ∀ y ∈ fs.get sym, y ≠ epsilon → y ∈ fs.get A) ∧
      ((firstRight A l fs false).2.2 = true ↔ ∀ s ∈ l, epsilon ∈ fs.get s) ∧
      (firstRight A l fs false).2.1 = false := by
  intro l
  induction l with
  | nil =>
    intro _
    refine ⟨?_, ?_, rfl⟩
    · intro pre sym post h
      simp at h
    · simp [firstRight]
  | cons s rest ih =>
    intro hfix
    have hr : firstAddAll A (fs.get s) fs false = (fs, false) := by
      apply @Progress.fixed A _ _ (firstRight A (s :: rest) fs false).1
        (firstAddAll_progress A (fs.get s) fs false) _ hfix
      simp only [firstRight]
      split
      · exact SetMap.Le.le_refl _
      · exact firstRight_le _ _ _ _
    simp only [firstRight, hr] at hfix ⊢
    have hadd : ∀ y ∈ fs.get s, y ≠ epsilon → y ∈ fs.get A := by
      intro y hy hne
      have := (firstAddAll_mem A y (fs.get s) fs false).mpr (Or.inr ⟨hy, hne⟩)
      rw [hr] at this
      exact this
    by_cases he : epsilon ∈ fs.get s
    · simp only [he, not_true_eq_false, if_false] at hfix ⊢
      obtain ⟨h1, h2, h3⟩ := ih hfix
      refine ⟨?_, ?_, h3⟩
      · intro pre sym post hl hpre y hy hne
        cases pre with
        | nil =>
          simp only [List.nil_append, List.cons.injEq] at hl
          exact hadd y (hl.1 ▸ hy) hne
        | cons a pre1 =>
          simp only [List.cons_append, List.cons.injEq] at hl
          exact h1 pre1 sym post hl.2 (fun t ht => hpre t (List.mem_cons_of_mem _ ht)) y hy hne
      · rw [h2]
        constructor
        · intro h t ht
          rcases List.mem_cons.mp ht with rfl | ht
          · exact he
          · exact h t ht
        · intro h t ht
          exact h t (List.mem_cons_of_mem _ ht)
    · simp only [he, not_false_eq_true, if_true]
      refine ⟨?_, ?_, by first | rfl | trivial⟩
      · intro pre sym post hl hpre y hy hne
        cases pre with
        | nil =>
          simp only [List.nil_append, List.cons.injEq] at hl
          exact hadd y (hl.1 ▸ hy) hne
        | cons a pre1 =>
          simp only [List.cons_append, List.cons.injEq] at hl
          exact absurd (hpre a (List.mem_cons_self _ _)) (hl.1 ▸ he)
      · constructor
        · intro h
          simp at h
        · intro h
          exact absurd (h s (List.mem_cons_self _ _)) he

/-- When the body of the loop over the productions leaves the map as it was, the rule of
`FIRST` holds in that map for the production. -/
theorem firstProd_fixed (fs : SetMap) (prod : Production)
    (hfix : (firstProd (fs, false) prod).1 = fs) :
    (∀ pre sym post, prod.right = pre ++ sym :: post → (∀ s ∈ pre, epsilon ∈ fs.get s) →
      ∀ y ∈ fs.get sym, y ≠ epsilon → y ∈ fs.get prod.left) ∧
    ((∀ s ∈ prod.right, epsilon ∈ fs.get s) → epsilon ∈ fs.get prod.left) := by
  have hle : (firstRight prod.left prod.right fs false).1.Le (firstProd (fs, false) prod).1 := by
    have h1 := firstEpsilon_ok prod.left (firstRight prod.left prod.right fs false).2.2
      ((firstRight prod.left prod.right fs false).1, (firstRight prod.left prod.right fs false).2.1)
    have h2 := firstEpsilon_ok prod.left (firstRight prod.left prod.right fs false).2.2
      (firstEpsilon prod.left (firstRight prod.left prod.right fs false).2.2
        ((firstRight prod.left prod.right fs false).1,
          (firstRight prod.left prod.right fs false).2.1))
    have h3 : (firstProd (fs, false) prod).1 =
        (firstEpsilon prod.left (firstRight prod.left prod.right fs false).2.2
          (firstEpsilon prod.left (firstRight prod.left prod.right fs false).2.2
            ((firstRight prod.left prod.right fs false).1,
              (firstRight prod.left prod.right fs false).2.1))).1 := by
      unfold firstProd firstSizeCheck
      simp only []
      split <;> rfl
    rw [h3]
    exact SetMap.Le.le_trans h1.1 h2.1
  have hr : (firstRight prod.left prod.right fs false).1 = fs := by
    have := Progress.fixed (firstRight_progress prod.left prod.right fs false) hle hfix
    exact congrArg Prod.fst this
  obtain ⟨h1, h2, _⟩ := firstRight_fixed prod.left fs prod.right hr
  refine ⟨h1, ?_⟩
  intro hall
  have hc := h2.mpr hall
  by_contra hne
  have hmem : epsilon ∈ (firstProd (fs, false) prod).1.get prod.left := by
    have h3 : (firstProd (fs, false) prod).1 =
        (firstEpsilon prod.left true (firstEpsilon prod.left true (fs,
          (firstRight prod.left prod.right fs false).2.1))).1 := by
      unfold firstProd firstSizeCheck
      simp only [hc, hr]
      split <;> rfl
    rw [h3]
    have h4 : firstEpsilon prod.left true (fs, (firstRight prod.left prod.right fs false).2.1) =
        (fs.insert prod.left epsilon, true) := by
      unfold firstEpsilon
      simp [hne]
    rw [h4]
    apply (firstEpsilon_ok prod.left true _).1
    simp [SetMap.mem_get_insert]
  rw [hfix] at hmem
  exact hne hmem

/-- When a pass over the productions changes nothing, every production left the map as
it was. -/
theorem firstFold_fixed (fs : SetMap) :
    ∀ (prods : List Production), (prods.foldl firstProd (fs, false)).1 = fs →
      (prods.foldl firstProd (fs, false)).2 = false →
      ∀ p ∈ prods, (firstProd (fs, false) p).1 = fs := by
  intro prods
  induction prods with
  | nil => intro _ _ p hp; simp at hp
  | cons q rest ih =>
    intro hfix hflag p hp
    simp only [List.foldl_cons] at hfix hflag
    have p1 : PassOk (q.left :: rest.map Production.left) (fs, false) (firstProd (fs, false) q) :=
      StepOk.toPass (List.mem_cons_self _ _) (firstProd_ok (fs, false) q)
    have p2 : PassOk (q.left :: rest.map Production.left) (firstProd (fs, false) q)
        (rest.foldl firstProd (firstProd (fs, false) q)) :=
      (firstFold_ok _ rest _ (fun r hr =>
        List.mem_cons_of_mem _ (List.mem_map_of_mem _ hr))).1
    have e1 : firstProd (fs, false) q = (fs, false) :=
      PassOk.sandwich p1 p2 (Prod.ext hfix hflag) rfl
    rcases List.mem_cons.mp hp with rfl | hp
    · rw [e1]
    · rw [e1] at hfix hflag
      exact ih hfix hflag p hp

/-- The map that `initializeFirstSets` returns is left unchanged by one more pass. -/
theorem initializeFirstSets_fixed (prods : List Production) (nts terms : StrSet) (fuel : Nat)
    (fs : SetMap) (h : initializeFirstSets fuel prods nts terms = some fs) :
    firstPass prods fs = (fs, false) := by
  obtain ⟨s1, _, hb⟩ := doWhile_result (firstPass prods) (fun _ => True)
    (fun _ _ => trivial) _ _ fs trivial h
  have hp := (firstPass_ok prods s1).1.2.2
  rw [hb] at hp
  rcases hp with hp | ⟨hp, _⟩
  · have : fs = s1 := congrArg Prod.fst hp
    rw [this]
    rw [this] at hb
    exact hb
  · exact absurd hp (by simp)

/-- C21: for every grammar `initializeFirstSets` returns `FIRST` sets (the same for every
sufficient number of passes) that are a fixpoint of the `FIRST` rule: for every production
`X → Y1 … Yk` and every `i` such that `FIRST(Yj)` contains `ε` for all `j < i`, every
member of `FIRST(Yi)` other than `ε` is a member of `FIRST(X)`; and when every `FIRST(Yj)`
contains `ε`, so does `FIRST(X)`. -/
theorem first_fixpoint (prods : List Production) (nts terms : StrSet) :
    ∃ fs, initializeFirstSets (firstFuel prods terms) prods nts terms = some fs ∧
      (∀ fuel fs1, initializeFirstSets fuel prods nts terms = some fs1 → fs1 = fs) ∧
      ∀ p ∈ prods,
        (∀ pre Y post, p.right = pre ++ Y :: post → (∀ s ∈ pre, epsilon ∈ fs.get s) →
          ∀ y ∈ fs.get Y, y ≠ epsilon → y ∈ fs.get p.left) ∧
        ((∀ s ∈ p.right, epsilon ∈ fs.get s) → epsilon ∈ fs.get p.left) := by
  obtain ⟨fs, hfs, _⟩ := initializeFirstSets_terminates prods nts terms
  refine ⟨fs, hfs, fun fuel fs1 h1 => doWhile_unique _ _ _ _ _ _ h1 hfs, ?_⟩
  intro p hp
  have hfix := initializeFirstSets_fixed prods nts terms _ fs hfs
  unfold firstPass at hfix
  exact firstProd_fixed fs p
    (firstFold_fixed fs prods (congrArg Prod.fst hfix) (congrArg Prod.snd hfix) p hp)

/-! ## `closure` is closed -/

theorem afterDot_eq_some (prods : List Production) (item : Item) (B : String) :
    afterDot prods item = some B ↔
      item.dotPos < (prodAt prods item.prodId).right.length ∧
        (prodAt prods item.prodId).right.getD item.dotPos "" = B := by
  unfold afterDot
  split
  · rename_i h
    simp [h]
  · rename_i h
    simp [h]

theorem closureProds_mono (closureItems : List Item) (symbol : String) :
    ∀ (l : List Production) (newItems : List Item),
      ∀ x ∈ newItems, x ∈ closureProds closureItems symbol l newItems := by
  intro l
  induction l with
  | nil => intro newItems x hx; exact hx
  | cons q rest ih =>
    intro newItems x hx
    simp only [closureProds]
    split
    · exact ih _ x hx
    · split
      · exact ih _ x hx
      · exact ih _ x (List.mem_append_left _ hx)

/-- After the loop over the productions every production with the dotted non-terminal on
its left has its initial item in `closureItems` or in `newItems`. -/
theorem closureProds_complete (closureItems : List Item) (symbol : String) :
    ∀ (l : List Production) (newItems : List Item), ∀ q ∈ l, q.left = symbol →
      (⟨q.id, 0⟩ : Item) ∈ closureItems ∨
        (⟨q.id, 0⟩ : Item) ∈ closureProds closureItems symbol l newItems := by
  intro l
  induction l with
  | nil => intro _ q hq; simp at hq
  | cons p rest ih =>
    intro newItems q hq hleft
    simp only [closureProds]
    rcases List.mem_cons.mp hq with rfl | hq
    · rw [if_neg (by simpa using hleft)]
      split
      · rename_i hex
        rcases hex with hex | hex
        · exact Or.inl hex
        · exact Or.inr (closureProds_mono _ _ _ _ _ hex)
      · exact Or.inr (closureProds_mono _ _ _ _ _
          (List.mem_append_right _ (List.mem_singleton.mpr rfl)))
    · split
      · exact ih _ q hq hleft
      · split
        · exact ih _ q hq hleft
        · exact ih _ q hq hleft

theorem closureItemsPass_mono (prods : List Production) (nts : StrSet)
    (closureItems : List Item) :
    ∀ (l : List Item) (newItems : List Item),
      ∀ x ∈ newItems, x ∈ closureItemsPass prods nts closureItems l newItems := by
  intro l
  induction l with
  | nil => intro newItems x hx; exact hx
  | cons item rest ih =>
    intro newItems x hx
    simp only [closureItemsPass]
    split
    · exact ih _ x hx
    · split
      · exact ih _ x hx
      · exact ih _ x (closureProds_mono _ _ _ _ _ hx)

theorem closureItemsPass_complete (prods : List Production) (nts : StrSet)
    (closureItems : List Item) :
    ∀ (l : List Item) (newItems : List Item), ∀ item ∈ l, ∀ B,
      afterDot prods item = some B → B ∈ nts → ∀ q ∈ prods, q.left = B →
      (⟨q.id, 0⟩ : Item) ∈ closureItems ∨
        (⟨q.id, 0⟩ : Item) ∈ closureItemsPass prods nts closureItems l newItems := by
  intro l
  induction l with
  | nil => intro _ item hitem; simp at hitem
  | cons it rest ih =>
    intro newItems item hitem B hdot hB q hq hleft
    simp only [closureItemsPass]
    rcases List.mem_cons.mp hitem with rfl | hitem
    · obtain ⟨h1, h2⟩ := (afterDot_eq_some prods item B).mp hdot
      rw [if_neg (by omega), h2, if_neg (by simpa using hB)]
      rcases closureProds_complete closureItems B prods newItems q hq hleft with h | h
      · exact Or.inl h
      · exact Or.inr (closureItemsPass_mono _ _ _ _ _ _ h)
    · split
      · exact ih _ item hitem B hdot hB q hq hleft
      · split
        · exact ih _ item hitem B hdot hB q hq hleft
        · exact ih _ item hitem B hdot hB q hq hleft

/-- The list `closure(items)` is closed under the closure step. -/
theorem closure_closed (self : SLRParser) (items : List Item) :
    ∀ item ∈ self.closure items, ∀ B, afterDot self.productions item = some B →
      B ∈ self.nonTerminals → ∀ q ∈ self.productions, q.left = B →
      (⟨q.id, 0⟩ : Item) ∈ self.closure items := by
  intro item hitem B hdot hB q hq hleft
  have hfix := closure_fixed self items
  unfold closurePass at hfix
  simp only [Prod.mk.injEq, decide_eq_false_iff_not, not_not] at hfix
  rcases closureItemsPass_complete self.productions self.nonTerminals (self.closure items)
    (self.closure items) [] item hitem B hdot hB q hq hleft with h | h
  · exact h
  · rw [hfix.2] at h
    simp at h

/-- C22: for every grammar and every list `I` of items (in particular for dense production
ids, where `q.id` is the index of `q`, and valid items), `closure(I)` contains every item
of `I`; it is closed: for every item `(p, d)` of `closure(I)` with `d < |right(p)|` and
`right(p)[d]` a non-terminal `B`, the item `(q.id, 0)` is in `closure(I)` for every
production `q` with `left(q) = B`; and every item of `closure(I)` that is not in `I` has
dot position 0 and arises this way from an item of `closure(I)`. -/
theorem closure_is_closed (self : SLRParser) (I : List Item) :
    (∀ x ∈ I, x ∈ self.closure I) ∧
    (∀ item ∈ self.closure I,
      item.dotPos < (prodAt self.productions item.prodId).right.length →
      (prodAt self.productions item.prodId).right.getD item.dotPos "" ∈ self.nonTerminals →
      ∀ q ∈ self.productions,
        q.left = (prodAt self.productions item.prodId).right.getD item.dotPos "" →
        (⟨q.id, 0⟩ : Item) ∈ self.closure I) ∧
    (∀ x ∈ self.closure I, x ∉ I → x.dotPos = 0 ∧
      ∃ item ∈ self.closure I, ∃ q ∈ self.productions, x = ⟨q.id, 0⟩ ∧
        item.dotPos < (prodAt self.productions item.prodId).right.length ∧
        (prodAt self.productions item.prodId).right.getD item.dotPos "" = q.left ∧
        q.left ∈ self.nonTerminals) ∧
    ((∀ i < self.productions.length, (prodAt self.productions i).id = i) →
      ∀ q ∈ self.productions, prodAt self.productions q.id = q) := by
  refine ⟨closure_subset self I, ?_, ?_, ?_⟩
  · intro item hitem hlt hnt q hq hleft
    exact closure_closed self I item hitem _
      ((afterDot_eq_some _ _ _).mpr ⟨hlt, rfl⟩) hnt q hq hleft
  · intro x hx hnot
    rcases closure_mem_cases self I x hx with h | ⟨item, hitem, q, hq, hxq, hdot, hnt⟩
    · exact absurd h hnot
    · obtain ⟨h1, h2⟩ := (afterDot_eq_some _ _ _).mp hdot
      exact ⟨by rw [hxq], item, hitem, q, hq, hxq, h1, h2, hnt⟩
  · intro hdense q hq
    exact (prod_of_dense self.productions hdense q hq).symm

/-! ## `goTo` -/

theorem goToKernel_eq (self : SLRParser) (X : String) :
    ∀ I : List Item, self.goToKernel X I = advancedItems self.productions X I := by
  intro I
  induction I with
  | nil => rfl
  | cons item rest ih =>
    simp only [SLRParser.goToKernel]
    by_cases hc : item.dotPos < (prodAt self.productions item.prodId).right.length ∧
        (prodAt self.productions item.prodId).right.getD item.dotPos "" = X
    · rw [if_pos hc, ih]
      unfold advancedItems
      rw [@List.filter_cons_of_pos Item (fun it => decide
        (it.dotPos < (prodAt self.productions it.prodId).right.length ∧
          (prodAt self.productions it.prodId).right.getD it.dotPos "" = X)) item rest
        (decide_eq_true hc)]
      rfl
    · rw [if_neg hc, ih]
      unfold advancedItems
      rw [@List.filter_cons_of_neg Item (fun it => decide
        (it.dotPos < (prodAt self.productions it.prodId).right.length ∧
          (prodAt self.productions it.prodId).right.getD it.dotPos "" = X)) item rest
        (fun h => hc (of_decide_eq_true h))]

theorem closure_eq_nil (self : SLRParser) (items : List Item) :
    self.closure items = [] ↔ items = [] := by
  constructor
  · intro h
    by_contra hne
    obtain ⟨x, hx⟩ := List.exists_mem_of_ne_nil _ hne
    have := closure_subset self items x hx
    rw [h] at this
    simp at this
  · intro h
    rw [h]
    exact closure_nil self

/-- C23: for every grammar, every list `I` of items and every symbol `X` (in particular for
dense production ids and valid items), `goTo(I, X) = closure(J)` where `J` is the list of
the items `(p, d + 1)` for the items `(p, d)` of `I` with `d < |right(p)|` and
`right(p)[d] = X`; `goTo(I, X)` is empty exactly when `J` is empty; and
`closure(goTo(I, X)) = goTo(I, X)`. -/
theorem goTo_is_closure (self : SLRParser) (I : List Item) (X : String) :
    self.goTo I X = self.closure (advancedItems self.productions X I) ∧
    (self.goTo I X = [] ↔ advancedItems self.productions X I = []) ∧
    self.closure (self.goTo I X) = self.goTo I X := by
  have h : self.goTo I X = self.closure (advancedItems self.productions X I) := by
    unfold SLRParser.goTo
    rw [goToKernel_eq]
  refine ⟨h, ?_, ?_⟩
  · rw [h]
    exact closure_eq_nil self _
  · unfold SLRParser.goTo
    exact closure_of_fixed self _ (closure_fixed self _)

/-! ## The canonical collection is closed under transitions -/

theorem dotSymbols_mem (self : SLRParser) (X : String) :
    ∀ (I : List Item) (symbols : StrSet), X ∈ self.dotSymbols I symbols ↔
      X ∈ symbols ∨ ∃ item ∈ I, afterDot self.productions item = some X := by
  intro I
  induction I with
  | nil => intro symbols; simp [SLRParser.dotSymbols]
  | cons it rest ih =>
    intro symbols
    simp only [SLRParser.dotSymbols]
    by_cases hc : it.dotPos < (prodAt self.productions it.prodId).right.length
    · rw [if_pos hc, ih, StrSet.mem_insert]
      constructor
      · rintro ((h | h) | ⟨item, h1, h2⟩)
        · exact Or.inl h
        · exact Or.inr ⟨it, List.mem_cons_self _ _,
            (afterDot_eq_some _ _ _).mpr ⟨hc, h.symm⟩⟩
        · exact Or.inr ⟨item, List.mem_cons_of_mem _ h1, h2⟩
      · rintro (h | ⟨item, h1, h2⟩)
        · exact Or.inl (Or.inl h)
        · rcases List.mem_cons.mp h1 with rfl | h1
          · exact Or.inl (Or.inr ((afterDot_eq_some _ _ _).mp h2).2.symm)
          · exact Or.inr ⟨item, h1, h2⟩
    · rw [if_neg hc, ih]
      constructor
      · rintro (h | ⟨item, h1, h2⟩)
        · exact Or.inl h
        · exact Or.inr ⟨item, List.mem_cons_of_mem _ h1, h2⟩
      · rintro (h | ⟨item, h1, h2⟩)
        · exact Or.inl h
        · rcases List.mem_cons.mp h1 with rfl | h1
          · exact absurd ((afterDot_eq_some _ _ _).mp h2).1 hc
          · exact Or.inr ⟨item, h1, h2⟩

theorem mergeStates_mem (x : List Item) :
    ∀ (l merged : List (List Item)), x ∈ mergeStates l merged ↔ x ∈ merged ∨ x ∈ l := by
  intro l
  induction l with
  | nil => intro merged; simp [mergeStates]
  | cons s rest ih =>
    intro merged
    simp only [mergeStates]
    split
    · rename_i hin
      rw [ih]
      constructor
      · rintro (h | h)
        · exact Or.inl h
        · exact Or.inr (List.mem_cons_of_mem _ h)
      · rintro (h | h)
        · exact Or.inl h
        · rcases List.mem_cons.mp h with rfl | h
          · exact Or.inl hin
          · exact Or.inr h
    · rw [ih, List.mem_append, List.mem_singleton, List.mem_cons]
      tauto

theorem expandState_mono (self : SLRParser) (cc : List (List Item)) (items : List Item) :
    ∀ (symbols : List String) (temp : List (List Item)),
      ∀ x ∈ temp, x ∈ self.expandState cc items symbols temp := by
  intro symbols
  induction symbols with
  | nil => intro temp x hx; exact hx
  | cons X rest ih =>
    intro temp x hx
    simp only [SLRParser.expandState]
    split
    · split
      · exact ih _ x hx
      · exact ih _ x (List.mem_append_left _ hx)
    · exact ih _ x hx

/-- After `expandState` every non-empty `goTo` on one of the symbols is in the collection
or in `temp`. -/
theorem expandState_complete (self : SLRParser) (cc : List (List Item)) (items : List Item) :
    ∀ (symbols : List String) (temp : List (List Item)), ∀ X ∈ symbols,
      self.goTo items X ≠ [] →
      self.goTo items X ∈ cc ∨ self.goTo items X ∈ self.expandState cc items symbols temp := by
  intro symbols
  induction symbols with
  | nil => intro _ X hX; simp at hX
  | cons Y rest ih =>
    intro temp X hX hne
    simp only [SLRParser.expandState]
    rcases List.mem_cons.mp hX with rfl | hX
    · rw [if_pos hne]
      split
      · rename_i hex
        rcases hex with hex | hex
        · exact Or.inl hex
        · exact Or.inr (expandState_mono self cc items rest temp _ hex)
      · exact Or.inr (expandState_mono self cc items rest _ _
          (List.mem_append_right _ (List.mem_singleton.mpr rfl)))
    · split
      · split
        · exact ih _ X hX hne
        · exact ih _ X hX hne
      · exact ih _ X hX hne

theorem expandStates_mono (self : SLRParser) (cc : List (List Item)) :
    ∀ (l temp : List (List Item)), ∀ x ∈ temp, x ∈ self.expandStates cc l temp := by
  intro l
  induction l with
  | nil => intro temp x hx; exact hx
  | cons I rest ih =>
    intro temp x hx
    simp only [SLRParser.expandStates]
    exact ih _ x (expandState_mono self cc I _ temp x hx)

theorem expandStates_complete (self : SLRParser) (cc : List (List Item)) :
    ∀ (l temp : List (List Item)), ∀ I ∈ l, ∀ X ∈ self.dotSymbols I [],
      self.goTo I X ≠ [] →
      self.goTo I X ∈ cc ∨ self.goTo I X ∈ self.expandStates cc l temp := by
  intro l
  induction l with
  | nil => intro _ I hI; simp at hI
  | cons J rest ih =>
    intro temp I hI X hX hne
    simp only [SLRParser.expandStates]
    rcases List.mem_cons.mp hI with rfl | hI
    · rcases expandState_complete self cc I _ temp X hX hne with h | h
      · exact Or.inl h
      · exact Or.inr (expandStates_mono self cc rest _ _ h)
    · exact ih _ I hI X hX hne

/-- The result of `goTo` on a symbol that follows a dot is not empty. -/
theorem goTo_ne_nil (self : SLRParser) (I : List Item) (X : String) (item : Item)
    (hitem : item ∈ I) (hdot : afterDot self.productions item = some X) :
    self.goTo I X ≠ [] := by
  intro h
  unfold SLRParser.goTo at h
  have hk := (closure_eq_nil self _).mp h
  have hm : (⟨item.prodId, item.dotPos + 1⟩ : Item) ∈ self.goToKernel X I :=
    (goToKernel_mem self X _ I).mpr ⟨item, hitem, hdot, rfl⟩
  rw [hk] at hm
  simp at hm

/-- The index that `getStateIndex` returns for a state of the collection. -/
theorem getStateIndex_mem (x : List Item) :
    ∀ (l : List (List Item)) (i : Nat), x ∈ l →
      ∃ j, j < l.length ∧ getStateIndex x l i = ((i + j : Nat) : Int) ∧ l[j]? = some x := by
  intro l
  induction l with
  | nil => intro i h; simp at h
  | cons s rest ih =>
    intro i h
    simp only [getStateIndex]
    by_cases hs : s = x
    · rw [if_pos hs]
      exact ⟨0, by simp, by simp, by simp [hs]⟩
    · rw [if_neg hs]
      have hx : x ∈ rest := by
        rcases List.mem_cons.mp h with h | h
        · exact absurd h.symm hs
        · exact h
      obtain ⟨j, h1, h2, h3⟩ := ih (i + 1) hx
      refine ⟨j + 1, by simp; omega, ?_, by simpa using h3⟩
      rw [h2]
      congr 1
      omega

/-- One pass keeps the transitions of the states before `oldSize` inside the collection. -/
theorem canonicalPass_closed (self : SLRParser) (st : List (List Item) × Nat)
    (h : ∀ I ∈ st.1.take st.2, ∀ X, (∃ item ∈ I, afterDot self.productions item = some X) →
      self.goTo I X ∈ st.1) :
    ∀ I ∈ (self.canonicalPass st).1.1.take (self.canonicalPass st).1.2, ∀ X,
      (∃ item ∈ I, afterDot self.productions item = some X) →
      self.goTo I X ∈ (self.canonicalPass st).1.1 := by
  have hm : (self.canonicalPass st).1.1 =
      mergeStates (self.expandStates st.1 ((st.1.take st.1.length).drop st.2) []) st.1 := rfl
  have ho : (self.canonicalPass st).1.2 = st.1.length := rfl
  obtain ⟨ext, h1, _, _⟩ := mergeStates_append
    (self.expandStates st.1 ((st.1.take st.1.length).drop st.2) []) st.1
  intro I hI X hX
  rw [ho, hm, h1, List.take_left] at hI
  rw [hm, mergeStates_mem]
  have hsplit : I ∈ st.1.take st.2 ∨ I ∈ st.1.drop st.2 := by
    rw [← List.take_append_drop st.2 st.1] at hI
    exact List.mem_append.mp hI
  rcases hsplit with hI1 | hI1
  · exact Or.inl (h I hI1 X hX)
  · obtain ⟨item, hitem, hdot⟩ := hX
    have hsym : X ∈ self.dotSymbols I [] :=
      (dotSymbols_mem self X I []).mpr (Or.inr ⟨item, hitem, hdot⟩)
    rw [List.take_length]
    exact expandStates_complete self st.1 _ [] I hI1 X hsym
      (goTo_ne_nil self I X item hitem hdot)

/-- The collection that `constructCanonicalCollection` returns is closed under `goTo` on
the symbols that follow a dot. -/
theorem canonical_closed (self : SLRParser) (fuel : Nat) (cc : List (List Item))
    (hcc : self.constructCanonicalCollection fuel = some cc) :
    ∀ I ∈ cc, ∀ X, (∃ item ∈ I, afterDot self.productions item = some X) →
      self.goTo I X ∈ cc := by
  unfold SLRParser.constructCanonicalCollection at hcc
  obtain ⟨r, hr, rfl⟩ := Option.map_eq_some'.mp hcc
  obtain ⟨s1, hs1, hb⟩ := doWhile_result self.canonicalPass
    (fun st => ∀ I ∈ st.1.take st.2, ∀ X,
      (∃ item ∈ I, afterDot self.productions item = some X) → self.goTo I X ∈ st.1)
    (fun st h => canonicalPass_closed self st h) fuel _ r
    (fun I hI => by simp at hI) hr
  have h2 := canonicalPass_closed self s1 hs1
  have hlen : r.2 = r.1.length := by
    have e1 : (self.canonicalPass s1).1.2 = s1.1.length := rfl
    have e2 : (self.canonicalPass s1).1.1 =
        mergeStates (self.expandStates s1.1 ((s1.1.take s1.1.length).drop s1.2) []) s1.1 := rfl
    have e3 : decide (self.expandStates s1.1 ((s1.1.take s1.1.length).drop s1.2) [] ≠ []) =
        false := congrArg Prod.snd hb
    have e4 : self.expandStates s1.1 ((s1.1.take s1.1.length).drop s1.2) [] = [] := by
      simpa using e3
    rw [e4] at e2
    rw [hb] at e1 e2
    simp only [mergeStates] at e2
    rw [e1, e2]
  rw [hb] at h2
  intro I hI X hX
  apply h2 I _ X hX
  show I ∈ r.1.take r.2
  rw [hlen, List.take_length]
  exact hI

/-- C24: for every grammar (with dense production ids or not) the canonical collection
that `constructCanonicalCollection` returns is closed under transitions: for every state
`I` in it and every symbol `X` that follows a dot in an item of `I`, `goTo(I, X)` is a state
of the collection, and `getStateIndex` returns its index `j`, never `-1`. -/
theorem collection_closed_under_goTo (self : SLRParser) :
    ∃ cc, self.constructCanonicalCollection ((stateUniverse self.productions).length + 1) =
        some cc ∧
      (∀ fuel cc1, self.constructCanonicalCollection fuel = some cc1 → cc1 = cc) ∧
      ∀ I ∈ cc, ∀ item ∈ I,
        item.dotPos < (prodAt self.productions item.prodId).right.length →
        self.goTo I ((prodAt self.productions item.prodId).right.getD item.dotPos "") ∈ cc ∧
        getStateIndex
          (self.goTo I ((prodAt self.productions item.prodId).right.getD item.dotPos ""))
          cc 0 ≠ -1 ∧
        ∃ j : Nat, j < cc.length ∧
          getStateIndex
            (self.goTo I ((prodAt self.productions item.prodId).right.getD item.dotPos ""))
            cc 0 = (j : Int) ∧
          cc[j]? = some
            (self.goTo I ((prodAt self.productions item.prodId).right.getD item.dotPos "")) := by
  obtain ⟨cc, hcc⟩ := canonical_terminates self
  refine ⟨cc, hcc, fun fuel cc1 h1 => canonical_unique self _ _ _ _ h1 hcc, ?_⟩
  intro I hI item hitem hlt
  have hmem := canonical_closed self _ cc hcc I hI _
    ⟨item, hitem, (afterDot_eq_some _ _ _).mpr ⟨hlt, rfl⟩⟩
  obtain ⟨j, h1, h2, h3⟩ := getStateIndex_mem _ cc 0 hmem
  rw [Nat.zero_add] at h2
  refine ⟨hmem, ?_, j, h1, h2, h3⟩
  rw [h2]
  omega

/-! ## `buildSLRTable`: the shift and goto entries -/

/-- The shift loop leaves the entries of a symbol that was processed already as they
are. -/
theorem shiftEntries_processed (self : SLRParser) (cc : List (List Item)) (items : List Item)
    (X : String) :
    ∀ (l : List Item) (st : StrMap TableAction × StrMap Int × StrSet), X ∈ st.2.2 →
      (self.shiftEntries cc items l st).1.find? X = st.1.find? X ∧
      (self.shiftEntries cc items l st).2.1.find? X = st.2.1.find? X := by
  intro l
  induction l with
  | nil => intro st _; exact ⟨rfl, rfl⟩
  | cons item rest ih =>
    intro st hX
    simp only [SLRParser.shiftEntries]
    split
    · split
      · exact ih st hX
      · rename_i hnew
        have hne : (prodAt self.productions item.prodId).right.getD item.dotPos "" ≠ X :=
          fun h => hnew (h ▸ hX)
        have hX1 : X ∈ st.2.2.insert
            ((prodAt self.productions item.prodId).right.getD item.dotPos "") :=
          (StrSet.mem_insert _ _ _).mpr (Or.inl hX)
        split
        · exact ih _ hX1
        · split
          · obtain ⟨a, b⟩ := ih (st.1.assign
              ((prodAt self.productions item.prodId).right.getD item.dotPos "")
              ⟨ActionType.SHIFT, getStateIndex (self.goTo items
                ((prodAt self.productions item.prodId).right.getD item.dotPos "")) cc 0⟩,
              st.2.1, st.2.2.insert
                ((prodAt self.productions item.prodId).right.getD item.dotPos "")) hX1
            refine ⟨?_, b⟩
            rw [a]
            show (st.1.assign _ _).find? X = _
            rw [StrMap.find?_assign, if_neg hne]
          · split
            · obtain ⟨a, b⟩ := ih (st.1, st.2.1.assign
                ((prodAt self.productions item.prodId).right.getD item.dotPos "")
                (getStateIndex (self.goTo items
                  ((prodAt self.productions item.prodId).right.getD item.dotPos "")) cc 0),
                st.2.2.insert
                  ((prodAt self.productions item.prodId).right.getD item.dotPos "")) hX1
              refine ⟨a, ?_⟩
              rw [b]
              show (st.2.1.assign _ _).find? X = _
              rw [StrMap.find?_assign, if_neg hne]
            · exact ih _ hX1
    · exact ih st hX

/-- The shift loop stores the index of `goTo(items, X)` for a symbol `X` that follows a
dot and was not processed before: in `actionRow` when `X` is a terminal, in `gotoRow` when
it is a non-terminal and no terminal. -/
theorem shiftEntries_stores (self : SLRParser) (cc : List (List Item)) (items : List Item)
    (X : String) (hidx : getStateIndex (self.goTo items X) cc 0 ≠ -1) :
    ∀ (l : List Item) (st : StrMap TableAction × StrMap Int × StrSet), X ∉ st.2.2 →
      (∃ item ∈ l, afterDot self.productions item = some X) →
      (X ∈ self.terminals → (self.shiftEntries cc items l st).1.find? X =
        some ⟨ActionType.SHIFT, getStateIndex (self.goTo items X) cc 0⟩) ∧
      (X ∉ self.terminals → X ∈ self.nonTerminals →
        (self.shiftEntries cc items l st).2.1.find? X =
          some (getStateIndex (self.goTo items X) cc 0)) := by
  intro l
  induction l with
  | nil => intro st _ h; simp at h
  | cons item rest ih =>
    intro st hX hex
    obtain ⟨it, hit, hdot⟩ := hex
    simp only [SLRParser.shiftEntries]
    by_cases hlt : item.dotPos < (prodAt self.productions item.prodId).right.length
    · rw [if_pos hlt]
      by_cases hs : (prodAt self.productions item.prodId).right.getD item.dotPos "" = X
      · rw [hs, if_neg hX, if_neg hidx]
        have hX1 : X ∈ st.2.2.insert X := (StrSet.mem_insert _ _ _).mpr (Or.inr rfl)
        constructor
        · intro hterm
          rw [if_pos hterm]
          rw [(shiftEntries_processed self cc items X rest _ hX1).1]
          show (st.1.assign _ _).find? X = _
          rw [StrMap.find?_assign, if_pos rfl]
        · intro hterm hnt
          rw [if_neg hterm, if_pos hnt]
          rw [(shiftEntries_processed self cc items X rest _ hX1).2]
          show (st.2.1.assign _ _).find? X = _
          rw [StrMap.find?_assign, if_pos rfl]
      · have hrest : ∃ item ∈ rest, afterDot self.productions item = some X := by
          rcases List.mem_cons.mp hit with rfl | hit
          · exact absurd ((afterDot_eq_some _ _ _).mp hdot).2 hs
          · exact ⟨it, hit, hdot⟩
        split
        · exact ih st hX hrest
        · have hX1 : X ∉ st.2.2.insert
              ((prodAt self.productions item.prodId).right.getD item.dotPos "") := by
            intro h
            rcases (StrSet.mem_insert _ _ _).mp h with h | h
            · exact hX h
            · exact hs h.symm
          split
          · exact ih _ hX1 hrest
          · split
            · exact ih _ hX1 hrest
            · split
              · exact ih _ hX1 hrest
              · exact ih _ hX1 hrest
    · rw [if_neg hlt]
      have hrest : ∃ item ∈ rest, afterDot self.productions item = some X := by
        rcases List.mem_cons.mp hit with rfl | hit
        · exact absurd ((afterDot_eq_some _ _ _).mp hdot).1 hlt
        · exact ⟨it, hit, hdot⟩
      exact ih st hX hrest

theorem tablesOf_rows (self : SLRParser) (cc : List (List Item)) (i : Nat) (I : List Item)
    (hi : cc[i]? = some I) :
    (self.tablesOf cc).action.getD i [] = (self.buildRow cc I).1 ∧
    (self.tablesOf cc).goto_.getD i [] = (self.buildRow cc I).2 := by
  constructor
  · simp [SLRParser.tablesOf, List.getD_eq_getElem?_getD, hi]
  · simp [SLRParser.tablesOf, List.getD_eq_getElem?_getD, hi]

/-- C25: for every grammar with disjoint terminals and non-terminals (with dense production
ids or not), `buildSLRTable` returns tables (the same for every sufficient number of
passes) in which, for every state `i` with item list `I` and every symbol `X` that follows
a dot in `I`: `ACTION[i, X] = shift(j)` if `X` is a terminal and `GOTO[i, X] = j` if `X` is
a non-terminal, where `j` is the index of `goTo(I, X)` in the canonical collection, as
`getStateIndex` returns it. -/
theorem table_transitions (self : SLRParser)
    (hdisj : ∀ a ∈ self.terminals, a ∉ self.nonTerminals) :
    ∃ fuel cc tables, self.constructCanonicalCollection fuel = some cc ∧
      self.buildSLRTable fuel = some tables ∧
      (∀ fuel1 tables1, self.buildSLRTable fuel1 = some tables1 → tables1 = tables) ∧
      ∀ (i : Nat) (I : List Item), cc[i]? = some I → ∀ item ∈ I,
        item.dotPos < (prodAt self.productions item.prodId).right.length →
        ∃ j : Nat,
          cc[j]? = some
            (self.goTo I ((prodAt self.productions item.prodId).right.getD item.dotPos "")) ∧
          getStateIndex
            (self.goTo I ((prodAt self.productions item.prodId).right.getD item.dotPos ""))
            cc 0 = (j : Int) ∧
          ((prodAt self.productions item.prodId).right.getD item.dotPos "" ∈ self.terminals →
            (tables.action.getD i []).find?
                ((prodAt self.productions item.prodId).right.getD item.dotPos "") =
              some ⟨ActionType.SHIFT, (j : Int)⟩) ∧
          ((prodAt self.productions item.prodId).right.getD item.dotPos "" ∈
              self.nonTerminals →
            (tables.goto_.getD i []).find?
                ((prodAt self.productions item.prodId).right.getD item.dotPos "") =
              some (j : Int)) := by
  obtain ⟨cc, hcc⟩ := canonical_terminates self
  have htab : self.buildSLRTable ((stateUniverse self.productions).length + 1) =
      some (self.tablesOf cc) := by
    simp only [SLRParser.buildSLRTable, hcc]
  refine ⟨_, cc, self.tablesOf cc, hcc, htab,
    fun fuel1 tables1 h1 => buildSLRTable_unique self _ _ _ _ h1 htab, ?_⟩
  intro i I hi item hitem hlt
  have hI : I ∈ cc := by
    obtain ⟨h1, h2⟩ := List.getElem?_eq_some.mp hi
    exact h2 ▸ List.getElem_mem h1
  have hdot := (afterDot_eq_some self.productions item _).mpr ⟨hlt, rfl⟩
  have hmem := canonical_closed self _ cc hcc I hI _ ⟨item, hitem, hdot⟩
  obtain ⟨j, _, h2, h3⟩ := getStateIndex_mem _ cc 0 hmem
  rw [Nat.zero_add] at h2
  have hidx : getStateIndex
      (self.goTo I ((prodAt self.productions item.prodId).right.getD item.dotPos "")) cc 0 ≠
      -1 := by
    rw [h2]
    omega
  obtain ⟨a, b⟩ := shiftEntries_stores self cc I _ hidx I (self.reduceEntries I [], [], [])
    (List.not_mem_nil _) ⟨item, hitem, hdot⟩
  obtain ⟨r1, r2⟩ := tablesOf_rows self cc i I hi
  refine ⟨j, h3, h2, ?_, ?_⟩
  · intro hterm
    rw [r1, ← h2]
    exact a hterm
  · intro hnt
    rw [r2, ← h2]
    exact b (fun hterm => hdisj _ hterm hnt) hnt

/-- Witness of `table_transitions` (C25): the grammar `S' → S`, `S → a S | b`. -/
theorem table_transitions_witness :
    ∃ fuel cc tables, sampleParser.constructCanonicalCollection fuel = some cc ∧
      sampleParser.buildSLRTable fuel = some tables ∧
      (∀ fuel1 tables1, sampleParser.buildSLRTable fuel1 = some tables1 → tables1 = tables) ∧
      ∀ (i : Nat) (I : List Item), cc[i]? = some I → ∀ item ∈ I,
        item.dotPos < (prodAt sampleParser.productions item.prodId).right.length →
        ∃ j : Nat,
          cc[j]? = some (sampleParser.goTo I
            ((prodAt sampleParser.productions item.prodId).right.getD item.dotPos "")) ∧
          getStateIndex (sampleParser.goTo I
            ((prodAt sampleParser.productions item.prodId).right.getD item.dotPos ""))
            cc 0 = (j : Int) ∧
          ((prodAt sampleParser.productions item.prodId).right.getD item.dotPos "" ∈
              sampleParser.terminals →
            (tables.action.getD i []).find?
                ((prodAt sampleParser.productions item.prodId).right.getD item.dotPos "") =
              some ⟨ActionType.SHIFT, (j : Int)⟩) ∧
          ((prodAt sampleParser.productions item.prodId).right.getD item.dotPos "" ∈
              sampleParser.nonTerminals →
            (tables.goto_.getD i []).find?
                ((prodAt sampleParser.productions item.prodId).right.getD item.dotPos "") =
              some (j : Int)) :=
  table_transitions sampleParser (by decide)

/-! ## `ε`-productions in the table builder -/

/-- The reduce loop of `buildSLRTable` passes over the item `(p, 0)` of a production with
the right-hand side `[ε]`: its dot is not at `prod.right.size()`, which is 1. -/
theorem reduceEntries_epsilon (self : SLRParser) (item : Item) (rest : List Item)
    (row : StrMap TableAction) (hdot : item.dotPos = 0)
    (hright : (prodAt self.productions item.prodId).right = [epsilon]) :
    self.reduceEntries (item :: rest) row = self.reduceEntries rest row := by
  simp only [SLRParser.reduceEntries]
  rw [if_neg]
  rw [hdot, hright]
  decide

theorem builtin_state0_eval :
    (SLRParser.new initializeProductions (getNonTerminals initializeProductions [])
        getTerminals "S'").bind (fun parser =>
      (parser.constructCanonicalCollection 100).map (fun cc =>
        (decide (parser.productions = initializeProductions), cc.getD 0 [],
          parser.followSets.get "Statements", (parser.tablesOf cc).action.getD 0 []))) =
    some (true,
      [⟨0, 0⟩, ⟨1, 0⟩, ⟨2, 0⟩, ⟨3, 0⟩, ⟨24, 0⟩, ⟨25, 0⟩, ⟨4, 0⟩, ⟨5, 0⟩, ⟨6, 0⟩, ⟨7, 0⟩, ⟨8, 0⟩,
        ⟨26, 0⟩, ⟨27, 0⟩, ⟨9, 0⟩, ⟨10, 0⟩, ⟨12, 0⟩, ⟨15, 0⟩, ⟨11, 0⟩, ⟨21, 0⟩, ⟨22, 0⟩, ⟨23, 0⟩],
      ["$", "RIGHT_BRACE"],
      [("IDENTIFIER", ⟨.SHIFT, 12⟩), ("IF", ⟨.SHIFT, 13⟩), ("WHILE", ⟨.SHIFT, 14⟩),
        ("int", ⟨.SHIFT, 15⟩), ("float", ⟨.SHIFT, 16⟩), ("bool", ⟨.SHIFT, 17⟩)]) := by
  decide!

/-- C26 fails on the code: the table builder takes an item for complete only when its dot
is at `prod.right.size()`, which is 1 for the right-hand side `[ε]`, so it never writes a
reduce for the item `(p, 0)` of an `ε`-production.  In the built-in grammar state 0 holds
the item `Statements → . ε` (production 3) and `$` is in `FOLLOW(Statements)`, but row 0 of
`ACTION` has no entry under `$`. -/
theorem epsilon_item_not_reduced :
    (∀ (self : SLRParser) (item : Item) (rest : List Item) (row : StrMap TableAction),
      item.dotPos = 0 → (prodAt self.productions item.prodId).right = [epsilon] →
      self.reduceEntries (item :: rest) row = self.reduceEntries rest row) ∧
    ∃ parser cc tables,
      SLRParser.new initializeProductions (getNonTerminals initializeProductions [])
        getTerminals "S'" = some parser ∧
      parser.constructCanonicalCollection 100 = some cc ∧
      parser.buildSLRTable 100 = some tables ∧
      prodAt parser.productions 3 = ⟨"Statements", [epsilon], 3⟩ ∧
      (⟨3, 0⟩ : Item) ∈ cc.getD 0 [] ∧
      "$" ∈ parser.followSets.get "Statements" ∧
      (tables.action.getD 0 []).find? "$" = none := by
  refine ⟨reduceEntries_epsilon, ?_⟩
  obtain ⟨parser, hp, h1⟩ := Option.bind_eq_some.mp builtin_state0_eval
  obtain ⟨cc, hcc, h2⟩ := Option.map_eq_some'.mp h1
  simp only [Prod.mk.injEq, decide_eq_true_eq] at h2
  obtain ⟨e1, e2, e3, e4⟩ := h2
  refine ⟨parser, cc, parser.tablesOf cc, hp, hcc, ?_, ?_, ?_, ?_, ?_⟩
  · simp only [SLRParser.buildSLRTable, hcc]
  · rw [e1]
    decide
  · rw [e2]
    decide
  · rw [e3]
    decide
  · rw [e4]
    decide

/-! ## The node that a reduction builds -/

/-- C27: for every production `p` with `k = |right(p)|` and every parse context whose
symbol stack ends with the nodes `n1, …, nk` (bottom to top), a `performReduction` that
returns has pushed, in place of `n1, …, nk`, one node whose symbol is `left(p)`, whose value
is empty and whose children are exactly `[n1, …, nk]` in that order, and has left the
symbol-stack entries below `n1` unchanged; it returns whenever the state stack holds more
than `k` states and `GOTO[previousTop, left(p)]` is defined. -/
theorem reduction_builds_node (self : SyntaxParser) (prodId : Int) (c : ParseContext)
    (below ns : List SyntaxTreeNode) (hsy : c.symbolStack = below ++ ns)
    (hk : ns.length = (prodAt self.productions_ prodId.toNat).right.length) :
    (∀ c1, self.performReduction prodId c = .ok c1 →
      c1.symbolStack =
        below ++ [SyntaxTreeNode.mk (prodAt self.productions_ prodId.toNat).left "" ns]) ∧
    ((prodAt self.productions_ prodId.toNat).right.length < c.stateStack.length →
      ∀ j, (self.gotoRow (c.stateStack.getD
          (c.stateStack.length - (prodAt self.productions_ prodId.toNat).right.length - 1)
          0)).find? (prodAt self.productions_ prodId.toNat).left = some j →
      ∃ c1, self.performReduction prodId c = .ok c1 ∧
        c1.symbolStack =
          below ++ [SyntaxTreeNode.mk (prodAt self.productions_ prodId.toNat).left "" ns]) := by
  have hlen : c.symbolStack.length - (prodAt self.productions_ prodId.toNat).right.length =
      below.length := by
    rw [hsy, List.length_append, hk]
    omega
  have hy : (prodAt self.productions_ prodId.toNat).right.length ≤ c.symbolStack.length := by
    rw [hsy, List.length_append, hk]
    omega
  have htake : c.symbolStack.take
      (c.symbolStack.length - (prodAt self.productions_ prodId.toNat).right.length) = below := by
    rw [hlen, hsy, List.take_left]
  have hdrop : c.symbolStack.drop
      (c.symbolStack.length - (prodAt self.productions_ prodId.toNat).right.length) = ns := by
    rw [hlen, hsy, List.drop_left]
  constructor
  · intro c1 hred
    by_cases hs : (prodAt self.productions_ prodId.toNat).right.length < c.stateStack.length
    · rw [performReduction_eq self prodId c hs hy] at hred
      split at hred
      · simp at hred
      · simp only [Except.ok.injEq] at hred
        rw [← hred, htake, hdrop]
    · rw [reduction_underflow self prodId c (fun h => hs h.1)] at hred
      simp at hred
  · intro hs j hj
    rw [performReduction_eq self prodId c hs hy, hj]
    exact ⟨_, rfl, by rw [htake, hdrop]⟩

/-- Witness of `reduction_builds_node` (C27): the reduction by `Type → int` after `int`
was shifted replaces the leaf `int` by the node `Type` with that leaf as its only child. -/
theorem reduction_builds_node_witness :
    ∃ c1, builtinParser.performReduction 21
        ⟨[⟨TokenType.TYPE, "int", 1⟩, ⟨TokenType.IDENTIFIER, "x", 1⟩, ⟨TokenType.DOLLAR, "$", 0⟩],
          1, [0, 15], [.mk "int" "int" []]⟩ = .ok c1 ∧
      c1.symbolStack = [SyntaxTreeNode.mk "Type" "" [.mk "int" "int" []]] :=
  (reduction_builds_node builtinParser 21
    ⟨[⟨TokenType.TYPE, "int", 1⟩, ⟨TokenType.IDENTIFIER, "x", 1⟩, ⟨TokenType.DOLLAR, "$", 0⟩],
      1, [0, 15], [.mk "int" "int" []]⟩ [] [.mk "int" "int" []] rfl (by decide)).2
    (by decide) 11 (by decide!)

/-! ## What `recoverFromError` guarantees -/

/-- The popping loop of `recoverFromError` stops with an empty state stack or with a state
on top for which the lookup under the lexeme of the current token succeeds. -/
theorem popLoop_top (self : SyntaxParser) (tokens : List Token) (pos : Nat) :
    ∀ (fuel : Nat) (ss : List Int) (sy : List SyntaxTreeNode), ss.length ≤ fuel →
      (self.popLoop tokens pos fuel ss sy).1 = [] ∨
      ∃ top, (self.popLoop tokens pos fuel ss sy).1.getLast? = some top ∧
        self.recoveryAction tokens pos top = true := by
  intro fuel
  induction fuel with
  | zero =>
    intro ss sy h
    left
    have : ss = [] := List.eq_nil_of_length_eq_zero (by omega)
    simp [SyntaxParser.popLoop, this]
  | succ n ih =>
    intro ss sy h
    simp only [SyntaxParser.popLoop]
    cases hl : ss.getLast? with
    | none =>
      left
      simpa using hl
    | some cur =>
      simp only []
      split
      · rename_i hact
        exact Or.inr ⟨cur, hl, hact⟩
      · apply ih
        rw [List.length_dropLast]
        omega

/-- C28 fails on the code.  `recoverFromError` fails, with the fatal error, exactly when
its popping loop emptied the state stack, and otherwise returns with a state `s` on top
for which `tables_.action[s]` has a non-`ERROR` entry under the lexeme of the current
token; `getAction` looks the token up under its terminal name.  In the context that
`parse()` reaches on `int x SEMICOLON` (states `[0, 11, 20]`, the third token the identifier
with the lexeme `SEMICOLON`) recovery returns the context unchanged, and
`getAction(20, tokens[2])` is `ERROR`: the main loop enters recovery again in the same
configuration. -/
theorem recovery_returns_to_error :
    (∀ (self : SyntaxParser) (c : ParseContext) (e : ParseError),
      self.recoverFromError c = .error e →
        e = ParseError.runtimeError "Fatal parsing error: recovery failed" ∧
        (self.popLoop c.tokens (skipLoop c.tokens (c.tokens.length - c.pos) c.pos)
          c.stateStack.length c.stateStack c.symbolStack).1 = []) ∧
    (∀ (self : SyntaxParser) (c c1 : ParseContext), self.recoverFromError c = .ok c1 →
      ∃ top, c1.stateStack.getLast? = some top ∧
        self.recoveryAction c1.tokens c1.pos top = true) ∧
    builtinParser.recoverFromError
        ⟨[⟨TokenType.TYPE, "int", 1⟩, ⟨TokenType.IDENTIFIER, "x", 1⟩,
            ⟨TokenType.IDENTIFIER, "SEMICOLON", 1⟩, ⟨TokenType.DOLLAR, "$", 0⟩], 2, [0, 11, 20],
          [.mk "Type" "" [.mk "int" "int" []], .mk "x" "x" []]⟩ =
      .ok ⟨[⟨TokenType.TYPE, "int", 1⟩, ⟨TokenType.IDENTIFIER, "x", 1⟩,
            ⟨TokenType.IDENTIFIER, "SEMICOLON", 1⟩, ⟨TokenType.DOLLAR, "$", 0⟩], 2, [0, 11, 20],
          [.mk "Type" "" [.mk "int" "int" []], .mk "x" "x" []]⟩ ∧
    builtinParser.getAction 20 ⟨TokenType.IDENTIFIER, "SEMICOLON", 1⟩ =
      ⟨ActionType.ERROR, -1⟩ ∧
    builtinParser.recoveryAction
        [⟨TokenType.TYPE, "int", 1⟩, ⟨TokenType.IDENTIFIER, "x", 1⟩,
          ⟨TokenType.IDENTIFIER, "SEMICOLON", 1⟩, ⟨TokenType.DOLLAR, "$", 0⟩] 2 20 = true := by
  refine ⟨?_, ?_, by decide!, by decide!, by decide!⟩
  · intro self c e h
    unfold SyntaxParser.recoverFromError at h
    simp only [] at h
    split at h
    · rename_i hnil
      simp only [Except.error.injEq] at h
      exact ⟨h.symm, hnil⟩
    · simp at h
  · intro self c c1 h
    unfold SyntaxParser.recoverFromError at h
    simp only [] at h
    split at h
    · simp at h
    · rename_i hne
      simp only [Except.ok.injEq] at h
      subst h
      rcases popLoop_top self c.tokens (skipLoop c.tokens (c.tokens.length - c.pos) c.pos)
        c.stateStack.length c.stateStack c.symbolStack (Nat.le_refl _) with h1 | h1
      · exact absurd h1 hne
      · exact h1

/-! ## The states of the canonical collection -/

/-- With dense ids and at least one production, an item the engine can build names a
production of the grammar. -/
theorem knownItem_lt (prods : List Production)
    (hdense : ∀ i < prods.length, (prodAt prods i).id = i) (hne : prods ≠ []) (x : Item)
    (h : KnownItem prods x) : x.prodId < prods.length := by
  rcases h.1 with h0 | hmem
  · rw [h0]
    exact List.length_pos.mpr hne
  · obtain ⟨q, hq, hid⟩ := List.mem_map.mp hmem
    obtain ⟨i, hi, rfl⟩ := List.getElem_of_mem hq
    have hd := hdense i hi
    unfold prodAt at hd
    rw [List.getD_eq_getElem _ _ hi] at hd
    rw [← hid, hd]
    exact hi

/-- Every state of the canonical collection is non-empty, duplicate-free and made of
items the engine can build. -/
theorem canonical_known (self : SLRParser) (fuel : Nat) (cc : List (List Item))
    (hcc : self.constructCanonicalCollection fuel = some cc) :
    ∀ s ∈ cc, s ≠ [] ∧ KnownState self.productions s :=
  (canonical_induction self (fun s => s ≠ [] ∧ KnownState self.productions s)
    ⟨fun h => absurd ((closure_eq_nil self _).mp h) (by simp), initial_known self⟩
    (fun I X hI hne => ⟨hne, goTo_known self I X hI.2⟩) fuel cc hcc).2.2

theorem canonical_mono (self : SLRParser) (n m : Nat) (cc : List (List Item)) (h : n ≤ m)
    (hcc : self.constructCanonicalCollection n = some cc) :
    self.constructCanonicalCollection m = some cc := by
  unfold SLRParser.constructCanonicalCollection at hcc ⊢
  obtain ⟨r, hr, rfl⟩ := Option.map_eq_some'.mp hcc
  rw [doWhile_mono _ n m _ r h hr]
  rfl

/-- C29: for every grammar with dense production ids that has production 0, the
production of the initial item, every state of the canonical collection is a well-formed
item set: it is non-empty, contains no duplicate item, and every item `(p, d)` in it
satisfies `p < productions.size()` and `d ≤ |right(p)|`. -/
theorem states_well_formed (self : SLRParser)
    (hdense : ∀ i < self.productions.length, (prodAt self.productions i).id = i)
    (hne : self.productions ≠ []) :
    ∃ fuel cc, self.constructCanonicalCollection fuel = some cc ∧
      (∀ fuel1 cc1, self.constructCanonicalCollection fuel1 = some cc1 → cc1 = cc) ∧
      ∀ s ∈ cc, s ≠ [] ∧ s.Nodup ∧
        ∀ x ∈ s, x.prodId < self.productions.length ∧
          x.dotPos ≤ (prodAt self.productions x.prodId).right.length := by
  obtain ⟨cc, hcc⟩ := canonical_terminates self
  refine ⟨_, cc, hcc, fun fuel1 cc1 h1 => canonical_unique self _ _ _ _ h1 hcc, ?_⟩
  intro s hs
  obtain ⟨h1, h2, h3⟩ := canonical_known self _ cc hcc s hs
  exact ⟨h1, h2, fun x hx =>
    ⟨knownItem_lt self.productions hdense hne x (h3 x hx), (h3 x hx).2⟩⟩

/-- Witness of `states_well_formed` (C29): the grammar `S' → S`, `S → a S | b`. -/
theorem states_well_formed_witness :
    ∃ fuel cc, sampleParser.constructCanonicalCollection fuel = some cc ∧
      (∀ fuel1 cc1, sampleParser.constructCanonicalCollection fuel1 = some cc1 → cc1 = cc) ∧
      ∀ s ∈ cc, s ≠ [] ∧ s.Nodup ∧
        ∀ x ∈ s, x.prodId < sampleParser.productions.length ∧
          x.dotPos ≤ (prodAt sampleParser.productions x.prodId).right.length :=
  states_well_formed sampleParser (by decide) (by decide)

/-- C30: for every grammar (a finite list of productions, with dense ids or not) the loop
of `constructCanonicalCollection` stops: there is a number of passes, at most the number
of duplicate-free lists of items the engine can build plus one, within which it returns,
and it returns the same collection for every larger bound.  Every state of the collection
is a duplicate-free list of items the engine can build, and no state occurs twice, so the
collection is no longer than the list of all such lists.  The loop of `closure` stops
within `productions.size() + 1` passes. -/
theorem canonical_collection_terminates (self : SLRParser) :
    ∃ fuel cc, fuel ≤ (stateUniverse self.productions).length + 1 ∧
      self.constructCanonicalCollection fuel = some cc ∧
      (∀ fuel1, fuel ≤ fuel1 → self.constructCanonicalCollection fuel1 = some cc) ∧
      cc.Nodup ∧ (∀ s ∈ cc, KnownState self.productions s) ∧
      cc.length ≤ (stateUniverse self.productions).length ∧
      ∀ items, ∃ r, doWhile (closurePass self.productions self.nonTerminals)
        (self.productions.length + 1) items = some r ∧ self.closure items = r := by
  obtain ⟨cc, hcc⟩ := canonical_terminates self
  have hn := (canonical_induction self (fun _ => True) trivial
    (fun _ _ _ _ => trivial) _ cc hcc).2.1
  have hk := canonical_known self _ cc hcc
  refine ⟨_, cc, Nat.le_refl _, hcc, fun fuel1 h1 => canonical_mono self _ _ cc h1 hcc, hn,
    fun s hs => (hk s hs).2, ?_, ?_⟩
  · exact (List.Nodup.subperm hn
      (fun s hs => knownState_mem_universe _ s (hk s hs).2)).length_le
  · intro items
    obtain ⟨r, hr⟩ := closure_terminates self.productions self.nonTerminals items
    refine ⟨r, hr, ?_⟩
    unfold SLRParser.closure
    rw [hr]
    rfl

/-! ## The values stored in the tables -/

theorem StrMap.assign_all {α : Type} (P : α → Prop) (m : StrMap α) (k : String) (v : α)
    (hm : ∀ e ∈ m, P e.2) (hv : P v) : ∀ e ∈ m.assign k v, P e.2 := by
  induction m with
  | nil =>
    intro e he
    simp only [StrMap.assign, List.mem_singleton] at he
    rw [he]
    exact hv
  | cons x rest ih =>
    obtain ⟨k1, w⟩ := x
    intro e he
    simp only [StrMap.assign] at he
    split at he
    · rcases List.mem_cons.mp he with h | h
      · rw [h]
        exact hv
      · exact hm e (List.mem_cons_of_mem _ h)
    · rcases List.mem_cons.mp he with h | h
      · rw [h]
        exact hm (k1, w) (List.mem_cons_self _ _)
      · exact ih (fun e1 h1 => hm e1 (List.mem_cons_of_mem _ h1)) e h

theorem assignReduce_all (P : TableAction → Prop) (prodId : Nat)
    (hv : P ⟨ActionType.REDUCE, (prodId : Int)⟩) :
    ∀ (l : List String) (row : StrMap TableAction), (∀ e ∈ row, P e.2) →
      ∀ e ∈ assignReduce prodId l row, P e.2 := by
  intro l
  induction l with
  | nil => intro row h; exact h
  | cons a rest ih =>
    intro row h
    simp only [assignReduce]
    exact ih _ (StrMap.assign_all P row a _ h hv)

/-- The entries that the reduce loop leaves are those of the row it started from, `accept`,
and `reduce(prod.id)` for the production of a complete item. -/
theorem reduceEntries_all (self : SLRParser) (P : TableAction → Prop)
    (hacc : P ⟨ActionType.ACCEPT, -1⟩) :
    ∀ (l : List Item) (row : StrMap TableAction), (∀ e ∈ row, P e.2) →
      (∀ item ∈ l, item.dotPos = (prodAt self.productions item.prodId).right.length →
        P ⟨ActionType.REDUCE, ((prodAt self.productions item.prodId).id : Int)⟩) →
      ∀ e ∈ self.reduceEntries l row, P e.2 := by
  intro l
  induction l with
  | nil => intro row h _; exact h
  | cons item rest ih =>
    intro row h hl
    have hrest : ∀ it ∈ rest, it.dotPos = (prodAt self.productions it.prodId).right.length →
        P ⟨ActionType.REDUCE, ((prodAt self.productions it.prodId).id : Int)⟩ :=
      fun it hit => hl it (List.mem_cons_of_mem _ hit)
    simp only [SLRParser.reduceEntries]
    split
    · rename_i hdot
      split
      · exact ih _ (StrMap.assign_all P row "$" _ h hacc) hrest
      · exact ih _ (assignReduce_all P _ (hl item (List.mem_cons_self _ _) hdot) _ row h) hrest
    · exact ih _ h hrest

/-- The entries that the shift loop leaves are those of the rows it started from and the
indices that `getStateIndex` found. -/
theorem shiftEntries_all (self : SLRParser) (cc : List (List Item)) (items : List Item)
    (P : TableAction → Prop) (Q : Int → Prop)
    (hidx : ∀ X, getStateIndex (self.goTo items X) cc 0 ≠ -1 →
      P ⟨ActionType.SHIFT, getStateIndex (self.goTo items X) cc 0⟩ ∧
      Q (getStateIndex (self.goTo items X) cc 0)) :
    ∀ (l : List Item) (st : StrMap TableAction × StrMap Int × StrSet),
      (∀ e ∈ st.1, P e.2) → (∀ e ∈ st.2.1, Q e.2) →
      (∀ e ∈ (self.shiftEntries cc items l st).1, P e.2) ∧
      (∀ e ∈ (self.shiftEntries cc items l st).2.1, Q e.2) := by
  intro l
  induction l with
  | nil => intro st h1 h2; exact ⟨h1, h2⟩
  | cons item rest ih =>
    intro st h1 h2
    simp only [SLRParser.shiftEntries]
    split
    · split
      · exact ih st h1 h2
      · split
        · exact ih _ h1 h2
        · rename_i hne
          split
          · exact ih _ (StrMap.assign_all P st.1 _ _ h1 (hidx _ hne).1) h2
          · split
            · exact ih _ h1 (StrMap.assign_all Q st.2.1 _ _ h2 (hidx _ hne).2)
            · exact ih _ h1 h2
    · exact ih st h1 h2

/-- The value of `getStateIndex` is `-1` or an index of the collection. -/
theorem getStateIndex_range (x : List Item) :
    ∀ (l : List (List Item)) (i : Nat), getStateIndex x l i = -1 ∨
      ∃ j, j < l.length ∧ getStateIndex x l i = ((i + j : Nat) : Int) := by
  intro l
  induction l with
  | nil => intro i; exact Or.inl rfl
  | cons s rest ih =>
    intro i
    simp only [getStateIndex]
    split
    · exact Or.inr ⟨0, by simp, by simp⟩
    · rcases ih (i + 1) with h | ⟨j, h1, h2⟩
      · exact Or.inl h
      · refine Or.inr ⟨j + 1, by simp; omega, ?_⟩
        rw [h2]
        congr 1
        omega

theorem mem_getD_row {α : Type} (l : List (List α)) (i : Nat) (e : α)
    (h : e ∈ l.getD i []) : l.getD i [] ∈ l := by
  by_cases hi : i < l.length
  · rw [List.getD_eq_getElem _ _ hi]
    exact List.getElem_mem hi
  · rw [List.getD_eq_default _ _ (by omega)] at h
    simp at h

/-- The rows that `buildSLRTable` fills for a state of the collection hold only values
in range. -/
theorem buildRow_inRange (self : SLRParser) (cc : List (List Item))
    (hdense : ∀ i < self.productions.length, (prodAt self.productions i).id = i)
    (hne : self.productions ≠ []) (I : List Item) (hI : KnownState self.productions I) :
    (∀ e ∈ (self.buildRow cc I).1, ActionInRange cc.length self.productions.length e.2) ∧
    (∀ e ∈ (self.buildRow cc I).2, GotoInRange cc.length e.2) := by
  have hred : ∀ e ∈ self.reduceEntries I [],
      ActionInRange cc.length self.productions.length e.2 := by
    refine reduceEntries_all self (ActionInRange cc.length self.productions.length)
      ⟨fun h => absurd h (by decide), fun h => absurd h (by decide)⟩ I []
      (fun e he => absurd he (List.not_mem_nil _)) ?_
    intro item hitem _
    have hlt := knownItem_lt self.productions hdense hne item (hI.2 item hitem)
    rw [hdense _ hlt]
    exact ⟨fun h => absurd h (by simp), fun _ => ⟨Int.ofNat_nonneg _, by simpa using hlt⟩⟩
  have hidx : ∀ X, getStateIndex (self.goTo I X) cc 0 ≠ -1 →
      ActionInRange cc.length self.productions.length
        ⟨ActionType.SHIFT, getStateIndex (self.goTo I X) cc 0⟩ ∧
      GotoInRange cc.length (getStateIndex (self.goTo I X) cc 0) := by
    intro X hX
    rcases getStateIndex_range (self.goTo I X) cc 0 with h | ⟨j, h1, h2⟩
    · exact absurd h hX
    · rw [Nat.zero_add] at h2
      rw [h2]
      exact ⟨⟨fun _ => ⟨Int.ofNat_nonneg _, by simpa using h1⟩,
        fun h => absurd h (by simp)⟩, Int.ofNat_nonneg _, by simpa using h1⟩
  exact shiftEntries_all self cc I (ActionInRange cc.length self.productions.length)
    (GotoInRange cc.length) hidx I (self.reduceEntries I [], [], []) hred
    (fun e he => absurd he (List.not_mem_nil _))

/-- The tables that `buildSLRTable` fills for the canonical collection hold only values
in range. -/
theorem tablesOf_inRange (self : SLRParser)
    (hdense : ∀ i < self.productions.length, (prodAt self.productions i).id = i)
    (hne : self.productions ≠ []) (fuel : Nat) (cc : List (List Item))
    (hcc : self.constructCanonicalCollection fuel = some cc) :
    (self.tablesOf cc).action.length = cc.length ∧
    (self.tablesOf cc).goto_.length = cc.length ∧ 0 < cc.length ∧
    (∀ row ∈ (self.tablesOf cc).action, ∀ e ∈ row,
      ActionInRange cc.length self.productions.length e.2) ∧
    (∀ row ∈ (self.tablesOf cc).goto_, ∀ e ∈ row, GotoInRange cc.length e.2) := by
  have hk := canonical_known self fuel cc hcc
  obtain ⟨⟨tail, ht⟩, _, _⟩ := canonical_induction self (fun _ => True) trivial
    (fun _ _ _ _ => trivial) fuel cc hcc
  refine ⟨by simp [SLRParser.tablesOf], by simp [SLRParser.tablesOf], by rw [ht]; simp, ?_, ?_⟩
  · intro row hrow e he
    simp only [SLRParser.tablesOf, List.map_map, List.mem_map, Function.comp] at hrow
    obtain ⟨I, hI, rfl⟩ := hrow
    exact (buildRow_inRange self cc hdense hne I (hk I hI).2).1 e he
  · intro row hrow e he
    simp only [SLRParser.tablesOf, List.map_map, List.mem_map, Function.comp] at hrow
    obtain ⟨I, hI, rfl⟩ := hrow
    exact (buildRow_inRange self cc hdense hne I (hk I hI).2).2 e he

/-- The action that the driver reads is in range. -/
theorem getAction_inRange (self : SyntaxParser) (h : self.InRange) (state : Int)
    (token : Token) :
    ActionInRange self.tables_.action.length self.productions_.length
      (self.getAction state token) := by
  by_cases herr : (self.getAction state token).type = ActionType.ERROR
  · exact ⟨fun h1 => absurd (h1.symm.trans herr) (by decide),
      fun h1 => absurd (h1.symm.trans herr) (by decide)⟩
  · have hmem := getAction_entry self state token herr
    exact h.2.2.1 _ (mem_getD_row _ _ _ hmem) _ hmem

theorem performReduction_inRange (self : SyntaxParser) (h : self.InRange) (prodId : Int)
    (c c1 : ParseContext) (hc : self.StatesInRange c)
    (hred : self.performReduction prodId c = .ok c1) : self.StatesInRange c1 := by
  by_cases hs : (prodAt self.productions_ prodId.toNat).right.length < c.stateStack.length ∧
      (prodAt self.productions_ prodId.toNat).right.length ≤ c.symbolStack.length
  · rw [performReduction_eq self prodId c hs.1 hs.2] at hred
    cases hf : (self.gotoRow (c.stateStack.getD (c.stateStack.length -
        (prodAt self.productions_ prodId.toNat).right.length - 1) 0)).find?
        (prodAt self.productions_ prodId.toNat).left with
    | none => rw [hf] at hred; simp at hred
    | some v =>
      rw [hf] at hred
      simp only [Except.ok.injEq] at hred
      subst hred
      have hmem := StrMap.mem_of_find? _ _ _ hf
      have hv : GotoInRange self.tables_.action.length v :=
        h.2.2.2 _ (mem_getD_row _ _ _ hmem) _ hmem
      intro s hsm
      rcases List.mem_append.mp hsm with hsm | hsm
      · exact hc s (List.mem_of_mem_take hsm)
      · rw [List.mem_singleton] at hsm
        rw [hsm]
        exact hv
  · rw [reduction_underflow self prodId c hs] at hred
    simp at hred

theorem recoverFromError_inRange (self : SyntaxParser) (c c1 : ParseContext)
    (hc : self.StatesInRange c) (hrec : self.recoverFromError c = .ok c1) :
    self.StatesInRange c1 := by
  unfold SyntaxParser.recoverFromError at hrec
  simp only [] at hrec
  split at hrec
  · simp at hrec
  · simp only [Except.ok.injEq] at hrec
    subst hrec
    obtain ⟨j, h1, _⟩ := popLoop_eq self c.tokens
      (skipLoop c.tokens (c.tokens.length - c.pos) c.pos) c.stateStack.length
      c.stateStack c.symbolStack
    intro s hs
    have hs1 : s ∈ (self.popLoop c.tokens
        (skipLoop c.tokens (c.tokens.length - c.pos) c.pos) c.stateStack.length
        c.stateStack c.symbolStack).1 := hs
    rw [h1] at hs1
    exact hc s (List.mem_of_mem_take hs1)

theorem iteration_inRange (self : SyntaxParser) (h : self.InRange) (c c1 : ParseContext)
    (reported : List Diagnostic) (hc : self.StatesInRange c)
    (hit : self.iteration c = .next c1 reported) : self.StatesInRange c1 := by
  unfold SyntaxParser.iteration at hit
  simp only [] at hit
  cases hl : c.stateStack.getLast? with
  | none => rw [hl] at hit; simp at hit
  | some cur =>
    rw [hl] at hit
    simp only [] at hit
    have hact := getAction_inRange self h cur (c.tokens.getD c.pos default)
    cases ht : (self.getAction cur (c.tokens.getD c.pos default)).type with
    | SHIFT =>
      rw [ht] at hit
      simp only [StepResult.next.injEq] at hit
      rw [← hit.1]
      intro s hs
      have hs1 : s ∈ c.stateStack ++
          [(self.getAction cur (c.tokens.getD c.pos default)).value] := hs
      rcases List.mem_append.mp hs1 with hs1 | hs1
      · exact hc s hs1
      · rw [List.mem_singleton] at hs1
        rw [hs1]
        exact hact.1 ht
    | REDUCE =>
      rw [ht] at hit
      simp only [] at hit
      cases hr : self.performReduction (self.getAction cur (c.tokens.getD c.pos default)).value c with
      | error e => rw [hr] at hit; simp at hit
      | ok c2 =>
        rw [hr] at hit
        simp only [StepResult.next.injEq] at hit
        rw [← hit.1]
        exact performReduction_inRange self h _ c c2 hc hr
    | ACCEPT => rw [ht] at hit; simp at hit
    | ERROR =>
      rw [ht] at hit
      simp only [] at hit
      cases hr : self.recoverFromError c with
      | error e => rw [hr] at hit; simp at hit
      | ok c2 =>
        rw [hr] at hit
        simp only [StepResult.next.injEq] at hit
        rw [← hit.1]
        exact recoverFromError_inRange self c c2 hc hr

/-- C31: for every grammar with dense production ids that has production 0, the tables that
`buildSLRTable` produces (the same for every sufficient number of passes) have one `ACTION`
row and one `GOTO` row per state; every shift target and every `GOTO` target stored in them
is a valid state index and every reduce value a valid production id.  Hence in every
configuration that the driver reaches with these tables every state on the state stack is
the index of a row of both tables, and the action it reads there has a shift target that is
a row index and a reduce value that is an index of `productions_`. -/
theorem tables_in_range (self : SLRParser)
    (hdense : ∀ i < self.productions.length, (prodAt self.productions i).id = i)
    (hne : self.productions ≠ []) :
    ∃ fuel cc tables, self.constructCanonicalCollection fuel = some cc ∧
      self.buildSLRTable fuel = some tables ∧
      (∀ fuel1 tables1, self.buildSLRTable fuel1 = some tables1 → tables1 = tables) ∧
      tables.action.length = cc.length ∧ tables.goto_.length = cc.length ∧
      (∀ row ∈ tables.action, ∀ e ∈ row,
        (e.2.type = ActionType.SHIFT → 0 ≤ e.2.value ∧ e.2.value.toNat < cc.length) ∧
        (e.2.type = ActionType.REDUCE →
          0 ≤ e.2.value ∧ e.2.value.toNat < self.productions.length)) ∧
      (∀ row ∈ tables.goto_, ∀ e ∈ row, 0 ≤ e.2 ∧ e.2.toNat < cc.length) ∧
      ∀ tokens n c,
        (SyntaxParser.mk tables self.productions).configAfter n (ParseContext.init tokens) =
          some c →
        (∀ s ∈ c.stateStack, 0 ≤ s ∧ s.toNat < tables.action.length ∧
          s.toNat < tables.goto_.length) ∧
        ∀ cur, c.stateStack.getLast? = some cur →
          (((SyntaxParser.mk tables self.productions).getAction cur
              (c.tokens.getD c.pos default)).type = ActionType.SHIFT →
            0 ≤ ((SyntaxParser.mk tables self.productions).getAction cur
              (c.tokens.getD c.pos default)).value ∧
            ((SyntaxParser.mk tables self.productions).getAction cur
              (c.tokens.getD c.pos default)).value.toNat < tables.action.length) ∧
          (((SyntaxParser.mk tables self.productions).getAction cur
              (c.tokens.getD c.pos default)).type = ActionType.REDUCE →
            0 ≤ ((SyntaxParser.mk tables self.productions).getAction cur
              (c.tokens.getD c.pos default)).value ∧
            ((SyntaxParser.mk tables self.productions).getAction cur
              (c.tokens.getD c.pos default)).value.toNat < self.productions.length) := by
  obtain ⟨cc, hcc⟩ := canonical_terminates self
  have htab : self.buildSLRTable ((stateUniverse self.productions).length + 1) =
      some (self.tablesOf cc) := by
    simp only [SLRParser.buildSLRTable, hcc]
  obtain ⟨h1, h2, h3, h4, h5⟩ := tablesOf_inRange self hdense hne _ cc hcc
  have hin : (SyntaxParser.mk (self.tablesOf cc) self.productions).InRange := by
    refine ⟨?_, ?_, ?_, ?_⟩
    · show 0 < (self.tablesOf cc).action.length
      rw [h1]
      exact h3
    · show (self.tablesOf cc).goto_.length = (self.tablesOf cc).action.length
      rw [h1, h2]
    · show ∀ row ∈ (self.tablesOf cc).action, ∀ e ∈ row,
        ActionInRange (self.tablesOf cc).action.length self.productions.length e.2
      rw [h1]
      exact h4
    · show ∀ row ∈ (self.tablesOf cc).goto_, ∀ e ∈ row,
        GotoInRange (self.tablesOf cc).action.length e.2
      rw [h1]
      exact h5
  refine ⟨_, cc, self.tablesOf cc, hcc, htab,
    fun fuel1 tables1 t1 => buildSLRTable_unique self _ _ _ _ t1 htab, h1, h2, h4, h5, ?_⟩
  intro tokens n c hreach
  have hinv : (SyntaxParser.mk (self.tablesOf cc) self.productions).StatesInRange c := by
    apply configAfter_induction (SyntaxParser.mk (self.tablesOf cc) self.productions)
      (SyntaxParser.StatesInRange (SyntaxParser.mk (self.tablesOf cc) self.productions))
      (fun c c1 reported hc _ hit => iteration_inRange _ hin c c1 reported hc hit) n
      (ParseContext.init tokens) c _ hreach
    intro s hs
    have hs1 : s ∈ [(0 : Int)] := hs
    rw [List.mem_singleton] at hs1
    rw [hs1]
    exact ⟨Int.le_refl _, hin.1⟩
  constructor
  · intro s hs
    obtain ⟨a, b⟩ := hinv s hs
    refine ⟨a, b, ?_⟩
    rw [h2, ← h1]
    exact b
  · intro cur _
    exact getAction_inRange _ hin cur (c.tokens.getD c.pos default)

/-- Witness of `tables_in_range` (C31): the grammar `S' → S`, `S → a S | b`. -/
theorem tables_in_range_witness :
    ∃ fuel cc tables, sampleParser.constructCanonicalCollection fuel = some cc ∧
      sampleParser.buildSLRTable fuel = some tables ∧
      (∀ fuel1 tables1, sampleParser.buildSLRTable fuel1 = some tables1 → tables1 = tables) ∧
      tables.action.length = cc.length ∧ tables.goto_.length = cc.length ∧
      (∀ row ∈ tables.action, ∀ e ∈ row,
        (e.2.type = ActionType.SHIFT → 0 ≤ e.2.value ∧ e.2.value.toNat < cc.length) ∧
        (e.2.type = ActionType.REDUCE →
          0 ≤ e.2.value ∧ e.2.value.toNat < sampleParser.productions.length)) ∧
      (∀ row ∈ tables.goto_, ∀ e ∈ row, 0 ≤ e.2 ∧ e.2.toNat < cc.length) ∧
      ∀ tokens n c,
        (SyntaxParser.mk tables sampleParser.productions).configAfter n
            (ParseContext.init tokens) = some c →
        (∀ s ∈ c.stateStack, 0 ≤ s ∧ s.toNat < tables.action.length ∧
          s.toNat < tables.goto_.length) ∧
        ∀ cur, c.stateStack.getLast? = some cur →
          (((SyntaxParser.mk tables sampleParser.productions).getAction cur
              (c.tokens.getD c.pos default)).type = ActionType.SHIFT →
            0 ≤ ((SyntaxParser.mk tables sampleParser.productions).getAction cur
              (c.tokens.getD c.pos default)).value ∧
            ((SyntaxParser.mk tables sampleParser.productions).getAction cur
              (c.tokens.getD c.pos default)).value.toNat < tables.action.length) ∧
          (((SyntaxParser.mk tables sampleParser.productions).getAction cur
              (c.tokens.getD c.pos default)).type = ActionType.REDUCE →
            0 ≤ ((SyntaxParser.mk tables sampleParser.productions).getAction cur
              (c.tokens.getD c.pos default)).value ∧
            ((SyntaxParser.mk tables sampleParser.productions).getAction cur
              (c.tokens.getD c.pos default)).value.toNat <
              sampleParser.productions.length) :=
  tables_in_range sampleParser (by decide) (by decide)

/-! ## The reductions that `parse()` performs -/

end SLR
